import Mathlib

/-!
# bijou: signedness-aware integers, fixed-point semantics, errors, bit helpers

A shallow embedding of `include/bijou/APSInt.hpp`, `lib/bijou/APSInt.cpp`,
`include/bijou/APFixedPoint.hpp`, `include/bijou/Error.hpp` and parts of
`include/bijou/MathExtras.hpp`.  `APSInt` derives from the
arbitrary-precision integer `APInt`, whose header `bijou/APInt.hpp` is not part
of the sources at hand; the `APInt` primitives that the embedded code calls are
modelled from the specification (sections 3 and 4.1) and marked as such.

A failed `assert` (a contract violation, which aborts the process) is the
result `none`; a returned value `v` is `some v`.  A member function that
changes its receiver returns the receiver afterwards next to its result.
-/

namespace bijou

/-! ## The integer engine (`bijou/APInt.hpp`) -/

/-- Modelled from the spec: the class `APInt` of `bijou/APInt.hpp`, absent from
the sources.  Section 3: `{BitWidth: positive integer, Bits: exact
two's-complement pattern of BitWidth bits}`; the limbs are abstracted to the
natural number whose binary digits they hold. -/
structure APInt where
  BitWidth : Nat
  Bits : Nat
deriving DecidableEq, Repr

/-- The class `APSInt` (`APSInt.hpp:43-44`): an `APInt` base sub-object plus the
flag `IsUnsigned`. -/
structure APSInt extends APInt where
  IsUnsigned : Bool
deriving DecidableEq, Repr

namespace APInt

/-- Modelled from the spec: the invariant of section 3, a positive bit width
and no bit stored above `BitWidth`. -/
def WF (a : APInt) : Prop := 0 < a.BitWidth ∧ a.Bits < 2 ^ a.BitWidth

instance (a : APInt) : Decidable a.WF := by
  unfold WF
  exact inferInstance

/-- Modelled from the spec: the constructor `APInt(numBits, val)` of section 4.1,
which truncates `val` into `numBits` bits; a zero bit width aborts. -/
def ofValue (numBits val : Nat) : Option APInt :=
  if numBits = 0 then none else some ⟨numBits, val % 2 ^ numBits⟩

/-- Modelled from the spec: `APInt::isNegative`, the top bit of the pattern. -/
def isNegative (a : APInt) : Bool := a.Bits.testBit (a.BitWidth - 1)

/-- Modelled from the spec: `APInt::isZero`, no bit set. -/
def isZero (a : APInt) : Bool := a.Bits == 0

/-- The bits read as an unsigned number. -/
def toUnsigned (a : APInt) : Int := (a.Bits : Int)

/-- The bits read as a two's-complement number (glossary: a negative value `v`
has the pattern `2^w - |v|`). -/
def toSigned (a : APInt) : Int :=
  if a.isNegative then (a.Bits : Int) - 2 ^ a.BitWidth else (a.Bits : Int)

/-- Three-way result of an ordering test, in the style of the engine: `-1`, `0`
or `1`. -/
def cmp3 (x y : Int) : Int := if x < y then -1 else if y < x then 1 else 0

/-- Modelled from the spec: `APInt::compare`, the unsigned three-way comparison
behind `ult/ugt/ule/uge` (section 4.1: bits read as unsigned, equal widths
required). -/
def compare (a b : APInt) : Option Int :=
  if a.BitWidth = b.BitWidth then some (cmp3 a.toUnsigned b.toUnsigned) else none

/-- Modelled from the spec: `APInt::compareSigned`, the signed three-way
comparison behind `slt/sgt/sle/sge` (section 4.1: bits read as signed, equal
widths required). -/
def compareSigned (a b : APInt) : Option Int :=
  if a.BitWidth = b.BitWidth then some (cmp3 a.toSigned b.toSigned) else none

/-- Modelled from the spec: `APInt::zext`, extension with zero fill (section
4.1).  `zextOrTrunc` is the form that accepts any width, so a request that does
not widen is a contract violation. -/
def zext (a : APInt) (width : Nat) : Option APInt :=
  if a.BitWidth < width then some ⟨width, a.Bits⟩ else none

/-- Modelled from the spec: `APInt::sext`, extension with sign fill (section
4.1): the new high bits `BitWidth .. width-1` are copies of the sign bit. -/
def sext (a : APInt) (width : Nat) : Option APInt :=
  if a.BitWidth < width then
    some ⟨width, if a.isNegative then a.Bits + (2 ^ width - 2 ^ a.BitWidth) else a.Bits⟩
  else none

/-- Modelled from the spec: `APInt::udiv` (section 4.1): unsigned quotient of
equal-width operands; division by zero is a contract violation. -/
def udiv (a b : APInt) : Option APInt :=
  if a.BitWidth ≠ b.BitWidth then none
  else if b.Bits = 0 then none
  else some ⟨a.BitWidth, a.Bits / b.Bits⟩

/-- Modelled from the spec: `APInt::urem` (section 4.1): unsigned remainder;
division by zero is a contract violation. -/
def urem (a b : APInt) : Option APInt :=
  if a.BitWidth ≠ b.BitWidth then none
  else if b.Bits = 0 then none
  else some ⟨a.BitWidth, a.Bits % b.Bits⟩

/-- Modelled from the spec: `APInt::sdiv` (section 4.1): the truncating
quotient of the operands read as signed, wrapped into `BitWidth` bits;
division by zero is a contract violation. -/
def sdiv (a b : APInt) : Option APInt :=
  if a.BitWidth ≠ b.BitWidth then none
  else if b.Bits = 0 then none
  else some ⟨a.BitWidth, (Int.tdiv a.toSigned b.toSigned % 2 ^ a.BitWidth).toNat⟩

/-- Modelled from the spec: `APInt::srem` (section 4.1): the remainder of the
truncating signed division, wrapped into `BitWidth` bits; division by zero is
a contract violation. -/
def srem (a b : APInt) : Option APInt :=
  if a.BitWidth ≠ b.BitWidth then none
  else if b.Bits = 0 then none
  else some ⟨a.BitWidth, (Int.tmod a.toSigned b.toSigned % 2 ^ a.BitWidth).toNat⟩

/-- Modelled from the spec: `APInt::lshr` (section 4.1): logical right shift;
an amount `≥ BitWidth` gives the all-zero result. -/
def lshr (a : APInt) (Amt : Nat) : APInt :=
  if a.BitWidth ≤ Amt then ⟨a.BitWidth, 0⟩ else ⟨a.BitWidth, a.Bits >>> Amt⟩

/-- Modelled from the spec: `APInt::ashr` (section 4.1): arithmetic right
shift; the vacated high `Amt` bits are copies of the sign bit, and an amount
`≥ BitWidth` gives the sign-filled result. -/
def ashr (a : APInt) (Amt : Nat) : APInt :=
  if a.BitWidth ≤ Amt then
    ⟨a.BitWidth, if a.isNegative then 2 ^ a.BitWidth - 1 else 0⟩
  else
    ⟨a.BitWidth,
      if a.isNegative then (a.Bits >>> Amt) + (2 ^ a.BitWidth - 2 ^ (a.BitWidth - Amt))
      else a.Bits >>> Amt⟩

/-- Modelled from the spec: `APInt::ult`. -/
def ult (a b : APInt) : Option Bool :=
  if a.BitWidth = b.BitWidth then some (decide (a.toUnsigned < b.toUnsigned)) else none

/-- Modelled from the spec: `APInt::ugt`. -/
def ugt (a b : APInt) : Option Bool :=
  if a.BitWidth = b.BitWidth then some (decide (a.toUnsigned > b.toUnsigned)) else none

/-- Modelled from the spec: `APInt::ule`. -/
def ule (a b : APInt) : Option Bool :=
  if a.BitWidth = b.BitWidth then some (decide (a.toUnsigned ≤ b.toUnsigned)) else none

/-- Modelled from the spec: `APInt::uge`. -/
def uge (a b : APInt) : Option Bool :=
  if a.BitWidth = b.BitWidth then some (decide (a.toUnsigned ≥ b.toUnsigned)) else none

/-- Modelled from the spec: `APInt::slt`. -/
def slt (a b : APInt) : Option Bool :=
  if a.BitWidth = b.BitWidth then some (decide (a.toSigned < b.toSigned)) else none

/-- Modelled from the spec: `APInt::sgt`. -/
def sgt (a b : APInt) : Option Bool :=
  if a.BitWidth = b.BitWidth then some (decide (a.toSigned > b.toSigned)) else none

/-- Modelled from the spec: `APInt::sle`. -/
def sle (a b : APInt) : Option Bool :=
  if a.BitWidth = b.BitWidth then some (decide (a.toSigned ≤ b.toSigned)) else none

/-- Modelled from the spec: `APInt::sge`. -/
def sge (a b : APInt) : Option Bool :=
  if a.BitWidth = b.BitWidth then some (decide (a.toSigned ≥ b.toSigned)) else none

/-- Modelled from the spec: `APInt::eq`, equality of the bit patterns of
equal-width operands. -/
def eq (a b : APInt) : Option Bool :=
  if a.BitWidth = b.BitWidth then some (decide (a.Bits = b.Bits)) else none

/-- Modelled from the spec: `APInt` addition, exact modulo `2^BitWidth`. -/
def add (a b : APInt) : Option APInt :=
  if a.BitWidth = b.BitWidth then some ⟨a.BitWidth, (a.Bits + b.Bits) % 2 ^ a.BitWidth⟩
  else none

/-- Modelled from the spec: `APInt` subtraction, exact modulo `2^BitWidth`. -/
def sub (a b : APInt) : Option APInt :=
  if a.BitWidth = b.BitWidth then
    some ⟨a.BitWidth, (((a.Bits : Int) - (b.Bits : Int)) % 2 ^ a.BitWidth).toNat⟩
  else none

/-- Modelled from the spec: `APInt` multiplication, exact modulo `2^BitWidth`. -/
def mul (a b : APInt) : Option APInt :=
  if a.BitWidth = b.BitWidth then some ⟨a.BitWidth, (a.Bits * b.Bits) % 2 ^ a.BitWidth⟩
  else none

/-- Modelled from the spec: `APInt` bitwise and. -/
def and (a b : APInt) : Option APInt :=
  if a.BitWidth = b.BitWidth then some ⟨a.BitWidth, a.Bits &&& b.Bits⟩ else none

/-- Modelled from the spec: `APInt` bitwise or. -/
def or (a b : APInt) : Option APInt :=
  if a.BitWidth = b.BitWidth then some ⟨a.BitWidth, a.Bits ||| b.Bits⟩ else none

/-- Modelled from the spec: `APInt` bitwise exclusive or. -/
def xor (a b : APInt) : Option APInt :=
  if a.BitWidth = b.BitWidth then some ⟨a.BitWidth, a.Bits ^^^ b.Bits⟩ else none

/-- Position of the highest set bit among the low `w` bits of `bits`, plus one
(`0` when none is set): the width minus the count of leading zeros. -/
def activeBits (bits : Nat) : Nat → Nat
  | 0 => 0
  | i + 1 => if bits.testBit i then i + 1 else activeBits bits i

/-- Modelled from the spec: `APInt::getActiveBits` (section 4.1), the minimal
bit count needed to represent the value unsigned. -/
def getActiveBits (a : APInt) : Nat := activeBits a.Bits a.BitWidth

/-- Modelled from the spec: `APInt::getMinSignedBits` (section 4.1), the minimal
bit count needed to represent the value signed: one sign bit above the
significant bits of the pattern, taken on the complemented pattern for a
negative value. -/
def getMinSignedBits (a : APInt) : Nat :=
  if a.isNegative then activeBits (2 ^ a.BitWidth - 1 - a.Bits) a.BitWidth + 1
  else activeBits a.Bits a.BitWidth + 1

/-- Modelled from the spec: `APInt::trunc` (section 4.1), which keeps the low
`width` bits.  `zextOrTrunc`/`sextOrTrunc` are the forms that accept any width,
so a request that does not narrow, or a zero width, is a contract violation. -/
def trunc (a : APInt) (width : Nat) : Option APInt :=
  if 0 < width ∧ width < a.BitWidth then some ⟨width, a.Bits % 2 ^ width⟩ else none

/-- Modelled from the spec: `APInt::getZExtValue`, the narrowing to a 64-bit
unsigned value; a narrowing that does not fit is a contract violation
(sections 4.2 and 7). -/
def getZExtValue (a : APInt) : Option Nat :=
  if a.getActiveBits ≤ 64 then some a.Bits else none

/-- Modelled from the spec: `APInt::getSExtValue`, the narrowing to a 64-bit
signed value; a narrowing that does not fit is a contract violation (sections
4.2 and 7). -/
def getSExtValue (a : APInt) : Option Int :=
  if a.getMinSignedBits ≤ 64 then some a.toSigned else none

/-- Modelled from the spec: `APInt::operator=(uint64_t)`: the width is kept and
the value is truncated into it (section 4.1). -/
def assign64 (a : APInt) (RHS : Nat) : APInt := ⟨a.BitWidth, RHS % 2 ^ a.BitWidth⟩

/-- Modelled from the spec: the constructor `APInt(numBits, val, isSigned)` of
section 4.1 on a 64-bit `val`: the value is truncated into `numBits` bits, or
extended to them with zero fill, or with sign fill when `isSigned`; a zero bit
width aborts. -/
def ofValue64 (numBits val : Nat) (isSigned : Bool) : Option APInt :=
  if numBits = 0 then none
  else if isSigned ∧ 2 ^ 63 ≤ val % 2 ^ 64 then
    some ⟨numBits, (val % 2 ^ 64 + (2 ^ (max numBits 64) - 2 ^ 64)) % 2 ^ numBits⟩
  else some ⟨numBits, val % 2 ^ 64 % 2 ^ numBits⟩

/-- Modelled from the spec: value of a digit character in the given radix
(`0`-`9`, then letters of either case); `none` for a character that is not a
digit of the radix (a malformed numeric string, section 4.1). -/
def getDigit (c : Char) (radix : Nat) : Option Nat :=
  let d :=
    if 48 ≤ c.toNat ∧ c.toNat ≤ 57 then c.toNat - 48
    else if 65 ≤ c.toNat ∧ c.toNat ≤ 90 then c.toNat - 65 + 10
    else if 97 ≤ c.toNat ∧ c.toNat ≤ 122 then c.toNat - 97 + 10
    else radix
  if d < radix then some d else none

/-- Modelled from the spec: the digit loop of the string constructor, most
significant digit first. -/
def parseDigits (radix : Nat) : List Char → Nat → Option Nat
  | [], acc => some acc
  | c :: cs, acc =>
    match getDigit c radix with
    | none => none
    | some d => parseDigits radix cs (acc * radix + d)

/-- Modelled from the spec: the string constructor `APInt(numbits, str, radix)`
of section 4.1 with a caller-specified width: digits in the given radix after
an optional leading `-`; the parsed value, negated after a `-`, is held modulo
`2^numbits`.  An empty string, a sign without digits, a character that is not
a digit and a zero bit width abort. -/
def fromString (numbits : Nat) (str : List Char) (radix : Nat) : Option APInt :=
  if numbits = 0 then none
  else
    match str with
    | [] => none
    | c :: cs =>
      if c = '-' then
        if cs = [] then none
        else (parseDigits radix cs 0).map
          (fun v => ⟨numbits, (2 ^ numbits - v % 2 ^ numbits) % 2 ^ numbits⟩)
      else (parseDigits radix (c :: cs) 0).map (fun v => ⟨numbits, v % 2 ^ numbits⟩)

/-- Modelled from the spec: the rounding modes of the rounding division utility
(section 4.1). -/
inductive Rounding where
  | DOWN
  | UP
  | TOWARD_ZERO
  | NEAREST
deriving DecidableEq, Repr

/-- Modelled from the spec: `APIntOps::RoundingUDiv` (section 4.1): the
truncating quotient, adjusted by at most one from the remainder according to
the mode.  The spec does not say how `NEAREST` resolves a tie; it is rounded up
here. -/
def RoundingUDiv (A B : APInt) (RM : Rounding) : Option APInt :=
  match A.udiv B, A.urem B with
  | some Quo, some Rem =>
    match RM with
    | Rounding.DOWN => some Quo
    | Rounding.TOWARD_ZERO => some Quo
    | Rounding.UP => if Rem.Bits = 0 then some Quo else Quo.add ⟨Quo.BitWidth, 1⟩
    | Rounding.NEAREST =>
      if 2 * Rem.Bits < B.Bits then some Quo else Quo.add ⟨Quo.BitWidth, 1⟩
  | _, _ => none

end APInt

/-! ## The signedness-aware facade (`bijou/APSInt.hpp`) -/

namespace APSInt

/-- Class invariant inherited from the `APInt` base. -/
def WF (a : APSInt) : Prop := a.toAPInt.WF

instance (a : APSInt) : Decidable a.WF := by
  unfold WF
  exact inferInstance

/-- Source `APSInt.hpp:97`. -/
def isSigned (a : APSInt) : Bool := !a.IsUnsigned

/-- Source `APSInt.hpp:98`. -/
def isUnsigned (a : APSInt) : Bool := a.IsUnsigned

/-- Source `APSInt.hpp:69`. -/
def isNegative (a : APSInt) : Bool := a.isSigned && a.toAPInt.isNegative

/-- The mathematical value: the bits read as unsigned for an unsigned operand
and as two's complement for a signed one. -/
def value (a : APSInt) : Int :=
  if a.IsUnsigned then a.toAPInt.toUnsigned else a.toAPInt.toSigned

/-- Source `APSInt.hpp:118-123`. -/
def extend (a : APSInt) (width : Nat) : Option APSInt :=
  if a.IsUnsigned then
    (a.toAPInt.zext width).map (fun v => APSInt.mk v a.IsUnsigned)
  else
    (a.toAPInt.sext width).map (fun v => APSInt.mk v a.IsUnsigned)

/-- Source `APSInt.hpp:322-345`. -/
def compareValues (I1 I2 : APSInt) : Option Int :=
  if I1.BitWidth = I2.BitWidth ∧ I1.isSigned = I2.isSigned then
    if I1.IsUnsigned then I1.toAPInt.compare I2.toAPInt
    else I1.toAPInt.compareSigned I2.toAPInt
  -- Check for a bit-width mismatch.
  else if h1 : I1.BitWidth > I2.BitWidth then
    match h : I2.extend I1.BitWidth with
    | none => none
    | some e => compareValues I1 e
  else if h2 : I2.BitWidth > I1.BitWidth then
    match h : I1.extend I2.BitWidth with
    | none => none
    | some e => compareValues e I2
  -- A signedness mismatch.
  else if I1.isSigned then
    if I2.isSigned then none
    else if I1.isNegative then some (-1)
    else I1.toAPInt.compare I2.toAPInt
  else
    if !I2.isSigned then none
    else if I2.isNegative then some 1
    else I1.toAPInt.compare I2.toAPInt
termination_by (if I1.BitWidth = I2.BitWidth then 0 else 1)
decreasing_by
  · have hw : e.BitWidth = I1.BitWidth := by
      cases hu : I2.IsUnsigned <;>
        simp [extend, APInt.zext, APInt.sext, hu, h1] at h <;> subst h <;> rfl
    simp_wf
    rw [if_pos (by omega), if_neg (by omega)]
    exact Nat.zero_lt_one
  · have hw : e.BitWidth = I2.BitWidth := by
      cases hu : I1.IsUnsigned <;>
        simp [extend, APInt.zext, APInt.sext, hu, h2] at h <;> subst h <;> rfl
    simp_wf
    rw [if_pos (by omega), if_neg (by omega)]
    exact Nat.zero_lt_one

/-- Source `APSInt.hpp:317-319`: `!compareValues(I1, I2)`. -/
def isSameValue (I1 I2 : APSInt) : Option Bool :=
  (compareValues I1 I2).map (fun r => r == 0)

/-- Source `APSInt.hpp:347`: `APSInt(APInt(64, X), false)`; the `int64_t` argument is
converted to the `uint64_t` constructor parameter modulo `2^64`. -/
def get (X : Int) : Option APSInt :=
  (APInt.ofValue 64 (X % 2 ^ 64).toNat).map (fun v => APSInt.mk v false)

/-- Source `APSInt.hpp:84-88`, `operator=(APInt)`: the receiver keeps its sign. -/
def assign (a : APSInt) (RHS : APInt) : APSInt := { toAPInt := RHS, IsUnsigned := a.IsUnsigned }

/-- Source `APSInt.hpp:132-139`, `operator%=`; the result is the receiver afterwards. -/
def opRemAssign (a RHS : APSInt) : Option APSInt :=
  if a.IsUnsigned ≠ RHS.IsUnsigned then none
  else if a.IsUnsigned then (a.toAPInt.urem RHS.toAPInt).map a.assign
  else (a.toAPInt.srem RHS.toAPInt).map a.assign

/-- Source `APSInt.hpp:140-147`, `operator/=`; the result is the receiver afterwards. -/
def opDivAssign (a RHS : APSInt) : Option APSInt :=
  if a.IsUnsigned ≠ RHS.IsUnsigned then none
  else if a.IsUnsigned then (a.toAPInt.udiv RHS.toAPInt).map a.assign
  else (a.toAPInt.sdiv RHS.toAPInt).map a.assign

/-- Source `APSInt.hpp:148-151`, `operator%`. -/
def opRem (a RHS : APSInt) : Option APSInt :=
  if a.IsUnsigned ≠ RHS.IsUnsigned then none
  else if a.IsUnsigned then (a.toAPInt.urem RHS.toAPInt).map (fun v => APSInt.mk v true)
  else (a.toAPInt.srem RHS.toAPInt).map (fun v => APSInt.mk v false)

/-- Source `APSInt.hpp:152-155`, `operator/`. -/
def opDiv (a RHS : APSInt) : Option APSInt :=
  if a.IsUnsigned ≠ RHS.IsUnsigned then none
  else if a.IsUnsigned then (a.toAPInt.udiv RHS.toAPInt).map (fun v => APSInt.mk v true)
  else (a.toAPInt.sdiv RHS.toAPInt).map (fun v => APSInt.mk v false)

/-- Source `APSInt.hpp:157-159`, `operator>>`. -/
def opShr (a : APSInt) (Amt : Nat) : APSInt :=
  if a.IsUnsigned then APSInt.mk (a.toAPInt.lshr Amt) true
  else APSInt.mk (a.toAPInt.ashr Amt) false

/-- Source `APSInt.hpp:160-166`, `operator>>=`; the result is the receiver afterwards. -/
def opShrAssign (a : APSInt) (Amt : Nat) : APSInt :=
  if a.IsUnsigned then { a with toAPInt := a.toAPInt.lshr Amt }
  else { a with toAPInt := a.toAPInt.ashr Amt }

/-- Source `APSInt.hpp:168-171`, `operator<`. -/
def opLt (a RHS : APSInt) : Option Bool :=
  if a.IsUnsigned ≠ RHS.IsUnsigned then none
  else if a.IsUnsigned then a.toAPInt.ult RHS.toAPInt else a.toAPInt.slt RHS.toAPInt

/-- Source `APSInt.hpp:172-175`, `operator>`. -/
def opGt (a RHS : APSInt) : Option Bool :=
  if a.IsUnsigned ≠ RHS.IsUnsigned then none
  else if a.IsUnsigned then a.toAPInt.ugt RHS.toAPInt else a.toAPInt.sgt RHS.toAPInt

/-- Source `APSInt.hpp:176-179`, `operator<=`. -/
def opLe (a RHS : APSInt) : Option Bool :=
  if a.IsUnsigned ≠ RHS.IsUnsigned then none
  else if a.IsUnsigned then a.toAPInt.ule RHS.toAPInt else a.toAPInt.sle RHS.toAPInt

/-- Source `APSInt.hpp:180-183`, `operator>=`. -/
def opGe (a RHS : APSInt) : Option Bool :=
  if a.IsUnsigned ≠ RHS.IsUnsigned then none
  else if a.IsUnsigned then a.toAPInt.uge RHS.toAPInt else a.toAPInt.sge RHS.toAPInt

/-- Source `APSInt.hpp:184-187`, `operator==`. -/
def opEq (a RHS : APSInt) : Option Bool :=
  if a.IsUnsigned ≠ RHS.IsUnsigned then none
  else a.toAPInt.eq RHS.toAPInt

/-- Source `APSInt.hpp:188-190`, `operator!=`: `!((*this) == RHS)`. -/
def opNe (a RHS : APSInt) : Option Bool :=
  (a.opEq RHS).map (fun r => !r)

/-- Source `APSInt.hpp:192-194`, `operator==(int64_t)`. -/
def opEqInt (a : APSInt) (RHS : Int) : Option Bool :=
  (get RHS).bind (fun g => (compareValues a g).map (fun r => decide (r = 0)))

/-- Source `APSInt.hpp:195-197`, `operator!=(int64_t)`. -/
def opNeInt (a : APSInt) (RHS : Int) : Option Bool :=
  (get RHS).bind (fun g => (compareValues a g).map (fun r => decide (r ≠ 0)))

/-- Source `APSInt.hpp:198-200`, `operator<=(int64_t)`. -/
def opLeInt (a : APSInt) (RHS : Int) : Option Bool :=
  (get RHS).bind (fun g => (compareValues a g).map (fun r => decide (r ≤ 0)))

/-- Source `APSInt.hpp:201-203`, `operator>=(int64_t)`. -/
def opGeInt (a : APSInt) (RHS : Int) : Option Bool :=
  (get RHS).bind (fun g => (compareValues a g).map (fun r => decide (r ≥ 0)))

/-- Source `APSInt.hpp:204-206`, `operator<(int64_t)`. -/
def opLtInt (a : APSInt) (RHS : Int) : Option Bool :=
  (get RHS).bind (fun g => (compareValues a g).map (fun r => decide (r < 0)))

/-- Source `APSInt.hpp:207-209`, `operator>(int64_t)`. -/
def opGtInt (a : APSInt) (RHS : Int) : Option Bool :=
  (get RHS).bind (fun g => (compareValues a g).map (fun r => decide (r > 0)))

/-- Source `APSInt.hpp:239-243`, `operator+=`; the result is the receiver afterwards. -/
def opAddAssign (a RHS : APSInt) : Option APSInt :=
  if a.IsUnsigned ≠ RHS.IsUnsigned then none
  else (a.toAPInt.add RHS.toAPInt).map (fun v => { a with toAPInt := v })

/-- Source `APSInt.hpp:244-248`, `operator-=`; the result is the receiver afterwards. -/
def opSubAssign (a RHS : APSInt) : Option APSInt :=
  if a.IsUnsigned ≠ RHS.IsUnsigned then none
  else (a.toAPInt.sub RHS.toAPInt).map (fun v => { a with toAPInt := v })

/-- Source `APSInt.hpp:249-253`, `operator*=`; the result is the receiver afterwards. -/
def opMulAssign (a RHS : APSInt) : Option APSInt :=
  if a.IsUnsigned ≠ RHS.IsUnsigned then none
  else (a.toAPInt.mul RHS.toAPInt).map (fun v => { a with toAPInt := v })

/-- Source `APSInt.hpp:254-258`, `operator&=`; the result is the receiver afterwards. -/
def opAndAssign (a RHS : APSInt) : Option APSInt :=
  if a.IsUnsigned ≠ RHS.IsUnsigned then none
  else (a.toAPInt.and RHS.toAPInt).map (fun v => { a with toAPInt := v })

/-- Source `APSInt.hpp:259-263`, `operator|=`; the result is the receiver afterwards. -/
def opOrAssign (a RHS : APSInt) : Option APSInt :=
  if a.IsUnsigned ≠ RHS.IsUnsigned then none
  else (a.toAPInt.or RHS.toAPInt).map (fun v => { a with toAPInt := v })

/-- Source `APSInt.hpp:264-268`, `operator^=`; the result is the receiver afterwards. -/
def opXorAssign (a RHS : APSInt) : Option APSInt :=
  if a.IsUnsigned ≠ RHS.IsUnsigned then none
  else (a.toAPInt.xor RHS.toAPInt).map (fun v => { a with toAPInt := v })

/-- Source `APSInt.hpp:270-273`, `operator&`. -/
def opAnd (a RHS : APSInt) : Option APSInt :=
  if a.IsUnsigned ≠ RHS.IsUnsigned then none
  else (a.toAPInt.and RHS.toAPInt).map (fun v => APSInt.mk v a.IsUnsigned)

/-- Source `APSInt.hpp:275-278`, `operator|`. -/
def opOr (a RHS : APSInt) : Option APSInt :=
  if a.IsUnsigned ≠ RHS.IsUnsigned then none
  else (a.toAPInt.or RHS.toAPInt).map (fun v => APSInt.mk v a.IsUnsigned)

/-- Source `APSInt.hpp:280-283`, `operator^`. -/
def opXor (a RHS : APSInt) : Option APSInt :=
  if a.IsUnsigned ≠ RHS.IsUnsigned then none
  else (a.toAPInt.xor RHS.toAPInt).map (fun v => APSInt.mk v a.IsUnsigned)

/-- Source `APSInt.hpp:285-288`, `operator*`. -/
def opMul (a RHS : APSInt) : Option APSInt :=
  if a.IsUnsigned ≠ RHS.IsUnsigned then none
  else (a.toAPInt.mul RHS.toAPInt).map (fun v => APSInt.mk v a.IsUnsigned)

/-- Source `APSInt.hpp:289-292`, `operator+`. -/
def opAdd (a RHS : APSInt) : Option APSInt :=
  if a.IsUnsigned ≠ RHS.IsUnsigned then none
  else (a.toAPInt.add RHS.toAPInt).map (fun v => APSInt.mk v a.IsUnsigned)

/-- Source `APSInt.hpp:293-296`, `operator-`. -/
def opSub (a RHS : APSInt) : Option APSInt :=
  if a.IsUnsigned ≠ RHS.IsUnsigned then none
  else (a.toAPInt.sub RHS.toAPInt).map (fun v => APSInt.mk v a.IsUnsigned)

/-- Source `APSInt.hpp:74`. -/
def isNonNegative (a : APSInt) : Bool := !a.isNegative

/-- Source `APSInt.hpp:82`. -/
def isStrictlyPositive (a : APSInt) : Bool := a.isNonNegative && !a.toAPInt.isZero

/-- Source `APSInt.hpp:90-94`, `operator=(uint64_t)`: the receiver keeps its
sign. -/
def assignUInt64 (a : APSInt) (RHS : Nat) : APSInt :=
  { toAPInt := a.toAPInt.assign64 RHS, IsUnsigned := a.IsUnsigned }

/-- Conversion of a `uint64_t` to the return type `int64_t`: the same 64-bit
pattern read as two's complement. -/
def asInt64 (u : Nat) : Int :=
  if u % 2 ^ 64 < 2 ^ 63 then ((u % 2 ^ 64 : Nat) : Int) else ((u % 2 ^ 64 : Nat) : Int) - 2 ^ 64

/-- Source `APSInt.hpp:109-112`, `getExtValue`. -/
def getExtValue (a : APSInt) : Option Int :=
  if a.toAPInt.getMinSignedBits ≤ 64 then
    if a.isSigned then a.toAPInt.getSExtValue
    else (a.toAPInt.getZExtValue).map asInt64
  else none

/-- Source `APSInt.cpp:36`, the initialiser of the local `unsigned NumBits`:
`((Str.size() * 64) / 19) + 2` is computed in `size_t` (64 bits) and the result
is converted to `unsigned` (32 bits). -/
def NumBits (Str : List Char) : Nat := (Str.length * 64 % 2 ^ 64 / 19 + 2) % 2 ^ 32

/-- Source `APSInt.cpp:32-49`, the constructor `APSInt(std::string_view Str)`;
`Str` is the list of its characters. -/
def ofString (Str : List Char) : Option APSInt :=
  if Str = [] then none
  else
    -- (Over-)estimate the required number of bits.
    let NumBits := APSInt.NumBits Str
    match APInt.fromString NumBits Str 10 with
    | none => none
    | some Tmp =>
      if Str.head? = some '-' then
        let MinBits := Tmp.getMinSignedBits
        if MinBits < NumBits then
          (Tmp.trunc (max 1 MinBits)).map (fun t => APSInt.mk t false)
        else some (APSInt.mk Tmp false)
      else
        let ActiveBits := Tmp.getActiveBits
        if ActiveBits < NumBits then
          (Tmp.trunc (max 1 ActiveBits)).map (fun t => APSInt.mk t true)
        else some (APSInt.mk Tmp true)

end APSInt

/-- Source `APSInt.hpp:354`, `operator==(int64_t, const APSInt&)`. -/
def intEq (V1 : Int) (V2 : APSInt) : Option Bool := V2.opEqInt V1

/-- Source `APSInt.hpp:355`, `operator!=(int64_t, const APSInt&)`. -/
def intNe (V1 : Int) (V2 : APSInt) : Option Bool := V2.opNeInt V1

/-- Source `APSInt.hpp:356`, `operator<=(int64_t, const APSInt&)`. -/
def intLe (V1 : Int) (V2 : APSInt) : Option Bool := V2.opGeInt V1

/-- Source `APSInt.hpp:357`, `operator>=(int64_t, const APSInt&)`. -/
def intGe (V1 : Int) (V2 : APSInt) : Option Bool := V2.opLeInt V1

/-- Source `APSInt.hpp:358`, `operator<(int64_t, const APSInt&)`. -/
def intLt (V1 : Int) (V2 : APSInt) : Option Bool := V2.opGtInt V1

/-- Source `APSInt.hpp:359`, `operator>(int64_t, const APSInt&)`. -/
def intGt (V1 : Int) (V2 : APSInt) : Option Bool := V2.opLtInt V1

/-! ## Fixed-point semantics and numbers (`bijou/APFixedPoint.hpp`) -/

/-- The class `FixedPointSemantics` (`APFixedPoint.hpp:53-112`); the fields are
the bit-fields `Width : 16`, `Scale : 13` and three one-bit flags. -/
structure FixedPointSemantics where
  Width : Nat
  Scale : Nat
  IsSigned : Bool
  IsSaturated : Bool
  HasUnsignedPadding : Bool
deriving DecidableEq, Repr

namespace FixedPointSemantics

/-- Source `APFixedPoint.hpp:55-62`, the constructor from `unsigned` and `bool`
arguments: the member initialisers store the arguments into the bit-fields
(`Width` modulo `2^16`, `Scale` modulo `2^13`), and the two assertions of the
body test the arguments. -/
def ctor (Width Scale : Nat) (IsSigned IsSaturated HasUnsignedPadding : Bool) :
    Option FixedPointSemantics :=
  if ¬ (Width ≥ Scale) then none
  else if IsSigned && HasUnsignedPadding then none
  else some ⟨Width % 2 ^ 16, Scale % 2 ^ 13, IsSigned, IsSaturated, HasUnsignedPadding⟩

/-- Source `APFixedPoint.hpp:64`. -/
def getWidth (s : FixedPointSemantics) : Nat := s.Width

/-- Source `APFixedPoint.hpp:65`. -/
def getScale (s : FixedPointSemantics) : Nat := s.Scale

/-- Source `APFixedPoint.hpp:66`. -/
def isSigned (s : FixedPointSemantics) : Bool := s.IsSigned

/-- Source `APFixedPoint.hpp:67`. -/
def isSaturated (s : FixedPointSemantics) : Bool := s.IsSaturated

/-- Source `APFixedPoint.hpp:68`. -/
def hasUnsignedPadding (s : FixedPointSemantics) : Bool := s.HasUnsignedPadding

/-- Source `APFixedPoint.hpp:70`. -/
def setSaturated (s : FixedPointSemantics) (Saturated : Bool) : FixedPointSemantics :=
  { s with IsSaturated := Saturated }

/-- Source `APFixedPoint.hpp:75-80`, `getIntegralBits`: the difference is
computed in `int` and returned as `unsigned`, that is modulo `2^32`. -/
def getIntegralBits (s : FixedPointSemantics) : Nat :=
  if s.IsSigned || (!s.IsSigned && s.HasUnsignedPadding) then
    (((s.Width : Int) - (s.Scale : Int) - 1) % 2 ^ 32).toNat
  else
    (((s.Width : Int) - (s.Scale : Int)) % 2 ^ 32).toNat

end FixedPointSemantics

/-- The class `APFixedPoint` (`APFixedPoint.hpp:120-238`): the members `Val` and
`Sema`. -/
structure APFixedPoint where
  Val : APSInt
  Sema : FixedPointSemantics
deriving DecidableEq, Repr

namespace APFixedPoint

/-- Source `APFixedPoint.hpp:122-126`, the constructor from an `APInt` and the
semantics. -/
def ofAPInt (Val : APInt) (Sema : FixedPointSemantics) : Option APFixedPoint :=
  if Val.BitWidth = Sema.getWidth then some ⟨APSInt.mk Val (!Sema.isSigned), Sema⟩ else none

/-- Source `APFixedPoint.hpp:128-129`, the constructor from a `uint64_t` and the
semantics. -/
def ofUInt64 (Val : Nat) (Sema : FixedPointSemantics) : Option APFixedPoint :=
  (APInt.ofValue64 Sema.getWidth Val Sema.isSigned).bind (fun v => ofAPInt v Sema)

/-- Source `APFixedPoint.hpp:132`, zero initialisation. -/
def ofSema (Sema : FixedPointSemantics) : Option APFixedPoint := ofUInt64 0 Sema

/-- Source `APFixedPoint.hpp:134`. -/
def getValue (X : APFixedPoint) : APSInt := APSInt.mk X.Val.toAPInt (!X.Sema.isSigned)

/-- Source `APFixedPoint.hpp:135`. -/
def getWidth (X : APFixedPoint) : Nat := X.Sema.getWidth

/-- Source `APFixedPoint.hpp:136`. -/
def getScale (X : APFixedPoint) : Nat := X.Sema.getScale

/-- Source `APFixedPoint.hpp:140`. -/
def getSemantics (X : APFixedPoint) : FixedPointSemantics := X.Sema

/-- Source `APFixedPoint.hpp:163-168`, `shr`: the pair of the returned value and
the value written to `*Overflow`. -/
def shr (X : APFixedPoint) (Amt : Nat) : Option (APFixedPoint × Bool) :=
  (ofAPInt (X.Val.opShr Amt).toAPInt X.Sema).map (fun r => (r, false))

end APFixedPoint

/-! ## Reading decimal strings -/

/-- A decimal digit character, `0` to `9`. -/
def isDecimalDigit (c : Char) : Prop := 48 ≤ c.toNat ∧ c.toNat ≤ 57

instance (c : Char) : Decidable (isDecimalDigit c) := by
  unfold isDecimalDigit
  exact inferInstance

/-- The natural number denoted by a string of decimal digits, most significant
digit first. -/
def decimalValue (ds : List Char) : Nat :=
  Nat.ofDigits 10 (ds.reverse.map (fun c => c.toNat - 48))

/-- The integer `v` is representable in `n` bits of two's complement. -/
def fitsSignedBits (n : Nat) (v : Int) : Prop :=
  1 ≤ n ∧ -(2 : Int) ^ (n - 1) ≤ v ∧ v < 2 ^ (n - 1)

/-! ## Negation and the integral part of a fixed-point number -/

namespace APInt

/-- Modelled from the spec: `APInt` unary minus, the two's-complement negation,
exact modulo `2^BitWidth` (section 4.1). -/
def neg (a : APInt) : APInt := ⟨a.BitWidth, (2 ^ a.BitWidth - a.Bits) % 2 ^ a.BitWidth⟩

end APInt

namespace APSInt

/-- Source `APSInt.hpp:236-238`, unary `operator-`. -/
def opNeg (a : APSInt) : APSInt := APSInt.mk a.toAPInt.neg a.IsUnsigned

end APSInt

namespace APFixedPoint

/-- Source `APFixedPoint.hpp:176-181`, `getIntPart`: `Val < 0` is the comparison
with a 64-bit literal, `Val != -Val` is evaluated only when it holds. -/
def getIntPart (X : APFixedPoint) : Option APSInt :=
  match X.Val.opLtInt 0 with
  | none => none
  | some false => some (X.Val.opShr X.getScale)
  | some true =>
    -- Cover the case when we have the min val
    match X.Val.opNe X.Val.opNeg with
    | none => none
    | some true => some ((X.Val.opNeg.opShr X.getScale).opNeg)
    | some false => some (X.Val.opShr X.getScale)

end APFixedPoint

/-! ## Recoverable errors (`bijou/Error.hpp`) -/

/-- The struct `Error` (`Error.hpp:70-98`): the member `Err`, an optional
message. -/
structure Error where
  Err : Option String
deriving DecidableEq, Repr

namespace Error

/-- Source `Error.hpp:71`, the default constructor. -/
def default : Error := ⟨none⟩

/-- Source `Error.hpp:73`, the constructor from an optional message. -/
def ofOptional (Err : Option String) : Error := ⟨Err⟩

/-- Source `Error.hpp:73`, the same constructor called with a message string,
which converts to an optional that holds it. -/
def ofMessage (msg : String) : Error := ofOptional (some msg)

/-- Source `Error.hpp:81`. -/
def success : Error := Error.default

/-- Source `Error.hpp:83-85`. -/
def has_error (e : Error) : Bool := e.Err.isSome

/-- Source `Error.hpp:87-89`, `explicit operator bool`. -/
def toBool (e : Error) : Bool := e.has_error

/-- Source `Error.hpp:91-95`, `take`: the returned optional and the receiver
afterwards. -/
def take (e : Error) : Option String × Error := (e.Err, { e with Err := none })

/-- Source `Error.hpp:75-77`, the move constructor: the new object (whose `Err`
starts empty) and `Other` afterwards, their members swapped. -/
def move (Other : Error) : Error × Error := (⟨Other.Err⟩, ⟨none⟩)

/-- Source `Error.hpp:154-156`, `consumeError`: the argument afterwards. -/
def consumeError (Err : Error) : Error := Err.take.2

end Error

/-- The member `Data` of `Expected<T>` (`Error.hpp:147-151`), a variant of
`std::monostate`, `T` and a message. -/
inductive ExpectedData (T : Type) where
  | monostate
  | value (t : T)
  | error (msg : String)
deriving DecidableEq, Repr

/-- The struct `Expected<T>` (`Error.hpp:100-152`). -/
structure Expected (T : Type) where
  Data : ExpectedData T
deriving DecidableEq, Repr

namespace Expected

variable {T : Type}

/-- Source `Error.hpp:105-106`, the constructor from a value. -/
def ofValue (t : T) : Expected T := ⟨ExpectedData.value t⟩

/-- Source `Error.hpp:107-110`, the constructor from an `Error`: the new object
and `Err` afterwards; an `Error` that holds no error fails the assertion. -/
def ofError (Err : Error) : Option (Expected T × Error) :=
  if Err.toBool then
    match Err.take with
    | (some msg, Err2) => some (⟨ExpectedData.error msg⟩, Err2)
    | (none, _) => none
  else none

/-- Source `Error.hpp:143-145`, `explicit operator bool`. -/
def toBool (x : Expected T) : Bool :=
  match x.Data with
  | ExpectedData.value _ => true
  | _ => false

/-- Source `Error.hpp:135-137`. -/
def has_value (x : Expected T) : Bool := x.toBool

/-- Source `Error.hpp:139-141`. -/
def has_error (x : Expected T) : Bool := !x.toBool

/-- Source `Error.hpp:118-121`, `operator*`. -/
def deref (x : Expected T) : Option T :=
  match x.Data with
  | ExpectedData.value t => some t
  | _ => none

/-- Source `Error.hpp:123-133`, `takeError`: the returned `Error` and the
receiver afterwards. -/
def takeError (x : Expected T) : Option (Error × Expected T) :=
  match x.Data with
  | ExpectedData.monostate => none
  | ExpectedData.error Out => some (Error.ofMessage Out, ⟨ExpectedData.monostate⟩)
  | ExpectedData.value _ => some (Error.success, x)

end Expected

/-! ## Bit helpers (`bijou/MathExtras.hpp`) -/

/-- Source `MathExtras.hpp:45-52`. -/
inductive ZeroBehavior where
  | ZB_Undefined
  | ZB_Max
  | ZB_Width
deriving DecidableEq, Repr

/-- The C++20 library function `std::countl_zero` on an unsigned type of `N`
bits: the number of consecutive zero bits starting from the most significant
bit (`N` for the value `0`). -/
def countl_zero : Nat → Nat → Nat
  | 0, _ => 0
  | n + 1, v => if v.testBit n then 0 else countl_zero n v + 1

/-- The C++20 library function `std::countr_zero` on an unsigned type of `N`
bits: the number of consecutive zero bits starting from the least significant
bit (`N` for the value `0`). -/
def countr_zero : Nat → Nat → Nat
  | 0, _ => 0
  | n + 1, v => if v % 2 = 1 then 0 else countr_zero n (v / 2) + 1

/-- Source `MathExtras.hpp:97-108`, `countTrailingZeros<T>` for an unsigned type
`T` of `N` bits (`sizeof(T) * CHAR_BIT = N`). -/
def countTrailingZeros (N Val : Nat) (ZB : ZeroBehavior) : Nat :=
  if ZB ≠ ZeroBehavior.ZB_Undefined ∧ Val = 0 then N else countr_zero N Val

/-- Source `MathExtras.hpp:117-128`, `countLeadingZeros<T>` for an unsigned type
`T` of `N` bits. -/
def countLeadingZeros (N Val : Nat) (ZB : ZeroBehavior) : Nat :=
  if ZB ≠ ZeroBehavior.ZB_Undefined ∧ Val = 0 then N else countl_zero N Val

/-- Source `MathExtras.hpp:137-142`, `findFirstSet<T>` for an unsigned type `T` of
`N` bits; the result is converted to `T`. -/
def findFirstSet (N Val : Nat) (ZB : ZeroBehavior) : Nat :=
  if ZB = ZeroBehavior.ZB_Max ∧ Val = 0 then 2 ^ N - 1
  else countTrailingZeros N Val ZeroBehavior.ZB_Undefined % 2 ^ N

/-- Source `MathExtras.hpp:160-168`, `findLastSet<T>` for an unsigned type `T` of
`N` bits (`numeric_limits<T>::digits = N`); the result is converted to `T`. -/
def findLastSet (N Val : Nat) (ZB : ZeroBehavior) : Nat :=
  if ZB = ZeroBehavior.ZB_Max ∧ Val = 0 then 2 ^ N - 1
  else (countLeadingZeros N Val ZeroBehavior.ZB_Undefined ^^^ (N - 1)) % 2 ^ N

/-! ## More bit helpers (`bijou/MathExtras.hpp`) -/

/-- Source `MathExtras.hpp:358-368`, `NextPowerOf2`: the argument is a `uint64_t`,
the final addition wraps modulo `2^64`. -/
def NextPowerOf2 (A : Nat) : Nat :=
  let A := A ||| (A >>> 1)
  let A := A ||| (A >>> 2)
  let A := A ||| (A >>> 4)
  let A := A ||| (A >>> 8)
  let A := A ||| (A >>> 16)
  let A := A ||| (A >>> 32)
  (A + 1) % 2 ^ 64

/-- Conversion of an unsigned `N`-bit pattern to the signed type of the same
width (`int32_t(x)`, `int64_t(x)`): the same bits read as two's complement. -/
def asSignedBits (N u : Nat) : Int :=
  if u % 2 ^ N < 2 ^ (N - 1) then ((u % 2 ^ N : Nat) : Int)
  else ((u % 2 ^ N : Nat) : Int) - 2 ^ N

/-- Source `MathExtras.hpp:380-384`, `SignExtend32(uint32_t X, unsigned B)`: the left
shift is in `uint32_t`, the right shift is the arithmetic shift of `int32_t`. -/
def SignExtend32 (X B : Nat) : Option Int :=
  if ¬ (B > 0) then none
  else if ¬ (B ≤ 32) then none
  else some (asSignedBits 32 ((X <<< (32 - B)) % 2 ^ 32) >>> (32 - B))

/-- Source `MathExtras.hpp:396-400`, `SignExtend64(uint64_t X, unsigned B)`: the left
shift is in `uint64_t`, the right shift is the arithmetic shift of `int64_t`. -/
def SignExtend64 (X B : Nat) : Option Int :=
  if ¬ (B > 0) then none
  else if ¬ (B ≤ 64) then none
  else some (asSignedBits 64 ((X <<< (64 - B)) % 2 ^ 64) >>> (64 - B))

/-- Source `MathExtras.hpp:251-253`, `isMask_64`: `Value + 1` wraps modulo `2^64`. -/
def isMask_64 (Value : Nat) : Bool :=
  Value != 0 && (((Value + 1) % 2 ^ 64) &&& Value) == 0

/-- Source `MathExtras.hpp:263-265`, `isShiftedMask_64`: `Value - 1` wraps modulo
`2^64`. -/
def isShiftedMask_64 (Value : Nat) : Bool :=
  Value != 0 && isMask_64 (((Value + 2 ^ 64 - 1) % 2 ^ 64) ||| Value)

/-- Source `MathExtras.hpp:174`, the macro `R2`. -/
def R2 (n : Nat) : List Nat := [n, n + 2 * 64, n + 1 * 64, n + 3 * 64]

/-- Source `MathExtras.hpp:175`, the macro `R4`. -/
def R4 (n : Nat) : List Nat := R2 n ++ R2 (n + 2 * 16) ++ R2 (n + 1 * 16) ++ R2 (n + 3 * 16)

/-- Source `MathExtras.hpp:176`, the macro `R6`. -/
def R6 (n : Nat) : List Nat := R4 n ++ R4 (n + 2 * 4) ++ R4 (n + 1 * 4) ++ R4 (n + 3 * 4)

/-- Source `MathExtras.hpp:173-181`, the table `BitReverseTable256`. -/
def BitReverseTable256 : List Nat := R6 0 ++ R6 2 ++ R6 1 ++ R6 3

/-- The object representation of an unsigned value of `S` bytes, as `memcpy`
reads it: the bytes, least significant first. -/
def toBytes (S Val : Nat) : List Nat := (List.range S).map (fun i => Val / 256 ^ i % 256)

/-- The unsigned value whose object representation is the given bytes, as
`memcpy` writes it: least significant byte first. -/
def fromBytes : List Nat → Nat
  | [] => 0
  | b :: bs => b + 256 * fromBytes bs

/-- Source `MathExtras.hpp:184-193`, the generic `reverseBits<T>` for an unsigned
type `T` of `S` bytes (`sizeof(Val) = S`).  Reading the representation with the
most significant byte first instead gives the same result, as input and output
are read the same way. -/
def reverseBits (S Val : Nat) : Nat :=
  let inb := toBytes S Val
  let out := (List.range S).foldl
    (fun out i => out.set ((S - i) - 1) (BitReverseTable256.getD (inb.getD i 0) 0))
    (List.replicate S 0)
  fromBytes out

/-! ## Denormal modes (`FloatingPointMode.hpp`) and the unreachable diagnostic -/

/-- Source `FloatingPointMode.hpp:92-103`, the enumeration
`DenormalMode::DenormalModeKind`. -/
inductive DenormalMode.DenormalModeKind where
  | Invalid
  | IEEE
  | PreserveSign
  | PositiveZero
deriving DecidableEq, Repr

/-- Source `FloatingPointMode.hpp:89-160`, `struct DenormalMode`. -/
structure DenormalMode where
  Output : DenormalMode.DenormalModeKind
  Input : DenormalMode.DenormalModeKind
deriving DecidableEq, Repr

namespace DenormalMode

/-- Source `FloatingPointMode.hpp:107-114`: both members start as `Invalid`. -/
def default : DenormalMode := ⟨DenormalModeKind.Invalid, DenormalModeKind.Invalid⟩

/-- Source `FloatingPointMode.hpp:137-139`, `operator==`. -/
def opEq (m Other : DenormalMode) : Bool :=
  decide (m.Output = Other.Output) && decide (m.Input = Other.Input)

/-- Source `FloatingPointMode.hpp:149-152`. -/
def isValid (m : DenormalMode) : Bool :=
  decide (m.Output ≠ DenormalModeKind.Invalid) && decide (m.Input ≠ DenormalModeKind.Invalid)

end DenormalMode

/-- Source `FloatingPointMode.hpp:170-178`. -/
def parseDenormalFPAttributeComponent (Str : List Char) : DenormalMode.DenormalModeKind :=
  -- Assume ieee on unspecified attribute.
  if Str = "".toList ∨ Str = "ieee".toList then DenormalMode.DenormalModeKind.IEEE
  else if Str = "preserve-sign".toList then DenormalMode.DenormalModeKind.PreserveSign
  else if Str = "positive-zero".toList then DenormalMode.DenormalModeKind.PositiveZero
  else DenormalMode.DenormalModeKind.Invalid

/-- Source `FloatingPointMode.hpp:182-193`. -/
def denormalModeKindName : DenormalMode.DenormalModeKind → List Char
  | DenormalMode.DenormalModeKind.IEEE => "ieee".toList
  | DenormalMode.DenormalModeKind.PreserveSign => "preserve-sign".toList
  | DenormalMode.DenormalModeKind.PositiveZero => "positive-zero".toList
  | _ => "".toList

/-- The library function `std::string_view::find_first_of(char)`: the index of the
first occurrence of the character, `none` for `npos`. -/
def find_first_of : List Char → Char → Option Nat
  | [], _ => none
  | x :: xs, c => if x = c then some 0 else (find_first_of xs c).map (fun i => i + 1)

/-- Source `FloatingPointMode.hpp:196-216`. -/
def parseDenormalFPAttribute (Str : List Char) : DenormalMode :=
  let parts : List Char × List Char :=
    match find_first_of Str ',' with
    | none => (Str, [])
    | some Idx => (Str.take Idx, Str.drop (Idx + 1))
  let OutputStr := parts.1
  let InputStr := parts.2
  let Output := parseDenormalFPAttributeComponent OutputStr
  -- Maintain compatability with old form of the attribute which only specified
  -- one component.
  let Input := if InputStr.isEmpty then Output else parseDenormalFPAttributeComponent InputStr
  ⟨Output, Input⟩

namespace DenormalMode

/-- Source `FloatingPointMode.hpp:233-239`, `DenormalMode::str`. -/
def str (m : DenormalMode) : List Char :=
  let Buf : List Char := []
  let Buf := Buf ++ denormalModeKindName m.Output
  let Buf := Buf ++ [',']
  Buf ++ denormalModeKindName m.Input

end DenormalMode

/-- Source `Error.cpp:62-83`, `bijou_unreachable_internal`: the text written to
`stderr` before `abort()`.  A null `msg` or `file` is `none`.  `Buffer += line`
with `unsigned line` selects `std::string::operator+=(char)`: the argument is
converted to `char` and appended as one character. -/
def bijou_unreachable_internal (msg file : Option (List Char)) (line : Nat) : List Char :=
  let Buffer : List Char := []
  let Buffer := match msg with
    | some m => Buffer ++ m ++ "\n".toList
    | none => Buffer
  let Buffer := Buffer ++ "UNREACHABLE executed".toList
  let Buffer := match file with
    | some f => Buffer ++ " at ".toList ++ f ++ ":".toList ++ [Char.ofNat (line % 256)]
    | none => Buffer
  Buffer ++ "!\n".toList

/-! ## Remaining `APSInt` operators (`APSInt.hpp`) -/

namespace APInt

/-- Modelled from the spec: `APInt::shl`, the `operator<<` of `APInt` (section
4.1): left shift, exact modulo `2^BitWidth`; an amount `≥ BitWidth` gives the
all-zero result. -/
def shl (a : APInt) (Amt : Nat) : APInt :=
  if a.BitWidth ≤ Amt then ⟨a.BitWidth, 0⟩
  else ⟨a.BitWidth, (a.Bits <<< Amt) % 2 ^ a.BitWidth⟩

/-- Modelled from the spec: `APInt` unary `operator~`, the bitwise complement of
the `BitWidth` bits (one of the bitwise operations of section 2). -/
def opNot (a : APInt) : APInt := ⟨a.BitWidth, 2 ^ a.BitWidth - 1 - a.Bits⟩

/-- Modelled from the spec: `APInt::zextOrTrunc` (section 4.1), which picks the
direction from the requested width: zero extension when wider, truncation when
narrower, the value itself when equal. -/
def zextOrTrunc (a : APInt) (width : Nat) : Option APInt :=
  if a.BitWidth < width then a.zext width
  else if width < a.BitWidth then a.trunc width
  else some a

/-- Modelled from the spec: `APInt::sextOrTrunc` (section 4.1), which picks the
direction from the requested width: sign extension when wider, truncation when
narrower, the value itself when equal. -/
def sextOrTrunc (a : APInt) (width : Nat) : Option APInt :=
  if a.BitWidth < width then a.sext width
  else if width < a.BitWidth then a.trunc width
  else some a

/-- Modelled from the spec: `APInt` prefix `operator++`: adds one, exact modulo
`2^BitWidth` (section 4.1), and returns the updated object. -/
def opPreInc (a : APInt) : APInt := ⟨a.BitWidth, (a.Bits + 1) % 2 ^ a.BitWidth⟩

/-- Modelled from the spec: `APInt` prefix `operator--`: subtracts one, exact
modulo `2^BitWidth` (section 4.1), and returns the updated object. -/
def opPreDec (a : APInt) : APInt :=
  ⟨a.BitWidth, (((a.Bits : Int) - 1) % 2 ^ a.BitWidth).toNat⟩

end APInt

namespace APSInt

/-- Source `APSInt.hpp:114-116`, `trunc`. -/
def trunc (a : APSInt) (width : Nat) : Option APSInt :=
  (a.toAPInt.trunc width).map (fun v => APSInt.mk v a.IsUnsigned)

/-- Source `APSInt.hpp:125-130`, `extOrTrunc`. -/
def extOrTrunc (a : APSInt) (width : Nat) : Option APSInt :=
  if a.IsUnsigned then
    (a.toAPInt.zextOrTrunc width).map (fun v => APSInt.mk v a.IsUnsigned)
  else
    (a.toAPInt.sextOrTrunc width).map (fun v => APSInt.mk v a.IsUnsigned)

/-- Source `APSInt.hpp:214-216`, `operator<<`. -/
def opShl (a : APSInt) (Bits : Nat) : APSInt := APSInt.mk (a.toAPInt.shl Bits) a.IsUnsigned

/-- Source `APSInt.hpp:217-220`, `operator<<=`; the result is the receiver afterwards. -/
def opShlAssign (a : APSInt) (Amt : Nat) : APSInt := { a with toAPInt := a.toAPInt.shl Amt }

/-- Source `APSInt.hpp:222-225`, prefix `operator++`; the result is the receiver
afterwards, which is also the object the returned reference names. -/
def opPreInc (a : APSInt) : APSInt := { a with toAPInt := a.toAPInt.opPreInc }

/-- Source `APSInt.hpp:226-229`, prefix `operator--`; the result is the receiver
afterwards, which is also the object the returned reference names. -/
def opPreDec (a : APSInt) : APSInt := { a with toAPInt := a.toAPInt.opPreDec }

/-- Source `APSInt.hpp:230-232`, postfix `operator++(int)`:
`APSInt(++static_cast<APInt&>(*this), IsUnsigned)`.  The first component is the
returned object, the second the receiver afterwards. -/
def opPostInc (a : APSInt) : APSInt × APSInt :=
  let receiver : APSInt := { a with toAPInt := a.toAPInt.opPreInc }
  (APSInt.mk receiver.toAPInt receiver.IsUnsigned, receiver)

/-- Source `APSInt.hpp:233-235`, postfix `operator--(int)`:
`APSInt(--static_cast<APInt&>(*this), IsUnsigned)`.  The first component is the
returned object, the second the receiver afterwards. -/
def opPostDec (a : APSInt) : APSInt × APSInt :=
  let receiver : APSInt := { a with toAPInt := a.toAPInt.opPreDec }
  (APSInt.mk receiver.toAPInt receiver.IsUnsigned, receiver)

/-- Source `APSInt.hpp:297-299`, `operator~`. -/
def opNot (a : APSInt) : APSInt := APSInt.mk a.toAPInt.opNot a.IsUnsigned

/-- Source `APSInt.hpp:322-345`: the number of recursive calls that the evaluation
of `compareValues(I1, I2)` makes, along the same branches. -/
def compareValuesCalls (I1 I2 : APSInt) : Nat :=
  if I1.BitWidth = I2.BitWidth ∧ I1.isSigned = I2.isSigned then 0
  else if h1 : I1.BitWidth > I2.BitWidth then
    match h : I2.extend I1.BitWidth with
    | none => 0
    | some e => compareValuesCalls I1 e + 1
  else if h2 : I2.BitWidth > I1.BitWidth then
    match h : I1.extend I2.BitWidth with
    | none => 0
    | some e => compareValuesCalls e I2 + 1
  else 0
termination_by (if I1.BitWidth = I2.BitWidth then 0 else 1)
decreasing_by
  · have hw : e.BitWidth = I1.BitWidth := by
      cases hu : I2.IsUnsigned <;>
        simp [extend, APInt.zext, APInt.sext, hu, h1] at h <;> subst h <;> rfl
    simp_wf
    rw [if_pos (by omega), if_neg (by omega)]
    exact Nat.zero_lt_one
  · have hw : e.BitWidth = I2.BitWidth := by
      cases hu : I1.IsUnsigned <;>
        simp [extend, APInt.zext, APInt.sext, hu, h2] at h <;> subst h <;> rfl
    simp_wf
    rw [if_pos (by omega), if_neg (by omega)]
    exact Nat.zero_lt_one

/-- The result of an operation on the receiver `a`, when there is one, carries
the signedness tag of `a`. -/
def keepsSignedness (a : APSInt) (r : Option APSInt) : Prop :=
  ∀ x, r = some x → x.isUnsigned = a.isUnsigned

end APSInt

/-! ## Properties -/

namespace APInt

theorem two_pow_pred {w : Nat} (hw : 0 < w) : 2 ^ w = 2 * 2 ^ (w - 1) := by
  obtain ⟨k, rfl⟩ : ∃ k, w = k + 1 := ⟨w - 1, by omega⟩
  simp [pow_succ, mul_comm]

theorem isNegative_iff {a : APInt} (h : a.WF) :
    a.isNegative = true ↔ 2 ^ (a.BitWidth - 1) ≤ a.Bits := by
  obtain ⟨hw, hb⟩ := h
  unfold isNegative
  constructor
  · intro ht
    exact Nat.testBit_implies_ge ht
  · intro hge
    have h2 := two_pow_pred hw
    obtain ⟨y, hy⟩ : ∃ y, a.Bits = 2 ^ (a.BitWidth - 1) + y := ⟨a.Bits - 2 ^ (a.BitWidth - 1), by omega⟩
    have hylt : y < 2 ^ (a.BitWidth - 1) := by omega
    rw [hy, Nat.testBit_two_pow_add_eq, Nat.testBit_lt_two_pow hylt]
    rfl

theorem isNegative_false_iff {a : APInt} (h : a.WF) :
    a.isNegative = false ↔ a.Bits < 2 ^ (a.BitWidth - 1) := by
  rw [← Nat.not_le, ← isNegative_iff h]
  simp

theorem toSigned_bounds {a : APInt} (h : a.WF) :
    -(2 : Int) ^ (a.BitWidth - 1) ≤ a.toSigned ∧ a.toSigned < 2 ^ (a.BitWidth - 1) := by
  have h2 : (2 : Int) ^ a.BitWidth = 2 * 2 ^ (a.BitWidth - 1) := by
    exact_mod_cast two_pow_pred h.1
  have hb : (a.Bits : Int) < 2 ^ a.BitWidth := by exact_mod_cast h.2
  unfold toSigned
  split
  · rename_i hn
    have := (isNegative_iff h).1 hn
    have : (2 : Int) ^ (a.BitWidth - 1) ≤ a.Bits := by exact_mod_cast this
    omega
  · rename_i hn
    have := (isNegative_false_iff h).1 (by simpa using hn)
    have : (a.Bits : Int) < 2 ^ (a.BitWidth - 1) := by exact_mod_cast this
    have hp : (0 : Int) < 2 ^ (a.BitWidth - 1) := by positivity
    omega

theorem toSigned_neg_iff {a : APInt} (h : a.WF) : a.toSigned < 0 ↔ a.isNegative = true := by
  have hb : (a.Bits : Int) < 2 ^ a.BitWidth := by exact_mod_cast h.2
  cases hn : a.isNegative
  · simp [toSigned, hn]
  · simp only [toSigned, hn, if_true, iff_true]
    omega

theorem zext_spec {a : APInt} {w : Nat} (h : a.WF) (hw : a.BitWidth < w) :
    ∃ e, a.zext w = some e ∧ e.WF ∧ e.BitWidth = w ∧ e.toUnsigned = a.toUnsigned := by
  refine ⟨⟨w, a.Bits⟩, by simp [zext, hw], ⟨by simp; omega, ?_⟩, rfl, rfl⟩
  exact lt_of_lt_of_le h.2 (Nat.pow_le_pow_right (by decide) hw.le)

theorem sext_spec {a : APInt} {w : Nat} (h : a.WF) (hw : a.BitWidth < w) :
    ∃ e, a.sext w = some e ∧ e.WF ∧ e.BitWidth = w ∧ e.toSigned = a.toSigned := by
  have hle : 2 ^ a.BitWidth ≤ 2 ^ (w - 1) := Nat.pow_le_pow_right (by decide) (by omega)
  have h2 : 2 ^ w = 2 * 2 ^ (w - 1) := two_pow_pred (by omega)
  have hb := h.2
  cases hn : a.isNegative
  · have hwf : (⟨w, a.Bits⟩ : APInt).WF := ⟨by simp; omega, by simp; omega⟩
    refine ⟨⟨w, a.Bits⟩, by simp [sext, hw, hn], hwf, rfl, ?_⟩
    have hn2 : (⟨w, a.Bits⟩ : APInt).isNegative = false :=
      (isNegative_false_iff hwf).2 (by simp; omega)
    simp [toSigned, hn, hn2]
  · have hwf : (⟨w, a.Bits + (2 ^ w - 2 ^ a.BitWidth)⟩ : APInt).WF :=
      ⟨by simp; omega, by simp; omega⟩
    refine ⟨⟨w, a.Bits + (2 ^ w - 2 ^ a.BitWidth)⟩, by simp [sext, hw, hn], hwf, rfl, ?_⟩
    have hn2 : (⟨w, a.Bits + (2 ^ w - 2 ^ a.BitWidth)⟩ : APInt).isNegative = true :=
      (isNegative_iff hwf).2 (by simp; omega)
    simp only [toSigned, hn, hn2, if_true]
    have hle2 : 2 ^ a.BitWidth ≤ 2 ^ w := by omega
    push_cast [Nat.cast_sub hle2]
    ring

end APInt

namespace APSInt

theorem value_nonneg_of_unsigned {a : APSInt} (hu : a.IsUnsigned = true) : 0 ≤ a.value := by
  simp [value, hu, APInt.toUnsigned]

theorem value_neg_iff {a : APSInt} (h : a.WF) : a.value < 0 ↔ a.isNegative = true := by
  cases hu : a.IsUnsigned
  · simp only [value, hu, isNegative, isSigned, Bool.not_false, Bool.true_and]
    exact APInt.toSigned_neg_iff h
  · have := value_nonneg_of_unsigned hu
    simp only [isNegative, isSigned, hu, Bool.not_true, Bool.false_and]
    constructor
    · intro h'
      omega
    · intro h'
      cases h'

theorem extend_spec {a : APSInt} {w : Nat} (h : a.WF) (hw : a.BitWidth < w) :
    ∃ e, a.extend w = some e ∧ e.WF ∧ e.BitWidth = w ∧ e.IsUnsigned = a.IsUnsigned ∧
      e.value = a.value := by
  cases hu : a.IsUnsigned
  · obtain ⟨v, hv, hwf, hbw, hval⟩ := APInt.sext_spec h hw
    exact ⟨⟨v, false⟩, by simp [extend, hu, hv], hwf, hbw, rfl, by simp [value, hu, hval]⟩
  · obtain ⟨v, hv, hwf, hbw, hval⟩ := APInt.zext_spec h hw
    exact ⟨⟨v, true⟩, by simp [extend, hu, hv], hwf, hbw, rfl, by simp [value, hu, hval]⟩

theorem compareValues_same_width {a b : APSInt} (ha : a.WF) (hb : b.WF)
    (hw : a.BitWidth = b.BitWidth) :
    compareValues a b = some (APInt.cmp3 a.value b.value) := by
  rw [compareValues]
  cases hua : a.IsUnsigned <;> cases hub : b.IsUnsigned
  · simp [hw, isSigned, hua, hub, value, APInt.compareSigned]
  · have hbn := value_nonneg_of_unsigned hub
    cases hn : a.isNegative
    · have han : ¬ a.value < 0 := by rw [value_neg_iff ha, hn]; simp
      have hv : a.value = a.toAPInt.toUnsigned := by
        have hn' : a.toAPInt.isNegative = false := by simpa [isNegative, isSigned, hua] using hn
        simp [value, hua, APInt.toSigned, hn', APInt.toUnsigned]
      simp [hw, isSigned, hua, hub, hn, APInt.compare, hv]
      simp [value, hub]
    · have han : a.value < 0 := (value_neg_iff ha).2 hn
      have : APInt.cmp3 a.value b.value = -1 := by
        unfold APInt.cmp3
        rw [if_pos (by omega)]
      simp [hw, isSigned, hua, hub, hn, this]
  · have han := value_nonneg_of_unsigned hua
    cases hn : b.isNegative
    · have hbn : ¬ b.value < 0 := by rw [value_neg_iff hb, hn]; simp
      have hv : b.value = b.toAPInt.toUnsigned := by
        have hn' : b.toAPInt.isNegative = false := by simpa [isNegative, isSigned, hub] using hn
        simp [value, hub, APInt.toSigned, hn', APInt.toUnsigned]
      simp [hw, isSigned, hua, hub, hn, APInt.compare, hv]
      simp [value, hua]
    · have hbn : b.value < 0 := (value_neg_iff hb).2 hn
      have : APInt.cmp3 a.value b.value = 1 := by
        unfold APInt.cmp3
        rw [if_neg (by omega), if_pos (by omega)]
      simp [hw, isSigned, hua, hub, hn, this]
  · simp [hw, isSigned, hua, hub, value, APInt.compare]

/-- The comparator returns, for all well-formed operands, the three-way
comparison of the mathematical values. -/
theorem compareValues_eq {a b : APSInt} (ha : a.WF) (hb : b.WF) :
    compareValues a b = some (APInt.cmp3 a.value b.value) := by
  rcases Nat.lt_trichotomy a.BitWidth b.BitWidth with hlt | heq | hgt
  · obtain ⟨e, he, hewf, hebw, _, heval⟩ := extend_spec ha hlt
    rw [compareValues]
    have h1 : ¬ (a.BitWidth = b.BitWidth ∧ a.isSigned = b.isSigned) := fun h => by omega
    have h2 : ¬ a.BitWidth > b.BitWidth := by omega
    rw [if_neg h1, dif_neg h2, dif_pos hlt]
    split
    · rename_i hnone
      rw [he] at hnone
      cases hnone
    · rename_i e' hsome
      rw [he] at hsome
      cases hsome
      rw [compareValues_same_width hewf hb hebw, heval]
  · exact compareValues_same_width ha hb heq
  · obtain ⟨e, he, hewf, hebw, _, heval⟩ := extend_spec hb hgt
    rw [compareValues]
    have h1 : ¬ (a.BitWidth = b.BitWidth ∧ a.isSigned = b.isSigned) := fun h => by omega
    rw [if_neg h1, dif_pos hgt]
    split
    · rename_i hnone
      rw [he] at hnone
      cases hnone
    · rename_i e' hsome
      rw [he] at hsome
      cases hsome
      rw [compareValues_same_width ha hewf hebw.symm, heval]

theorem cmp3_neg_iff (x y : Int) : APInt.cmp3 x y < 0 ↔ x < y := by
  unfold APInt.cmp3
  split
  · simp [*]
  · split <;> simp [*]

theorem cmp3_zero_iff (x y : Int) : APInt.cmp3 x y = 0 ↔ x = y := by
  unfold APInt.cmp3
  split
  · simp
    omega
  · split
    · simp
      omega
    · simp
      omega

theorem cmp3_pos_iff (x y : Int) : 0 < APInt.cmp3 x y ↔ y < x := by
  unfold APInt.cmp3
  split
  · simp
    omega
  · split <;> simp [*]

/-- C1: for all well-formed `APSInt` operands `a` and `b`, of any widths and any
signedness, `compareValues a b` returns an integer that is negative, zero or
positive exactly when the mathematical value of `a` is less than, equal to or
greater than the mathematical value of `b`. -/
theorem compareValues_sign_iff_value_order (a b : APSInt) (ha : a.WF) (hb : b.WF) :
    ∃ r : Int, compareValues a b = some r ∧
      (r < 0 ↔ a.value < b.value) ∧ (r = 0 ↔ a.value = b.value) ∧
      (0 < r ↔ b.value < a.value) :=
  ⟨_, compareValues_eq ha hb, cmp3_neg_iff _ _, cmp3_zero_iff _ _, cmp3_pos_iff _ _⟩

theorem compareValues_sign_iff_value_order_witness :
    (APSInt.mk ⟨8, 255⟩ false).WF ∧ (APSInt.mk ⟨16, 255⟩ true).WF ∧
    ∃ r : Int, compareValues (APSInt.mk ⟨8, 255⟩ false) (APSInt.mk ⟨16, 255⟩ true) = some r ∧
      (r < 0 ↔ (APSInt.mk ⟨8, 255⟩ false).value < (APSInt.mk ⟨16, 255⟩ true).value) ∧
      (r = 0 ↔ (APSInt.mk ⟨8, 255⟩ false).value = (APSInt.mk ⟨16, 255⟩ true).value) ∧
      (0 < r ↔ (APSInt.mk ⟨16, 255⟩ true).value < (APSInt.mk ⟨8, 255⟩ false).value) :=
  ⟨by decide, by decide,
    compareValues_sign_iff_value_order _ _ (by decide) (by decide)⟩

/-- C2: for every signed `x` with a negative value and every unsigned `y`, of any
widths, `compareValues x y` returns a negative integer and `compareValues y x`
a positive one, whatever the magnitudes. -/
theorem compareValues_negative_signed_lt_unsigned (x y : APSInt) (hx : x.WF) (hy : y.WF)
    (_hxs : x.IsUnsigned = false) (hxn : x.value < 0) (hyu : y.IsUnsigned = true) :
    (∃ r : Int, compareValues x y = some r ∧ r < 0) ∧
    (∃ r : Int, compareValues y x = some r ∧ 0 < r) := by
  have hyv := value_nonneg_of_unsigned hyu
  exact ⟨⟨_, compareValues_eq hx hy, (cmp3_neg_iff _ _).2 (by omega)⟩,
    ⟨_, compareValues_eq hy hx, (cmp3_pos_iff _ _).2 (by omega)⟩⟩

theorem compareValues_negative_signed_lt_unsigned_witness :
    (APSInt.mk ⟨16, 65535⟩ false).WF ∧ (APSInt.mk ⟨8, 200⟩ true).WF ∧
    (APSInt.mk ⟨16, 65535⟩ false).value < 0 ∧
    (∃ r : Int, compareValues (APSInt.mk ⟨16, 65535⟩ false) (APSInt.mk ⟨8, 200⟩ true) = some r ∧
      r < 0) ∧
    (∃ r : Int, compareValues (APSInt.mk ⟨8, 200⟩ true) (APSInt.mk ⟨16, 65535⟩ false) = some r ∧
      0 < r) :=
  ⟨by decide, by decide, by decide,
    compareValues_negative_signed_lt_unsigned _ _ (by decide) (by decide) rfl (by decide) rfl⟩

theorem extend_some {a : APSInt} {w : Nat} (hw : a.BitWidth < w) :
    ∃ e, a.extend w = some e ∧ e.BitWidth = w ∧ e.IsUnsigned = a.IsUnsigned := by
  cases hu : a.IsUnsigned
  · exact ⟨⟨⟨w, if a.toAPInt.isNegative then a.Bits + (2 ^ w - 2 ^ a.BitWidth) else a.Bits⟩, false⟩,
      by simp [extend, hu, APInt.sext, hw], rfl, rfl⟩
  · exact ⟨⟨⟨w, a.Bits⟩, true⟩, by simp [extend, hu, APInt.zext, hw], rfl, rfl⟩

theorem compareValues_narrow_left {a b e : APSInt} (hw : a.BitWidth < b.BitWidth)
    (he : a.extend b.BitWidth = some e) : compareValues a b = compareValues e b := by
  conv_lhs => rw [compareValues]
  have h1 : ¬ (a.BitWidth = b.BitWidth ∧ a.isSigned = b.isSigned) := fun h => by omega
  have h2 : ¬ a.BitWidth > b.BitWidth := by omega
  rw [if_neg h1, dif_neg h2, dif_pos hw]
  split
  · rename_i hnone
    rw [he] at hnone
    cases hnone
  · rename_i e' hsome
    rw [he] at hsome
    cases hsome
    rfl

theorem compareValues_narrow_right {a b e : APSInt} (hw : a.BitWidth < b.BitWidth)
    (he : a.extend b.BitWidth = some e) : compareValues b a = compareValues b e := by
  conv_lhs => rw [compareValues]
  have h1 : ¬ (b.BitWidth = a.BitWidth ∧ b.isSigned = a.isSigned) := fun h => by omega
  rw [if_neg h1, dif_pos hw]
  split
  · rename_i hnone
    rw [he] at hnone
    cases hnone
  · rename_i e' hsome
    rw [he] at hsome
    cases hsome
    rfl

theorem compareValues_direct {a b : APSInt} (hw : a.BitWidth = b.BitWidth)
    (hs : a.IsUnsigned = b.IsUnsigned) :
    compareValues a b =
      if a.IsUnsigned then a.toAPInt.compare b.toAPInt
      else a.toAPInt.compareSigned b.toAPInt := by
  rw [compareValues, if_pos ⟨hw, by simp [isSigned, hs]⟩]

/-- C3: when `a` is narrower than `b`, `a.extend (width b)` succeeds (sign
extension for a signed `a`, zero extension for an unsigned one, keeping the
sign flag), `compareValues a b` equals `compareValues` of the extended operand
with `b`, and `compareValues b a` equals `compareValues` of `b` with the
extended operand; when `a` and `b` have the same signedness both equal the
direct same-width comparison (unsigned `compare` if both are unsigned, signed
`compareSigned` if both are signed). -/
theorem compareValues_extend_narrower (a b : APSInt) (hw : a.BitWidth < b.BitWidth) :
    ∃ e, a.extend b.BitWidth = some e ∧
      a.extend b.BitWidth =
        (if a.IsUnsigned then (a.toAPInt.zext b.BitWidth).map (fun v => APSInt.mk v true)
         else (a.toAPInt.sext b.BitWidth).map (fun v => APSInt.mk v false)) ∧
      e.BitWidth = b.BitWidth ∧ e.IsUnsigned = a.IsUnsigned ∧
      compareValues a b = compareValues e b ∧
      compareValues b a = compareValues b e ∧
      (a.IsUnsigned = b.IsUnsigned →
        compareValues a b =
          (if b.IsUnsigned then e.toAPInt.compare b.toAPInt
           else e.toAPInt.compareSigned b.toAPInt) ∧
        compareValues b a =
          (if b.IsUnsigned then b.toAPInt.compare e.toAPInt
           else b.toAPInt.compareSigned e.toAPInt)) := by
  obtain ⟨e, he, hebw, heu⟩ := extend_some hw
  refine ⟨e, he, ?_, hebw, heu, compareValues_narrow_left hw he,
    compareValues_narrow_right hw he, ?_⟩
  · cases hu : a.IsUnsigned <;> simp [extend, hu]
  · intro hs
    rw [compareValues_narrow_left hw he, compareValues_narrow_right hw he,
      compareValues_direct hebw (heu.trans hs), compareValues_direct hebw.symm (heu.trans hs).symm,
      heu, hs]
    exact ⟨rfl, rfl⟩

theorem compareValues_extend_narrower_witness :
    (APSInt.mk ⟨8, 255⟩ false).BitWidth < (APSInt.mk ⟨16, 65535⟩ false).BitWidth ∧
    ∃ e, (APSInt.mk ⟨8, 255⟩ false).extend (APSInt.mk ⟨16, 65535⟩ false).BitWidth = some e ∧
      (APSInt.mk ⟨8, 255⟩ false).extend (APSInt.mk ⟨16, 65535⟩ false).BitWidth =
        (if (APSInt.mk ⟨8, 255⟩ false).IsUnsigned then
          ((APSInt.mk ⟨8, 255⟩ false).toAPInt.zext (APSInt.mk ⟨16, 65535⟩ false).BitWidth).map
            (fun v => APSInt.mk v true)
         else
          ((APSInt.mk ⟨8, 255⟩ false).toAPInt.sext (APSInt.mk ⟨16, 65535⟩ false).BitWidth).map
            (fun v => APSInt.mk v false)) ∧
      e.BitWidth = (APSInt.mk ⟨16, 65535⟩ false).BitWidth ∧
      e.IsUnsigned = (APSInt.mk ⟨8, 255⟩ false).IsUnsigned ∧
      compareValues (APSInt.mk ⟨8, 255⟩ false) (APSInt.mk ⟨16, 65535⟩ false) =
        compareValues e (APSInt.mk ⟨16, 65535⟩ false) ∧
      compareValues (APSInt.mk ⟨16, 65535⟩ false) (APSInt.mk ⟨8, 255⟩ false) =
        compareValues (APSInt.mk ⟨16, 65535⟩ false) e ∧
      ((APSInt.mk ⟨8, 255⟩ false).IsUnsigned = (APSInt.mk ⟨16, 65535⟩ false).IsUnsigned →
        compareValues (APSInt.mk ⟨8, 255⟩ false) (APSInt.mk ⟨16, 65535⟩ false) =
          (if (APSInt.mk ⟨16, 65535⟩ false).IsUnsigned then
            e.toAPInt.compare (APSInt.mk ⟨16, 65535⟩ false).toAPInt
           else e.toAPInt.compareSigned (APSInt.mk ⟨16, 65535⟩ false).toAPInt) ∧
        compareValues (APSInt.mk ⟨16, 65535⟩ false) (APSInt.mk ⟨8, 255⟩ false) =
          (if (APSInt.mk ⟨16, 65535⟩ false).IsUnsigned then
            (APSInt.mk ⟨16, 65535⟩ false).toAPInt.compare e.toAPInt
           else (APSInt.mk ⟨16, 65535⟩ false).toAPInt.compareSigned e.toAPInt)) :=
  ⟨by decide, compareValues_extend_narrower _ _ (by decide)⟩

/-- C4: for all well-formed `a` and `b`, of any widths and signedness,
`isSameValue a b` returns `true` if and only if `a` and `b` have the same
mathematical value (unsigned operands read as unsigned, signed operands as
two's complement). -/
theorem isSameValue_iff_value_eq (a b : APSInt) (ha : a.WF) (hb : b.WF) :
    ∃ r : Bool, isSameValue a b = some r ∧ (r = true ↔ a.value = b.value) := by
  refine ⟨_, by rw [isSameValue, compareValues_eq ha hb]; rfl, ?_⟩
  simp [cmp3_zero_iff]

theorem isSameValue_iff_value_eq_witness :
    (APSInt.mk ⟨8, 255⟩ true).WF ∧ (APSInt.mk ⟨16, 255⟩ false).WF ∧
    ∃ r : Bool, isSameValue (APSInt.mk ⟨8, 255⟩ true) (APSInt.mk ⟨16, 255⟩ false) = some r ∧
      (r = true ↔ (APSInt.mk ⟨8, 255⟩ true).value = (APSInt.mk ⟨16, 255⟩ false).value) :=
  ⟨by decide, by decide, isSameValue_iff_value_eq _ _ (by decide) (by decide)⟩

/-- C5: every binary operator of `APSInt` on two `APSInt` operands (`+ - * / %
& | ^`, their in-place forms, and `< > <= >= == !=`) is a contract violation
when the operands differ in signedness: none of them returns a result. -/
theorem binary_operators_reject_sign_mismatch (a b : APSInt)
    (h : a.IsUnsigned ≠ b.IsUnsigned) :
    a.opAdd b = none ∧ a.opSub b = none ∧ a.opMul b = none ∧ a.opDiv b = none ∧
    a.opRem b = none ∧ a.opAnd b = none ∧ a.opOr b = none ∧ a.opXor b = none ∧
    a.opAddAssign b = none ∧ a.opSubAssign b = none ∧ a.opMulAssign b = none ∧
    a.opDivAssign b = none ∧ a.opRemAssign b = none ∧ a.opAndAssign b = none ∧
    a.opOrAssign b = none ∧ a.opXorAssign b = none ∧
    a.opLt b = none ∧ a.opGt b = none ∧ a.opLe b = none ∧ a.opGe b = none ∧
    a.opEq b = none ∧ a.opNe b = none := by
  simp only [opAdd, opSub, opMul, opDiv, opRem, opAnd, opOr, opXor, opAddAssign, opSubAssign,
    opMulAssign, opDivAssign, opRemAssign, opAndAssign, opOrAssign, opXorAssign, opLt, opGt,
    opLe, opGe, opEq, opNe, if_pos h, Option.map_none', and_self]

theorem binary_operators_reject_sign_mismatch_witness :
    (APSInt.mk ⟨8, 1⟩ false).IsUnsigned ≠ (APSInt.mk ⟨8, 1⟩ true).IsUnsigned ∧
    (APSInt.mk ⟨8, 1⟩ false).opAdd (APSInt.mk ⟨8, 1⟩ true) = none ∧
    (APSInt.mk ⟨8, 1⟩ false).opSub (APSInt.mk ⟨8, 1⟩ true) = none ∧
    (APSInt.mk ⟨8, 1⟩ false).opMul (APSInt.mk ⟨8, 1⟩ true) = none ∧
    (APSInt.mk ⟨8, 1⟩ false).opDiv (APSInt.mk ⟨8, 1⟩ true) = none ∧
    (APSInt.mk ⟨8, 1⟩ false).opRem (APSInt.mk ⟨8, 1⟩ true) = none ∧
    (APSInt.mk ⟨8, 1⟩ false).opAnd (APSInt.mk ⟨8, 1⟩ true) = none ∧
    (APSInt.mk ⟨8, 1⟩ false).opOr (APSInt.mk ⟨8, 1⟩ true) = none ∧
    (APSInt.mk ⟨8, 1⟩ false).opXor (APSInt.mk ⟨8, 1⟩ true) = none ∧
    (APSInt.mk ⟨8, 1⟩ false).opAddAssign (APSInt.mk ⟨8, 1⟩ true) = none ∧
    (APSInt.mk ⟨8, 1⟩ false).opSubAssign (APSInt.mk ⟨8, 1⟩ true) = none ∧
    (APSInt.mk ⟨8, 1⟩ false).opMulAssign (APSInt.mk ⟨8, 1⟩ true) = none ∧
    (APSInt.mk ⟨8, 1⟩ false).opDivAssign (APSInt.mk ⟨8, 1⟩ true) = none ∧
    (APSInt.mk ⟨8, 1⟩ false).opRemAssign (APSInt.mk ⟨8, 1⟩ true) = none ∧
    (APSInt.mk ⟨8, 1⟩ false).opAndAssign (APSInt.mk ⟨8, 1⟩ true) = none ∧
    (APSInt.mk ⟨8, 1⟩ false).opOrAssign (APSInt.mk ⟨8, 1⟩ true) = none ∧
    (APSInt.mk ⟨8, 1⟩ false).opXorAssign (APSInt.mk ⟨8, 1⟩ true) = none ∧
    (APSInt.mk ⟨8, 1⟩ false).opLt (APSInt.mk ⟨8, 1⟩ true) = none ∧
    (APSInt.mk ⟨8, 1⟩ false).opGt (APSInt.mk ⟨8, 1⟩ true) = none ∧
    (APSInt.mk ⟨8, 1⟩ false).opLe (APSInt.mk ⟨8, 1⟩ true) = none ∧
    (APSInt.mk ⟨8, 1⟩ false).opGe (APSInt.mk ⟨8, 1⟩ true) = none ∧
    (APSInt.mk ⟨8, 1⟩ false).opEq (APSInt.mk ⟨8, 1⟩ true) = none ∧
    (APSInt.mk ⟨8, 1⟩ false).opNe (APSInt.mk ⟨8, 1⟩ true) = none :=
  ⟨by decide, binary_operators_reject_sign_mismatch _ _ (by decide)⟩

theorem get_spec {r : Int} (hlo : -(2 : Int) ^ 63 ≤ r) (hhi : r < 2 ^ 63) :
    ∃ g, get r = some g ∧ g.WF ∧ g.value = r := by
  have hm0 : 0 ≤ r % 2 ^ 64 := Int.emod_nonneg _ (by norm_num)
  have hm1 : r % 2 ^ 64 < 2 ^ 64 := Int.emod_lt_of_pos _ (by norm_num)
  have hlt : (r % 2 ^ 64).toNat < 2 ^ 64 := by
    have : ((r % 2 ^ 64).toNat : Int) < 2 ^ 64 := by rw [Int.toNat_of_nonneg hm0]; exact hm1
    exact_mod_cast this
  have hwf : (APInt.mk 64 (r % 2 ^ 64).toNat).WF := ⟨Nat.succ_pos 63, hlt⟩
  refine ⟨APSInt.mk (APInt.mk 64 (r % 2 ^ 64).toNat) false, ?_, ?_, ?_⟩
  · simp only [get, APInt.ofValue, Nat.mod_eq_of_lt hlt]
    rfl
  · exact hwf
  · simp only [value, Bool.false_eq_true, if_false, APInt.toSigned]
    by_cases hr : 0 ≤ r
    · have hmod : r % 2 ^ 64 = r := Int.emod_eq_of_lt hr (by omega)
      have hn : (APInt.mk 64 (r % 2 ^ 64).toNat).isNegative = false := by
        rw [APInt.isNegative_false_iff hwf]
        have : ((r % 2 ^ 64).toNat : Int) < 2 ^ 63 := by
          rw [Int.toNat_of_nonneg hm0, hmod]; exact hhi
        exact_mod_cast this
      rw [hn]
      simp only [Bool.false_eq_true, if_false]
      rw [Int.toNat_of_nonneg hm0, hmod]
    · have hmod : r % 2 ^ 64 = r + 2 ^ 64 := by
        rw [← Int.add_emod_self]
        exact Int.emod_eq_of_lt (by omega) (by omega)
      have hn : (APInt.mk 64 (r % 2 ^ 64).toNat).isNegative = true := by
        rw [APInt.isNegative_iff hwf]
        have : (2 : Int) ^ 63 ≤ ((r % 2 ^ 64).toNat : Int) := by
          rw [Int.toNat_of_nonneg hm0, hmod]; omega
        exact_mod_cast this
      rw [hn]
      simp only [if_true]
      rw [Int.toNat_of_nonneg hm0, hmod]
      simp

theorem cmp3_nonpos_iff (x y : Int) : APInt.cmp3 x y ≤ 0 ↔ x ≤ y := by
  have h := cmp3_pos_iff x y
  constructor
  · intro h1
    by_contra h2
    have := h.2 (by omega)
    omega
  · intro h1
    by_contra h2
    have := h.1 (by omega)
    omega

theorem cmp3_nonneg_iff (x y : Int) : 0 ≤ APInt.cmp3 x y ↔ y ≤ x := by
  have h := cmp3_neg_iff x y
  constructor
  · intro h1
    by_contra h2
    have := h.2 (by omega)
    omega
  · intro h1
    by_contra h2
    have := h.1 (by omega)
    omega

/-- C6: for every well-formed `APSInt` `x`, of any width and signedness, and
every 64-bit signed literal `r`, the literal comparisons return a result (they
never fail) and agree with the mathematical values: `x == r`, `x != r`,
`x < r`, `x <= r`, `x > r`, `x >= r` compare `value x` with `r`, and the
reversed forms `r < x`, `r <= x`, `r > x`, `r >= x`, `r == x`, `r != x`
compare `r` with `value x`. -/
theorem literal_comparisons_agree_with_value (x : APSInt) (r : Int) (hx : x.WF)
    (hlo : -(2 : Int) ^ 63 ≤ r) (hhi : r < 2 ^ 63) :
    x.opEqInt r = some (decide (x.value = r)) ∧
    x.opNeInt r = some (decide (x.value ≠ r)) ∧
    x.opLtInt r = some (decide (x.value < r)) ∧
    x.opLeInt r = some (decide (x.value ≤ r)) ∧
    x.opGtInt r = some (decide (x.value > r)) ∧
    x.opGeInt r = some (decide (x.value ≥ r)) ∧
    intLt r x = some (decide (r < x.value)) ∧
    intLe r x = some (decide (r ≤ x.value)) ∧
    intGt r x = some (decide (r > x.value)) ∧
    intGe r x = some (decide (r ≥ x.value)) ∧
    intEq r x = some (decide (r = x.value)) ∧
    intNe r x = some (decide (r ≠ x.value)) := by
  obtain ⟨g, hg, hgwf, hgv⟩ := get_spec hlo hhi
  have hc := compareValues_eq hx hgwf
  rw [hgv] at hc
  have e1 : decide (APInt.cmp3 x.value r = 0) = decide (x.value = r) :=
    decide_eq_decide.2 (cmp3_zero_iff _ _)
  have e2 : decide (APInt.cmp3 x.value r ≠ 0) = decide (x.value ≠ r) :=
    decide_eq_decide.2 (not_congr (cmp3_zero_iff _ _))
  have e3 : decide (APInt.cmp3 x.value r < 0) = decide (x.value < r) :=
    decide_eq_decide.2 (cmp3_neg_iff _ _)
  have e4 : decide (APInt.cmp3 x.value r ≤ 0) = decide (x.value ≤ r) :=
    decide_eq_decide.2 (cmp3_nonpos_iff _ _)
  have e5 : decide (APInt.cmp3 x.value r > 0) = decide (x.value > r) :=
    decide_eq_decide.2 (cmp3_pos_iff _ _)
  have e6 : decide (APInt.cmp3 x.value r ≥ 0) = decide (x.value ≥ r) :=
    decide_eq_decide.2 (cmp3_nonneg_iff _ _)
  have e7 : decide (x.value = r) = decide (r = x.value) := decide_eq_decide.2 eq_comm
  have e8 : decide (x.value ≠ r) = decide (r ≠ x.value) := decide_eq_decide.2 ne_comm
  simp only [intLt, intLe, intGt, intGe, intEq, intNe, opEqInt, opNeInt, opLtInt, opLeInt,
    opGtInt, opGeInt, hg, Option.some_bind, hc, Option.map_some', e1, e2, e3, e4, e5, e6]
  rw [e7, e8]
  simp only [and_self]

theorem literal_comparisons_agree_with_value_witness :
    (APSInt.mk ⟨64, 2 ^ 64 - 1⟩ true).WF ∧ -(2 : Int) ^ 63 ≤ -1 ∧ (-1 : Int) < 2 ^ 63 ∧
    (APSInt.mk ⟨64, 2 ^ 64 - 1⟩ true).opEqInt (-1) =
      some (decide ((APSInt.mk ⟨64, 2 ^ 64 - 1⟩ true).value = -1)) ∧
    (APSInt.mk ⟨64, 2 ^ 64 - 1⟩ true).value ≠ -1 :=
  ⟨by decide, by decide, by decide,
    (literal_comparisons_agree_with_value _ _ (by decide) (by decide) (by decide)).1,
    by decide⟩

/-- C7: for all `a`, `b` of equal width and equal signedness the ordered
comparison operators return the order of the mathematical values under that
signedness (`<`, `>`, `<=`, `>=`), through the unsigned engine variants
`ult/ugt/ule/uge` for unsigned operands and the signed variants
`slt/sgt/sle/sge` for signed ones; `a == b` holds iff the bit patterns are
equal and `a != b` is its negation. -/
theorem ordered_comparisons_agree_with_value (a b : APSInt)
    (hw : a.BitWidth = b.BitWidth) (hs : a.IsUnsigned = b.IsUnsigned) :
    a.opLt b = some (decide (a.value < b.value)) ∧
    a.opGt b = some (decide (a.value > b.value)) ∧
    a.opLe b = some (decide (a.value ≤ b.value)) ∧
    a.opGe b = some (decide (a.value ≥ b.value)) ∧
    a.opEq b = some (decide (a.Bits = b.Bits)) ∧
    a.opNe b = some (!decide (a.Bits = b.Bits)) ∧
    (a.IsUnsigned = true →
      a.opLt b = a.toAPInt.ult b.toAPInt ∧ a.opGt b = a.toAPInt.ugt b.toAPInt ∧
      a.opLe b = a.toAPInt.ule b.toAPInt ∧ a.opGe b = a.toAPInt.uge b.toAPInt) ∧
    (a.IsUnsigned = false →
      a.opLt b = a.toAPInt.slt b.toAPInt ∧ a.opGt b = a.toAPInt.sgt b.toAPInt ∧
      a.opLe b = a.toAPInt.sle b.toAPInt ∧ a.opGe b = a.toAPInt.sge b.toAPInt) := by
  have hs' : b.IsUnsigned = a.IsUnsigned := hs.symm
  cases hu : a.IsUnsigned <;>
    simp [opLt, opGt, opLe, opGe, opEq, opNe, hs', hu, hw, value, APInt.ult, APInt.ugt,
      APInt.ule, APInt.uge, APInt.slt, APInt.sgt, APInt.sle, APInt.sge, APInt.eq]

theorem ordered_comparisons_agree_with_value_witness :
    (APSInt.mk ⟨8, 255⟩ false).BitWidth = (APSInt.mk ⟨8, 1⟩ false).BitWidth ∧
    (APSInt.mk ⟨8, 255⟩ false).IsUnsigned = (APSInt.mk ⟨8, 1⟩ false).IsUnsigned ∧
    (APSInt.mk ⟨8, 255⟩ false).opLt (APSInt.mk ⟨8, 1⟩ false) =
      some (decide ((APSInt.mk ⟨8, 255⟩ false).value < (APSInt.mk ⟨8, 1⟩ false).value)) ∧
    (APSInt.mk ⟨8, 255⟩ false).value < (APSInt.mk ⟨8, 1⟩ false).value :=
  ⟨rfl, rfl,
    (ordered_comparisons_agree_with_value (APSInt.mk ⟨8, 255⟩ false) (APSInt.mk ⟨8, 1⟩ false)
      rfl rfl).1,
    by decide⟩

theorem Bits_ne_zero_of_value_ne_zero {b : APSInt} (hb : b.value ≠ 0) : b.Bits ≠ 0 := by
  intro h0
  apply hb
  cases hu : b.IsUnsigned <;>
    simp [value, hu, APInt.toUnsigned, APInt.toSigned, APInt.isNegative, h0]

theorem Bits_eq_zero_of_value_eq_zero {b : APSInt} (hwf : b.WF) (hb : b.value = 0) :
    b.Bits = 0 := by
  have hlt : (b.Bits : Int) < 2 ^ b.BitWidth := by exact_mod_cast hwf.2
  cases hu : b.IsUnsigned
  · simp only [value, hu, Bool.false_eq_true, if_false, APInt.toSigned] at hb
    split at hb
    · omega
    · exact_mod_cast hb
  · simp only [value, hu, if_true, APInt.toUnsigned] at hb
    exact_mod_cast hb

/-- C8: for well-formed `a` and `b` of equal width `w` and equal signedness with
`b` nonzero, `a / b` and `a % b` return values of width `w` carrying the
operands' signedness whose bits are the quotient of `value a` by `value b`
rounded toward zero, respectively `value a - value b * quotient`, both reduced
modulo `2^w`; they are computed by `udiv/urem` for unsigned operands and by
`sdiv/srem` for signed ones, and `a /= b`, `a %= b` leave the same results in
the receiver. -/
theorem div_rem_truncated_quotient (a b : APSInt) (ha : a.WF)
    (hw : a.BitWidth = b.BitWidth) (hs : a.IsUnsigned = b.IsUnsigned) (hb : b.value ≠ 0) :
    ∃ q r : APSInt, a.opDiv b = some q ∧ a.opRem b = some r ∧
      q.BitWidth = a.BitWidth ∧ q.IsUnsigned = a.IsUnsigned ∧
      (q.Bits : Int) = Int.tdiv a.value b.value % 2 ^ a.BitWidth ∧
      r.BitWidth = a.BitWidth ∧ r.IsUnsigned = a.IsUnsigned ∧
      (r.Bits : Int) = (a.value - b.value * Int.tdiv a.value b.value) % 2 ^ a.BitWidth ∧
      a.opDivAssign b = some q ∧ a.opRemAssign b = some r ∧
      (a.IsUnsigned = true →
        a.toAPInt.udiv b.toAPInt = some q.toAPInt ∧ a.toAPInt.urem b.toAPInt = some r.toAPInt) ∧
      (a.IsUnsigned = false →
        a.toAPInt.sdiv b.toAPInt = some q.toAPInt ∧
        a.toAPInt.srem b.toAPInt = some r.toAPInt) := by
  have hb0 := Bits_ne_zero_of_value_ne_zero hb
  have hs' : b.IsUnsigned = a.IsUnsigned := hs.symm
  have hp : (0 : Int) < 2 ^ a.BitWidth := by positivity
  cases hu : a.IsUnsigned
  · rw [hu] at hs'
    have hm1 : 0 ≤ Int.tdiv a.toAPInt.toSigned b.toAPInt.toSigned % 2 ^ a.BitWidth :=
      Int.emod_nonneg _ (by omega)
    have hm2 : 0 ≤ Int.tmod a.toAPInt.toSigned b.toAPInt.toSigned % 2 ^ a.BitWidth :=
      Int.emod_nonneg _ (by omega)
    refine ⟨APSInt.mk ⟨a.BitWidth,
        (Int.tdiv a.toAPInt.toSigned b.toAPInt.toSigned % 2 ^ a.BitWidth).toNat⟩ false,
      APSInt.mk ⟨a.BitWidth,
        (Int.tmod a.toAPInt.toSigned b.toAPInt.toSigned % 2 ^ a.BitWidth).toNat⟩ false,
      ?_, ?_, rfl, rfl, ?_, rfl, rfl, ?_, ?_, ?_, ?_, ?_⟩
    · simp [opDiv, hu, hs', APInt.sdiv, hw, hb0]
    · simp [opRem, hu, hs', APInt.srem, hw, hb0]
    · simp only [value, hu, hs', Bool.false_eq_true, if_false]
      exact Int.toNat_of_nonneg hm1
    · simp only [value, hu, hs', Bool.false_eq_true, if_false]
      rw [← Int.tmod_def]
      exact Int.toNat_of_nonneg hm2
    · simp [opDivAssign, hu, hs', APInt.sdiv, hw, hb0, assign]
    · simp [opRemAssign, hu, hs', APInt.srem, hw, hb0, assign]
    · intro h
      cases h
    · intro _
      simp [APInt.sdiv, APInt.srem, hw, hb0]
  · rw [hu] at hs'
    have hlt : a.Bits < 2 ^ a.BitWidth := ha.2
    refine ⟨APSInt.mk ⟨a.BitWidth, a.Bits / b.Bits⟩ true,
      APSInt.mk ⟨a.BitWidth, a.Bits % b.Bits⟩ true,
      ?_, ?_, rfl, rfl, ?_, rfl, rfl, ?_, ?_, ?_, ?_, ?_⟩
    · simp [opDiv, hu, hs', APInt.udiv, hw, hb0]
    · simp [opRem, hu, hs', APInt.urem, hw, hb0]
    · simp only [value, hu, hs', if_true, APInt.toUnsigned]
      rw [← Int.ofNat_tdiv]
      have h1 : a.Bits / b.Bits < 2 ^ a.BitWidth := lt_of_le_of_lt (Nat.div_le_self _ _) hlt
      have h2 : ((a.Bits / b.Bits : Nat) : Int) < 2 ^ a.BitWidth := by exact_mod_cast h1
      rw [Int.emod_eq_of_lt (by positivity) h2]
    · simp only [value, hu, hs', if_true, APInt.toUnsigned]
      rw [← Int.tmod_def, ← Int.ofNat_tmod]
      have h1 : a.Bits % b.Bits < 2 ^ a.BitWidth := lt_of_le_of_lt (Nat.mod_le _ _) hlt
      have h2 : ((a.Bits % b.Bits : Nat) : Int) < 2 ^ a.BitWidth := by exact_mod_cast h1
      rw [Int.emod_eq_of_lt (by positivity) h2]
    · simp [opDivAssign, hu, hs', APInt.udiv, hw, hb0, assign]
    · simp [opRemAssign, hu, hs', APInt.urem, hw, hb0, assign]
    · intro _
      simp [APInt.udiv, APInt.urem, hw, hb0]
    · intro h
      cases h

theorem div_rem_truncated_quotient_witness :
    (APSInt.mk ⟨8, 249⟩ false).WF ∧ (APSInt.mk ⟨8, 2⟩ false).value ≠ 0 ∧
    ∃ q r : APSInt, (APSInt.mk ⟨8, 249⟩ false).opDiv (APSInt.mk ⟨8, 2⟩ false) = some q ∧
      (APSInt.mk ⟨8, 249⟩ false).opRem (APSInt.mk ⟨8, 2⟩ false) = some r ∧
      q.BitWidth = (APSInt.mk ⟨8, 249⟩ false).BitWidth ∧
      q.IsUnsigned = (APSInt.mk ⟨8, 249⟩ false).IsUnsigned ∧
      (q.Bits : Int) =
        Int.tdiv (APSInt.mk ⟨8, 249⟩ false).value (APSInt.mk ⟨8, 2⟩ false).value %
          2 ^ (APSInt.mk ⟨8, 249⟩ false).BitWidth ∧
      r.BitWidth = (APSInt.mk ⟨8, 249⟩ false).BitWidth ∧
      r.IsUnsigned = (APSInt.mk ⟨8, 249⟩ false).IsUnsigned ∧
      (r.Bits : Int) =
        ((APSInt.mk ⟨8, 249⟩ false).value - (APSInt.mk ⟨8, 2⟩ false).value *
          Int.tdiv (APSInt.mk ⟨8, 249⟩ false).value (APSInt.mk ⟨8, 2⟩ false).value) %
          2 ^ (APSInt.mk ⟨8, 249⟩ false).BitWidth ∧
      (APSInt.mk ⟨8, 249⟩ false).opDivAssign (APSInt.mk ⟨8, 2⟩ false) = some q ∧
      (APSInt.mk ⟨8, 249⟩ false).opRemAssign (APSInt.mk ⟨8, 2⟩ false) = some r ∧
      ((APSInt.mk ⟨8, 249⟩ false).IsUnsigned = true →
        (APSInt.mk ⟨8, 249⟩ false).toAPInt.udiv (APSInt.mk ⟨8, 2⟩ false).toAPInt =
          some q.toAPInt ∧
        (APSInt.mk ⟨8, 249⟩ false).toAPInt.urem (APSInt.mk ⟨8, 2⟩ false).toAPInt =
          some r.toAPInt) ∧
      ((APSInt.mk ⟨8, 249⟩ false).IsUnsigned = false →
        (APSInt.mk ⟨8, 249⟩ false).toAPInt.sdiv (APSInt.mk ⟨8, 2⟩ false).toAPInt =
          some q.toAPInt ∧
        (APSInt.mk ⟨8, 249⟩ false).toAPInt.srem (APSInt.mk ⟨8, 2⟩ false).toAPInt =
          some r.toAPInt) :=
  ⟨by decide, by decide,
    div_rem_truncated_quotient (APSInt.mk ⟨8, 249⟩ false) (APSInt.mk ⟨8, 2⟩ false)
      (by decide) rfl rfl (by decide)⟩

/-- C9: for every `a` and every zero-valued `b` of the same width and
signedness, `a / b`, `a % b`, `a /= b` and `a %= b` are contract violations:
none of them returns a value. -/
theorem div_rem_by_zero_aborts (a b : APSInt) (hbwf : b.WF)
    (hw : a.BitWidth = b.BitWidth) (hs : a.IsUnsigned = b.IsUnsigned) (hb : b.value = 0) :
    a.opDiv b = none ∧ a.opRem b = none ∧ a.opDivAssign b = none ∧ a.opRemAssign b = none := by
  have hb0 := Bits_eq_zero_of_value_eq_zero hbwf hb
  have hs' : b.IsUnsigned = a.IsUnsigned := hs.symm
  cases hu : a.IsUnsigned <;>
    simp [opDiv, opRem, opDivAssign, opRemAssign, hu, hs', APInt.udiv, APInt.urem, APInt.sdiv,
      APInt.srem, hw, hb0]

theorem div_rem_by_zero_aborts_witness :
    (APSInt.mk ⟨8, 0⟩ false).WF ∧ (APSInt.mk ⟨8, 0⟩ false).value = 0 ∧
    (APSInt.mk ⟨8, 200⟩ false).opDiv (APSInt.mk ⟨8, 0⟩ false) = none ∧
    (APSInt.mk ⟨8, 200⟩ false).opRem (APSInt.mk ⟨8, 0⟩ false) = none ∧
    (APSInt.mk ⟨8, 200⟩ false).opDivAssign (APSInt.mk ⟨8, 0⟩ false) = none ∧
    (APSInt.mk ⟨8, 200⟩ false).opRemAssign (APSInt.mk ⟨8, 0⟩ false) = none :=
  ⟨by decide, by decide,
    div_rem_by_zero_aborts (APSInt.mk ⟨8, 200⟩ false) (APSInt.mk ⟨8, 0⟩ false)
      (by decide) rfl rfl (by decide)⟩

end APSInt

namespace APInt

theorem lshr_spec {a : APInt} (k : Nat) (h : a.WF) :
    (a.lshr k).WF ∧ (a.lshr k).BitWidth = a.BitWidth ∧ (a.lshr k).toUnsigned = a.toUnsigned / 2 ^ k := by
  obtain ⟨hw, hb⟩ := h
  have hk : 0 < 2 ^ k := Nat.two_pow_pos k
  unfold lshr
  split
  · rename_i hle
    have hle2 : 2 ^ a.BitWidth ≤ 2 ^ k := Nat.pow_le_pow_right (by decide) hle
    refine ⟨⟨hw, Nat.two_pow_pos _⟩, rfl, ?_⟩
    have : a.Bits / 2 ^ k = 0 := Nat.div_eq_of_lt (by omega)
    simp only [toUnsigned]
    exact_mod_cast this.symm
  · refine ⟨⟨hw, ?_⟩, rfl, ?_⟩
    · simp only [Nat.shiftRight_eq_div_pow]
      exact lt_of_le_of_lt (Nat.div_le_self _ _) hb
    · simp only [toUnsigned, Nat.shiftRight_eq_div_pow]
      norm_cast

theorem ashr_spec {a : APInt} (k : Nat) (h : a.WF) :
    (a.ashr k).WF ∧ (a.ashr k).BitWidth = a.BitWidth ∧
      (a.ashr k).toSigned = a.toSigned / 2 ^ k := by
  have hw := h.1
  have hb := h.2
  have hk : 0 < 2 ^ k := Nat.two_pow_pos k
  have hW := two_pow_pred hw
  have hH : 0 < 2 ^ (a.BitWidth - 1) := Nat.two_pow_pos _
  cases hn : a.isNegative
  · -- non-negative: the shift is the logical one
    have hlt := (isNegative_false_iff h).1 hn
    have hres : a.ashr k = ⟨a.BitWidth, a.Bits / 2 ^ k⟩ := by
      unfold ashr
      split
      · rename_i hle
        have hle2 : 2 ^ a.BitWidth ≤ 2 ^ k := Nat.pow_le_pow_right (by decide) hle
        have : a.Bits / 2 ^ k = 0 := Nat.div_eq_of_lt (by omega)
        simp [hn, this]
      · simp [hn, Nat.shiftRight_eq_div_pow]
    have hdle : a.Bits / 2 ^ k ≤ a.Bits := Nat.div_le_self _ _
    have hwf : (APInt.mk a.BitWidth (a.Bits / 2 ^ k)).WF := ⟨hw, by simp only; omega⟩
    have hn2 : (APInt.mk a.BitWidth (a.Bits / 2 ^ k)).isNegative = false :=
      (isNegative_false_iff hwf).2 (by simp only; omega)
    rw [hres]
    refine ⟨hwf, rfl, ?_⟩
    simp only [toSigned, hn, hn2, Bool.false_eq_true, if_false]
    norm_cast
  · have hge := (isNegative_iff h).1 hn
    by_cases hle : a.BitWidth ≤ k
    · -- everything is shifted out: all bits are sign bits
      have hle2 : 2 ^ a.BitWidth ≤ 2 ^ k := Nat.pow_le_pow_right (by decide) hle
      have hres : a.ashr k = ⟨a.BitWidth, 2 ^ a.BitWidth - 1⟩ := by
        simp [ashr, hle, hn]
      have hwf : (APInt.mk a.BitWidth (2 ^ a.BitWidth - 1)).WF := ⟨hw, by simp only; omega⟩
      have hn2 : (APInt.mk a.BitWidth (2 ^ a.BitWidth - 1)).isNegative = true :=
        (isNegative_iff hwf).2 (by simp only; omega)
      rw [hres]
      refine ⟨hwf, rfl, ?_⟩
      simp only [toSigned, hn, hn2, if_true]
      have hbI : (a.Bits : Int) < 2 ^ a.BitWidth := by exact_mod_cast hb
      have hleI : (2 : Int) ^ a.BitWidth ≤ 2 ^ k := by exact_mod_cast hle2
      have hWpos : (1 : Int) ≤ 2 ^ a.BitWidth := by exact_mod_cast Nat.two_pow_pos a.BitWidth
      have hkI : (0 : Int) < 2 ^ k := by positivity
      have hq : ((a.Bits : Int) - 2 ^ a.BitWidth) / 2 ^ k = -1 ∧
          ((a.Bits : Int) - 2 ^ a.BitWidth) % 2 ^ k = (a.Bits : Int) - 2 ^ a.BitWidth + 2 ^ k :=
        (Int.ediv_emod_unique hkI).2 ⟨by ring, by omega, by omega⟩
      rw [hq.1]
      push_cast [Nat.cast_sub (Nat.two_pow_pos a.BitWidth)]
      ring
    · -- the vacated high bits are filled with ones
      have hkw : k < a.BitWidth := by omega
      have hres : a.ashr k =
          ⟨a.BitWidth, a.Bits / 2 ^ k + (2 ^ a.BitWidth - 2 ^ (a.BitWidth - k))⟩ := by
        simp [ashr, hle, hn, Nat.shiftRight_eq_div_pow]
      have hsplit : 2 ^ a.BitWidth = 2 ^ (a.BitWidth - k) * 2 ^ k := by
        rw [← pow_add]
        congr 1
        omega
      have hsplit1 : 2 ^ (a.BitWidth - 1) = 2 ^ (a.BitWidth - 1 - k) * 2 ^ k := by
        rw [← pow_add]
        congr 1
        omega
      have hQ : 2 ^ (a.BitWidth - k) = 2 * 2 ^ (a.BitWidth - 1 - k) := by
        have := two_pow_pred (show 0 < a.BitWidth - k by omega)
        rw [this]
        congr 2
        omega
      have hQH : 2 ^ (a.BitWidth - 1 - k) ≤ 2 ^ (a.BitWidth - 1) :=
        Nat.pow_le_pow_right (by decide) (by omega)
      have hD1 : a.Bits / 2 ^ k < 2 ^ (a.BitWidth - k) := by
        rw [Nat.div_lt_iff_lt_mul hk, ← hsplit]
        exact hb
      have hD2 : 2 ^ (a.BitWidth - 1 - k) ≤ a.Bits / 2 ^ k := by
        rw [Nat.le_div_iff_mul_le hk, ← hsplit1]
        exact hge
      have hQpos : 0 < 2 ^ (a.BitWidth - 1 - k) := Nat.two_pow_pos _
      have hwf : (APInt.mk a.BitWidth
          (a.Bits / 2 ^ k + (2 ^ a.BitWidth - 2 ^ (a.BitWidth - k)))).WF :=
        ⟨hw, by simp only; omega⟩
      have hn2 : (APInt.mk a.BitWidth
          (a.Bits / 2 ^ k + (2 ^ a.BitWidth - 2 ^ (a.BitWidth - k)))).isNegative = true :=
        (isNegative_iff hwf).2 (by simp only; omega)
      rw [hres]
      refine ⟨hwf, rfl, ?_⟩
      simp only [toSigned, hn, hn2, if_true]
      have hQW : 2 ^ (a.BitWidth - k) ≤ 2 ^ a.BitWidth := by omega
      have hkI : ((2 : Int) ^ k) ≠ 0 := by positivity
      have hsplitI : (2 : Int) ^ a.BitWidth = 2 ^ (a.BitWidth - k) * 2 ^ k := by
        exact_mod_cast hsplit
      have hdiv : ((a.Bits : Int) - 2 ^ a.BitWidth) / 2 ^ k =
          (a.Bits : Int) / 2 ^ k - 2 ^ (a.BitWidth - k) := by
        rw [hsplitI, sub_eq_add_neg, ← neg_mul, Int.add_mul_ediv_right _ _ hkI]
        ring
      rw [hdiv]
      push_cast [Nat.cast_sub hQW]
      ring

end APInt

namespace APSInt

theorem opShr_spec {x : APSInt} (k : Nat) (hx : x.WF) :
    (x.opShr k).WF ∧ (x.opShr k).BitWidth = x.BitWidth ∧
      (x.opShr k).IsUnsigned = x.IsUnsigned ∧ (x.opShr k).value = x.value / 2 ^ k := by
  cases hu : x.IsUnsigned
  · obtain ⟨h1, h2, h3⟩ := APInt.ashr_spec k hx
    simp only [opShr, hu, Bool.false_eq_true, if_false]
    exact ⟨h1, h2, trivial, by simpa [value, hu] using h3⟩
  · obtain ⟨h1, h2, h3⟩ := APInt.lshr_spec k hx
    simp only [opShr, hu, if_true]
    exact ⟨h1, h2, trivial, by simpa [value, hu] using h3⟩

/-- C10: for every well-formed `x` of width `w` and every shift amount `k`,
`x >> k` (and the receiver after `x >>= k`) is a well-formed value of width
`w` with the signedness of `x` whose mathematical value is
`floor (value x / 2^k)`: the logical shift `lshr` for an unsigned `x`, the
arithmetic shift `ashr` for a signed one; for `k >= w` the value is `0`,
except that a negative signed `x` gives `-1`, all bits set. -/
theorem shr_value_floor_div (x : APSInt) (k : Nat) (hx : x.WF) :
    (x.opShr k).WF ∧ (x.opShr k).BitWidth = x.BitWidth ∧
    (x.opShr k).IsUnsigned = x.IsUnsigned ∧
    (x.opShr k).value = ⌊(x.value : ℚ) / 2 ^ k⌋ ∧
    x.opShrAssign k = x.opShr k ∧
    (x.IsUnsigned = true → (x.opShr k).toAPInt = x.toAPInt.lshr k) ∧
    (x.IsUnsigned = false → (x.opShr k).toAPInt = x.toAPInt.ashr k) ∧
    (x.BitWidth ≤ k → (x.opShr k).value = if x.isNegative then -1 else 0) ∧
    (x.BitWidth ≤ k → x.isNegative = true → (x.opShr k).Bits = 2 ^ x.BitWidth - 1) := by
  obtain ⟨h1, h2, h3, h4⟩ := opShr_spec k hx
  have hfloor : ⌊(x.value : ℚ) / 2 ^ k⌋ = x.value / 2 ^ k := by
    have := Rat.floor_intCast_div_natCast x.value (2 ^ k)
    push_cast at this
    exact this
  refine ⟨h1, h2, h3, by rw [hfloor, h4], ?_, ?_, ?_, ?_, ?_⟩
  · cases hu : x.IsUnsigned <;> simp [opShrAssign, opShr, hu]
  · intro hu
    simp [opShr, hu]
  · intro hu
    simp [opShr, hu]
  · intro hle
    rw [h4]
    have hle2 : (2 : Int) ^ x.BitWidth ≤ 2 ^ k := by
      exact_mod_cast Nat.pow_le_pow_right (by decide) hle
    have hkI : (0 : Int) < 2 ^ k := by positivity
    have hH : (2 : Int) ^ x.BitWidth = 2 * 2 ^ (x.BitWidth - 1) := by
      exact_mod_cast APInt.two_pow_pred hx.1
    have hHpos : (0 : Int) < 2 ^ (x.BitWidth - 1) := by positivity
    have hbI : (x.Bits : Int) < 2 ^ x.BitWidth := by exact_mod_cast hx.2
    cases hn : x.isNegative
    · have hnn : ¬ x.value < 0 := by rw [value_neg_iff hx, hn]; simp
      have hub : x.value < 2 ^ x.BitWidth := by
        cases hu : x.IsUnsigned
        · have := (APInt.toSigned_bounds hx).2
          simp only [value, hu, Bool.false_eq_true, if_false]
          omega
        · simp only [value, hu, if_true, APInt.toUnsigned]
          exact hbI
      simp only [Bool.false_eq_true, if_false]
      exact Int.ediv_eq_zero_of_lt (by omega) (by omega)
    · have hneg : x.value < 0 := (value_neg_iff hx).2 hn
      have hlb : -(2 : Int) ^ x.BitWidth ≤ x.value := by
        cases hu : x.IsUnsigned
        · have := (APInt.toSigned_bounds hx).1
          simp only [value, hu, Bool.false_eq_true, if_false]
          omega
        · have := value_nonneg_of_unsigned hu
          omega
      simp only [if_true]
      exact ((Int.ediv_emod_unique hkI).2
        ⟨by show (x.value + 2 ^ k) + 2 ^ k * (-1) = x.value; ring, by omega, by omega⟩).1
  · intro hle hn
    have hs : x.IsUnsigned = false := by
      cases hu : x.IsUnsigned
      · rfl
      · simp [isNegative, isSigned, hu] at hn
    have hn' : x.toAPInt.isNegative = true := by simpa [isNegative, isSigned, hs] using hn
    simp [opShr, hs, APInt.ashr, hle, hn']

theorem shr_value_floor_div_witness :
    (APSInt.mk ⟨8, 249⟩ false).WF ∧
    ((APSInt.mk ⟨8, 249⟩ false).opShr 9).value =
      ⌊((APSInt.mk ⟨8, 249⟩ false).value : ℚ) / 2 ^ 9⌋ ∧
    ((APSInt.mk ⟨8, 249⟩ false).opShr 9).Bits = 255 :=
  ⟨by decide, (shr_value_floor_div (APSInt.mk ⟨8, 249⟩ false) 9 (by decide)).2.2.2.1,
    by decide⟩

end APSInt

namespace APInt

theorem testBit_top_iff {bits i : Nat} (h : bits < 2 ^ (i + 1)) :
    bits.testBit i = true ↔ 2 ^ i ≤ bits := by
  have hwf : (APInt.mk (i + 1) bits).WF := ⟨Nat.succ_pos i, h⟩
  simpa [isNegative] using isNegative_iff hwf

theorem activeBits_le_iff {bits : Nat} (w n : Nat) (h : bits < 2 ^ w) :
    activeBits bits w ≤ n ↔ bits < 2 ^ n := by
  induction w with
  | zero =>
    have hb : bits = 0 := by simpa using h
    simp [activeBits, hb]
  | succ i ih =>
    unfold activeBits
    by_cases ht : bits.testBit i = true
    · rw [if_pos ht]
      have hge := (testBit_top_iff h).1 ht
      constructor
      · intro hle
        exact lt_of_lt_of_le h (Nat.pow_le_pow_right (by decide) hle)
      · intro hlt
        have h2 : 2 ^ i < 2 ^ n := lt_of_le_of_lt hge hlt
        have : i < n := (Nat.pow_lt_pow_iff_right (by decide)).1 h2
        omega
    · rw [if_neg ht]
      have hlt : bits < 2 ^ i := by
        by_contra hc
        exact ht ((testBit_top_iff h).2 (by omega))
      exact ih hlt

theorem activeBits_le_width (bits w : Nat) : activeBits bits w ≤ w := by
  induction w with
  | zero => simp [activeBits]
  | succ i ih =>
    unfold activeBits
    split
    · exact le_refl _
    · omega

theorem getActiveBits_le_iff {a : APInt} (n : Nat) (h : a.WF) :
    a.getActiveBits ≤ n ↔ a.Bits < 2 ^ n :=
  activeBits_le_iff a.BitWidth n h.2

theorem getMinSignedBits_pos (a : APInt) : 1 ≤ a.getMinSignedBits := by
  unfold getMinSignedBits
  split <;> omega

theorem getMinSignedBits_le_iff {a : APInt} {n : Nat} (h : a.WF) (hn : 1 ≤ n) :
    a.getMinSignedBits ≤ n ↔
      -(2 : Int) ^ (n - 1) ≤ a.toSigned ∧ a.toSigned < 2 ^ (n - 1) := by
  have hb : a.Bits < 2 ^ a.BitWidth := h.2
  have hbI : (a.Bits : Int) < 2 ^ a.BitWidth := by exact_mod_cast hb
  have hpos : (0 : Int) < 2 ^ (n - 1) := by positivity
  have hWpos : 0 < 2 ^ a.BitWidth := Nat.two_pow_pos _
  cases hneg : a.isNegative
  · have hk := activeBits_le_iff a.BitWidth (n - 1) hb
    simp only [getMinSignedBits, hneg, toSigned, Bool.false_eq_true, if_false]
    constructor
    · intro hle
      have h1 : a.Bits < 2 ^ (n - 1) := hk.1 (by omega)
      have h2 : (a.Bits : Int) < 2 ^ (n - 1) := by exact_mod_cast h1
      exact ⟨by omega, h2⟩
    · intro hfit
      have h1 : a.Bits < 2 ^ (n - 1) := by exact_mod_cast hfit.2
      have := hk.2 h1
      omega
  · have hc : 2 ^ a.BitWidth - 1 - a.Bits < 2 ^ a.BitWidth := by omega
    have hk := activeBits_le_iff a.BitWidth (n - 1) hc
    simp only [getMinSignedBits, hneg, toSigned, if_true]
    constructor
    · intro hle
      have h1 : 2 ^ a.BitWidth - 1 - a.Bits < 2 ^ (n - 1) := hk.1 (by omega)
      have h2 : ((2 ^ a.BitWidth - 1 - a.Bits : Nat) : Int) < 2 ^ (n - 1) := by exact_mod_cast h1
      rw [Nat.cast_sub (by omega), Nat.cast_sub (by omega)] at h2
      push_cast at h2
      exact ⟨by omega, by omega⟩
    · intro hfit
      have h2 : ((2 ^ a.BitWidth - 1 - a.Bits : Nat) : Int) < 2 ^ (n - 1) := by
        rw [Nat.cast_sub (by omega), Nat.cast_sub (by omega)]
        push_cast
        omega
      have h1 : 2 ^ a.BitWidth - 1 - a.Bits < 2 ^ (n - 1) := by exact_mod_cast h2
      have := hk.2 h1
      omega

end APInt

namespace APSInt

theorem getExtValue_signed {x : APSInt} (hs : x.IsUnsigned = false) :
    x.getExtValue = if x.toAPInt.getMinSignedBits ≤ 64 then some x.value else none := by
  simp only [getExtValue, isSigned, hs, Bool.not_false, if_true, APInt.getSExtValue, value,
    Bool.false_eq_true, if_false]
  split <;> rfl

theorem getExtValue_unsigned {x : APSInt} (hu : x.IsUnsigned = true) :
    x.getExtValue =
      if x.toAPInt.getMinSignedBits ≤ 64 ∧ x.toAPInt.getActiveBits ≤ 64 then
        some (asInt64 x.Bits)
      else none := by
  simp only [getExtValue, isSigned, hu, Bool.not_true, Bool.false_eq_true, if_false,
    APInt.getZExtValue]
  by_cases h1 : x.toAPInt.getMinSignedBits ≤ 64 <;>
    by_cases h2 : x.toAPInt.getActiveBits ≤ 64 <;> simp [h1, h2]

/-- C12: on the unsigned 64-bit value with all bits set, `getExtValue` passes its
check and returns `-1`, while the mathematical value is `2^64 - 1`; the same
value held in 65 bits is a contract violation. -/
theorem getExtValue_unsigned_all_ones :
    (APSInt.mk ⟨64, 2 ^ 64 - 1⟩ true).WF ∧
    (APSInt.mk ⟨64, 2 ^ 64 - 1⟩ true).getExtValue = some (-1) ∧
    (APSInt.mk ⟨64, 2 ^ 64 - 1⟩ true).value = 2 ^ 64 - 1 ∧
    (APSInt.mk ⟨65, 2 ^ 64 - 1⟩ true).WF ∧
    (APSInt.mk ⟨65, 2 ^ 64 - 1⟩ true).value = 2 ^ 64 - 1 ∧
    (APSInt.mk ⟨65, 2 ^ 64 - 1⟩ true).getExtValue = none := by
  decide

end APSInt

namespace APSInt

/-- C14: for every well-formed `x`, `isNegative` holds iff `x` is signed and its
top bit is set, which is iff the mathematical value is negative, so an
unsigned `x` is never negative; `isNonNegative` is the negation of
`isNegative`; `isStrictlyPositive` holds iff the mathematical value is
positive. -/
theorem sign_predicates_agree_with_value (x : APSInt) (hx : x.WF) :
    (x.isNegative = true ↔ x.IsUnsigned = false ∧ x.Bits.testBit (x.BitWidth - 1) = true) ∧
    (x.isNegative = true ↔ x.value < 0) ∧
    (x.IsUnsigned = true → x.isNegative = false) ∧
    x.isNonNegative = !x.isNegative ∧
    (x.isStrictlyPositive = true ↔ 0 < x.value) := by
  have hneg := value_neg_iff hx
  refine ⟨?_, hneg.symm, ?_, rfl, ?_⟩
  · cases hu : x.IsUnsigned <;> simp [isNegative, isSigned, hu, APInt.isNegative]
  · intro hu
    simp [isNegative, isSigned, hu]
  · have hz : x.toAPInt.isZero = true ↔ x.value = 0 := by
      constructor
      · intro h0
        have hb : x.Bits = 0 := by simpa [APInt.isZero] using h0
        by_contra hv
        exact Bits_ne_zero_of_value_ne_zero hv hb
      · intro hv
        have := Bits_eq_zero_of_value_eq_zero hx hv
        simpa [APInt.isZero] using this
    simp only [isStrictlyPositive, isNonNegative, Bool.and_eq_true, Bool.not_eq_true',
      Bool.not_eq_eq_eq_not, Bool.not_true]
    constructor
    · rintro ⟨hn, hnz⟩
      have h1 : ¬ x.value < 0 := by rw [hneg, hn]; simp
      have h2 : x.value ≠ 0 := fun hv => by rw [hz.2 hv] at hnz; cases hnz
      omega
    · intro hpos
      refine ⟨?_, ?_⟩
      · cases hn : x.isNegative
        · rfl
        · have := hneg.2 hn
          omega
      · cases hzv : x.toAPInt.isZero
        · rfl
        · have := hz.1 hzv
          omega

theorem sign_predicates_agree_with_value_witness :
    (APSInt.mk ⟨8, 200⟩ true).WF ∧
    ((APSInt.mk ⟨8, 200⟩ true).isNegative = true ↔
      (APSInt.mk ⟨8, 200⟩ true).IsUnsigned = false ∧
        (APSInt.mk ⟨8, 200⟩ true).Bits.testBit ((APSInt.mk ⟨8, 200⟩ true).BitWidth - 1) = true) ∧
    ((APSInt.mk ⟨8, 200⟩ true).isNegative = true ↔ (APSInt.mk ⟨8, 200⟩ true).value < 0) ∧
    ((APSInt.mk ⟨8, 200⟩ true).IsUnsigned = true →
      (APSInt.mk ⟨8, 200⟩ true).isNegative = false) ∧
    (APSInt.mk ⟨8, 200⟩ true).isNonNegative = !(APSInt.mk ⟨8, 200⟩ true).isNegative ∧
    ((APSInt.mk ⟨8, 200⟩ true).isStrictlyPositive = true ↔
      0 < (APSInt.mk ⟨8, 200⟩ true).value) :=
  ⟨by decide, sign_predicates_agree_with_value (APSInt.mk ⟨8, 200⟩ true) (by decide)⟩

/-- C15: assigning a plain `APInt` or a `uint64_t` to an `APSInt` replaces the
integer value and leaves the signedness flag of the receiver unchanged. -/
theorem assignment_keeps_signedness (a : APSInt) (RHS : APInt) (v : Nat) :
    (a.assign RHS).isUnsigned = a.isUnsigned ∧ (a.assign RHS).toAPInt = RHS ∧
    (a.assignUInt64 v).isUnsigned = a.isUnsigned ∧
    (a.assignUInt64 v).toAPInt = a.toAPInt.assign64 v :=
  ⟨rfl, rfl, rfl, rfl⟩

end APSInt

namespace APInt

/-- C16: integer arithmetic is exact modulo `2^BitWidth`: for well-formed
`w`-bit `A` and `B`, `A + B`, `A - B` and `A * B` return well-formed `w`-bit
values whose bits are `(A + B) mod 2^w`, `(A - B) mod 2^w` and
`(A * B) mod 2^w`. -/
theorem add_sub_mul_exact_mod_two_pow (A B : APInt) (hA : A.WF)
    (hw : A.BitWidth = B.BitWidth) :
    ∃ S D P : APInt, A.add B = some S ∧ A.sub B = some D ∧ A.mul B = some P ∧
      S.WF ∧ D.WF ∧ P.WF ∧
      S.BitWidth = A.BitWidth ∧ D.BitWidth = A.BitWidth ∧ P.BitWidth = A.BitWidth ∧
      (S.Bits : Int) = ((A.Bits : Int) + B.Bits) % 2 ^ A.BitWidth ∧
      (D.Bits : Int) = ((A.Bits : Int) - B.Bits) % 2 ^ A.BitWidth ∧
      (P.Bits : Int) = ((A.Bits : Int) * B.Bits) % 2 ^ A.BitWidth := by
  have hpos : 0 < 2 ^ A.BitWidth := Nat.two_pow_pos _
  have hposI : (0 : Int) < 2 ^ A.BitWidth := by positivity
  have hd0 : 0 ≤ ((A.Bits : Int) - B.Bits) % 2 ^ A.BitWidth := Int.emod_nonneg _ (by omega)
  have hd1 : ((A.Bits : Int) - B.Bits) % 2 ^ A.BitWidth < 2 ^ A.BitWidth :=
    Int.emod_lt_of_pos _ hposI
  refine ⟨⟨A.BitWidth, (A.Bits + B.Bits) % 2 ^ A.BitWidth⟩,
    ⟨A.BitWidth, (((A.Bits : Int) - (B.Bits : Int)) % 2 ^ A.BitWidth).toNat⟩,
    ⟨A.BitWidth, (A.Bits * B.Bits) % 2 ^ A.BitWidth⟩,
    by simp [add, hw], by simp [sub, hw], by simp [mul, hw],
    ⟨hA.1, Nat.mod_lt _ hpos⟩, ⟨hA.1, ?_⟩, ⟨hA.1, Nat.mod_lt _ hpos⟩, rfl, rfl, rfl, ?_, ?_, ?_⟩
  · have : (((((A.Bits : Int) - (B.Bits : Int)) % 2 ^ A.BitWidth).toNat : Nat) : Int) <
        2 ^ A.BitWidth := by
      rw [Int.toNat_of_nonneg hd0]
      exact hd1
    exact_mod_cast this
  · push_cast
    rfl
  · exact Int.toNat_of_nonneg hd0
  · push_cast
    rfl

theorem add_sub_mul_exact_mod_two_pow_witness :
    (APInt.mk 6 52).WF ∧ (APInt.mk 6 52).BitWidth = (APInt.mk 6 13).BitWidth ∧
    (∃ S D P : APInt, (APInt.mk 6 52).add (APInt.mk 6 13) = some S ∧
      (APInt.mk 6 52).sub (APInt.mk 6 13) = some D ∧
      (APInt.mk 6 52).mul (APInt.mk 6 13) = some P ∧
      S.WF ∧ D.WF ∧ P.WF ∧
      S.BitWidth = (APInt.mk 6 52).BitWidth ∧ D.BitWidth = (APInt.mk 6 52).BitWidth ∧
      P.BitWidth = (APInt.mk 6 52).BitWidth ∧
      (S.Bits : Int) =
        (((APInt.mk 6 52).Bits : Int) + (APInt.mk 6 13).Bits) % 2 ^ (APInt.mk 6 52).BitWidth ∧
      (D.Bits : Int) =
        (((APInt.mk 6 52).Bits : Int) - (APInt.mk 6 13).Bits) % 2 ^ (APInt.mk 6 52).BitWidth ∧
      (P.Bits : Int) =
        (((APInt.mk 6 52).Bits : Int) * (APInt.mk 6 13).Bits) %
          2 ^ (APInt.mk 6 52).BitWidth) ∧
    (APInt.mk 6 52).add (APInt.mk 6 13) = some (APInt.mk 6 1) ∧
    (APInt.mk 6 52).sub (APInt.mk 6 13) = some (APInt.mk 6 39) ∧
    (APInt.mk 6 52).mul (APInt.mk 6 13) = some (APInt.mk 6 36) :=
  ⟨by decide, rfl,
    add_sub_mul_exact_mod_two_pow (APInt.mk 6 52) (APInt.mk 6 13) (by decide) rfl,
    by decide, by decide, by decide⟩

theorem ceil_div_eq (a b : Nat) (hb : 0 < b) :
    ⌈(a : ℚ) / (b : ℚ)⌉₊ = if a % b = 0 then a / b else a / b + 1 := by
  have hbQ : (0 : ℚ) < (b : ℚ) := by exact_mod_cast hb
  have hdm := Nat.div_add_mod a b
  split
  · rename_i h0
    have ha : a = b * (a / b) := by omega
    have : (a : ℚ) / (b : ℚ) = ((a / b : Nat) : ℚ) := by
      rw [div_eq_iff hbQ.ne']
      conv_lhs => rw [ha]
      push_cast
      ring
    rw [this, Nat.ceil_natCast]
  · rename_i h0
    have hr : a % b < b := Nat.mod_lt _ hb
    rw [Nat.ceil_eq_iff (Nat.succ_ne_zero _)]
    constructor
    · rw [lt_div_iff₀ hbQ]
      have : (a / b) * b < a := by
        have := Nat.mul_comm b (a / b)
        omega
      have hc : (((a / b) * b : Nat) : ℚ) < (a : ℚ) := by exact_mod_cast this
      simpa using hc
    · rw [div_le_iff₀ hbQ]
      have : a ≤ (a / b + 1) * b := by
        have := Nat.mul_comm b (a / b)
        have h2 : (a / b + 1) * b = (a / b) * b + b := by ring
        omega
      have hc : (a : ℚ) ≤ (((a / b + 1) * b : Nat) : ℚ) := by exact_mod_cast this
      simpa using hc

end APInt

namespace APInt

/-- C17: for well-formed `w`-bit `A` and nonzero `B`, `RoundingUDiv` returns
`floor (A / B)` in mode `DOWN` and `ceil (A / B)` in mode `UP`, each within one
of the truncating quotient, and `A - B * RoundingUDiv(A, B, DOWN)` is the
remainder `A mod B`. -/
theorem RoundingUDiv_floor_ceil (A B : APInt) (hA : A.WF)
    (hw : A.BitWidth = B.BitWidth) (hB : B.Bits ≠ 0) :
    ∃ qd qu m d : APInt,
      RoundingUDiv A B Rounding.DOWN = some qd ∧ RoundingUDiv A B Rounding.UP = some qu ∧
      qd.BitWidth = A.BitWidth ∧ qu.BitWidth = A.BitWidth ∧
      qd.Bits = ⌊(A.Bits : ℚ) / (B.Bits : ℚ)⌋₊ ∧ qu.Bits = ⌈(A.Bits : ℚ) / (B.Bits : ℚ)⌉₊ ∧
      qd.Bits = A.Bits / B.Bits ∧ A.Bits / B.Bits ≤ qu.Bits ∧ qu.Bits ≤ A.Bits / B.Bits + 1 ∧
      B.mul qd = some m ∧ A.sub m = some d ∧ d.BitWidth = A.BitWidth ∧
      d.Bits = A.Bits % B.Bits := by
  have hb : 0 < B.Bits := Nat.pos_of_ne_zero hB
  have hlt : A.Bits < 2 ^ A.BitWidth := hA.2
  have hpos : 0 < 2 ^ A.BitWidth := Nat.two_pow_pos _
  have hdm := Nat.div_add_mod A.Bits B.Bits
  have hq : A.Bits / B.Bits ≤ A.Bits := Nat.div_le_self _ _
  have hmul : B.Bits * (A.Bits / B.Bits) ≤ A.Bits := by omega
  have hfloor : ⌊(A.Bits : ℚ) / (B.Bits : ℚ)⌋₊ = A.Bits / B.Bits := Nat.floor_div_eq_div _ _
  have hceil := ceil_div_eq A.Bits B.Bits hb
  have hup : ∃ qu : APInt, RoundingUDiv A B Rounding.UP = some qu ∧ qu.BitWidth = A.BitWidth ∧
      qu.Bits = if A.Bits % B.Bits = 0 then A.Bits / B.Bits else A.Bits / B.Bits + 1 := by
    by_cases h0 : A.Bits % B.Bits = 0
    · exact ⟨⟨A.BitWidth, A.Bits / B.Bits⟩, by simp [RoundingUDiv, udiv, urem, hw, hB, h0],
        rfl, by simp [h0]⟩
    · have hwrap : (A.Bits / B.Bits + 1) % 2 ^ A.BitWidth = A.Bits / B.Bits + 1 := by
        apply Nat.mod_eq_of_lt
        have h2 : 2 ≤ B.Bits := by
          by_contra hc
          have : B.Bits = 1 := by omega
          rw [this, Nat.mod_one] at h0
          exact h0 rfl
        have : A.Bits / B.Bits ≤ A.Bits / 2 := Nat.div_le_div_left h2 (by decide)
        have hA1 : 1 ≤ A.Bits := by
          by_contra hc
          have : A.Bits = 0 := by omega
          rw [this, Nat.zero_mod] at h0
          exact h0 rfl
        omega
      refine ⟨⟨A.BitWidth, A.Bits / B.Bits + 1⟩, ?_, rfl, by simp [h0]⟩
      simp [RoundingUDiv, udiv, urem, hw, hB, h0, add]
      rw [← hw]
      exact hwrap
  obtain ⟨qu, hqu, hquw, hqub⟩ := hup
  refine ⟨⟨A.BitWidth, A.Bits / B.Bits⟩, qu, ⟨A.BitWidth, B.Bits * (A.Bits / B.Bits)⟩,
    ⟨A.BitWidth, A.Bits % B.Bits⟩, by simp [RoundingUDiv, udiv, urem, hw, hB], hqu, rfl, hquw,
    hfloor.symm, by rw [hceil, hqub], rfl, ?_, ?_, ?_, ?_, rfl, rfl⟩
  · rw [hqub]
    split <;> omega
  · rw [hqub]
    split <;> omega
  · simp only [mul, hw, if_true]
    congr 2
    rw [← hw]
    exact Nat.mod_eq_of_lt (by omega)
  · simp only [sub, if_true]
    congr 2
    have h1 : ((A.Bits : Int) - ((B.Bits * (A.Bits / B.Bits) : Nat) : Int)) =
        ((A.Bits % B.Bits : Nat) : Int) := by
      have : (A.Bits : Int) = ((B.Bits * (A.Bits / B.Bits) + A.Bits % B.Bits : Nat) : Int) := by
        rw [hdm]
      push_cast at this ⊢
      omega
    rw [h1]
    have h2 : A.Bits % B.Bits < 2 ^ A.BitWidth := lt_of_le_of_lt (Nat.mod_le _ _) hlt
    have h3 : ((A.Bits % B.Bits : Nat) : Int) < 2 ^ A.BitWidth := by exact_mod_cast h2
    rw [Int.emod_eq_of_lt (by positivity) h3]
    rfl

theorem RoundingUDiv_floor_ceil_witness :
    (APInt.mk 6 52).WF ∧ (APInt.mk 6 7).Bits ≠ 0 ∧
    (∃ qd qu m d : APInt,
      RoundingUDiv (APInt.mk 6 52) (APInt.mk 6 7) Rounding.DOWN = some qd ∧
      RoundingUDiv (APInt.mk 6 52) (APInt.mk 6 7) Rounding.UP = some qu ∧
      qd.BitWidth = (APInt.mk 6 52).BitWidth ∧ qu.BitWidth = (APInt.mk 6 52).BitWidth ∧
      qd.Bits = ⌊((APInt.mk 6 52).Bits : ℚ) / ((APInt.mk 6 7).Bits : ℚ)⌋₊ ∧
      qu.Bits = ⌈((APInt.mk 6 52).Bits : ℚ) / ((APInt.mk 6 7).Bits : ℚ)⌉₊ ∧
      qd.Bits = (APInt.mk 6 52).Bits / (APInt.mk 6 7).Bits ∧
      (APInt.mk 6 52).Bits / (APInt.mk 6 7).Bits ≤ qu.Bits ∧
      qu.Bits ≤ (APInt.mk 6 52).Bits / (APInt.mk 6 7).Bits + 1 ∧
      (APInt.mk 6 7).mul qd = some m ∧ (APInt.mk 6 52).sub m = some d ∧
      d.BitWidth = (APInt.mk 6 52).BitWidth ∧
      d.Bits = (APInt.mk 6 52).Bits % (APInt.mk 6 7).Bits) ∧
    RoundingUDiv (APInt.mk 6 52) (APInt.mk 6 13) Rounding.DOWN = some (APInt.mk 6 4) ∧
    (APInt.mk 6 52).urem (APInt.mk 6 13) = some (APInt.mk 6 0) ∧
    RoundingUDiv (APInt.mk 6 52) (APInt.mk 6 7) Rounding.DOWN = some (APInt.mk 6 7) ∧
    (APInt.mk 6 52).urem (APInt.mk 6 7) = some (APInt.mk 6 3) ∧
    RoundingUDiv (APInt.mk 6 52) (APInt.mk 6 7) Rounding.UP = some (APInt.mk 6 8) :=
  ⟨by decide, by decide,
    RoundingUDiv_floor_ceil (APInt.mk 6 52) (APInt.mk 6 7) (by decide) rfl (by decide),
    by decide, by decide, by decide, by decide, by decide⟩

end APInt

namespace FixedPointSemantics

theorem ctor_in_range {W Sc : Nat} {sg st pd : Bool} {s : FixedPointSemantics}
    (hW : W < 2 ^ 16) (hS : Sc < 2 ^ 13) (h : ctor W Sc sg st pd = some s) (sats : List Bool) :
    (sats.foldl setSaturated s).getWidth = W ∧ (sats.foldl setSaturated s).getScale = Sc ∧
    (sats.foldl setSaturated s).isSigned = sg ∧
    (sats.foldl setSaturated s).hasUnsignedPadding = pd ∧
    (sats.foldl setSaturated s).getWidth ≥ (sats.foldl setSaturated s).getScale ∧
    ¬ ((sats.foldl setSaturated s).isSigned = true ∧
      (sats.foldl setSaturated s).hasUnsignedPadding = true) := by
  have hframe : ∀ (l : List Bool) (t : FixedPointSemantics),
      (l.foldl setSaturated t).Width = t.Width ∧ (l.foldl setSaturated t).Scale = t.Scale ∧
      (l.foldl setSaturated t).IsSigned = t.IsSigned ∧
      (l.foldl setSaturated t).HasUnsignedPadding = t.HasUnsignedPadding := by
    intro l
    induction l with
    | nil => intro t; exact ⟨rfl, rfl, rfl, rfl⟩
    | cons b l ih => intro t; exact ih (setSaturated t b)
  obtain ⟨f1, f2, f3, f4⟩ := hframe sats s
  have hs : Sc ≤ W ∧ ¬ (sg = true ∧ pd = true) ∧ s = ⟨W, Sc, sg, st, pd⟩ := by
    unfold ctor at h
    split at h
    · cases h
    · rename_i hge
      split at h
      · cases h
      · rename_i hsp
        rw [Nat.mod_eq_of_lt hW, Nat.mod_eq_of_lt hS] at h
        cases h
        exact ⟨by omega, by simpa using hsp, rfl⟩
  obtain ⟨hle, hsp, rfl⟩ := hs
  simp only [getWidth, getScale, isSigned, hasUnsignedPadding, f1, f2, f3, f4]
  exact ⟨trivial, trivial, trivial, trivial, hle, hsp⟩

/-- C18 (failing input): the constructor called with `Width = 65536` and
`Scale = 1` passes both assertions, and the object it produces stores the
width `0`: `getWidth` is below `getScale` and is not the constructor
argument. -/
theorem ctor_width_truncated :
    ∃ s, ctor 65536 1 false false false = some s ∧ s.getWidth = 0 ∧ s.getScale = 1 ∧
      ¬ (s.getWidth ≥ s.getScale) ∧ s.getWidth ≠ 65536 := by
  decide

theorem getIntegralBits_of_room {s : FixedPointSemantics} (hW : s.Width < 2 ^ 32)
    (hroom : s.Scale + (if s.IsSigned || s.HasUnsignedPadding then 1 else 0) ≤ s.Width) :
    s.getIntegralBits + s.getScale +
      (if s.isSigned || s.hasUnsignedPadding then 1 else 0) = s.getWidth := by
  have hWI : (s.Width : Int) < 2 ^ 32 := by exact_mod_cast hW
  cases hsg : s.IsSigned <;> cases hpd : s.HasUnsignedPadding <;>
    simp only [hsg, hpd, Bool.or_self, Bool.or_true, Bool.or_false, Bool.true_or,
      Bool.false_eq_true, if_true, if_false, add_zero] at hroom <;>
    simp only [getIntegralBits, getScale, getWidth, isSigned, hasUnsignedPadding, hsg, hpd,
      Bool.not_false, Bool.not_true, Bool.and_true, Bool.and_false, Bool.and_self,
      Bool.or_self, Bool.or_true, Bool.or_false, Bool.true_or, Bool.false_eq_true, if_true,
      if_false, add_zero] <;>
    (first
      | (have hlt : (s.Width : Int) - s.Scale - 1 < 2 ^ 32 := by omega
         rw [Int.emod_eq_of_lt (by omega) hlt]
         omega)
      | (have hlt : (s.Width : Int) - s.Scale < 2 ^ 32 := by omega
         rw [Int.emod_eq_of_lt (by omega) hlt]
         omega))

/-- C19 (failing input): the signed semantics of width `8` and scale `8` pass
the constructor and satisfy its invariants, and `getIntegralBits` returns
`4294967295` on them, so that the integral bits, the scale and the sign bit
do not add up to the width. -/
theorem getIntegralBits_wraps_without_room :
    ∃ s, ctor 8 8 true false false = some s ∧ s.getWidth ≥ s.getScale ∧
      ¬ (s.isSigned = true ∧ s.hasUnsignedPadding = true) ∧
      s.getIntegralBits = 4294967295 ∧
      s.getIntegralBits + s.getScale + (if s.isSigned || s.hasUnsignedPadding then 1 else 0) ≠
        s.getWidth ∧
      ¬ (s.getIntegralBits ≤ s.getWidth - s.getScale) := by
  decide

end FixedPointSemantics

namespace APFixedPoint

theorem ofAPInt_some {V : APInt} {S : FixedPointSemantics} {X : APFixedPoint}
    (h : ofAPInt V S = some X) :
    X.Val = APSInt.mk V (!S.isSigned) ∧ X.Sema = S ∧ V.BitWidth = S.getWidth := by
  unfold ofAPInt at h
  split at h
  · rename_i hw
    cases h
    exact ⟨rfl, rfl, hw⟩
  · cases h

/-- C20: constructing an `APFixedPoint` from an `APInt` whose bit width differs
from `Sema.getWidth()` is a contract violation; every successfully constructed
value (from an `APInt`, from a `uint64_t`, or zero-initialised from the
semantics) holds an integer whose width is the width of its semantics and
whose signedness is that of its semantics, also as seen through `getValue`
and `getSemantics`; and `shr` returns a value with the same property. -/
theorem width_and_sign_match_semantics (V : APInt) (S : FixedPointSemantics) (v Amt : Nat)
    (X : APFixedPoint)
    (hX : ofAPInt V S = some X ∨ ofUInt64 v S = some X ∨ ofSema S = some X) :
    (∀ V2 : APInt, V2.BitWidth ≠ S.getWidth → ofAPInt V2 S = none) ∧
    X.getSemantics = S ∧
    X.Val.BitWidth = X.Sema.getWidth ∧ X.Val.isSigned = X.Sema.isSigned ∧
    X.getValue.BitWidth = X.getSemantics.getWidth ∧
    X.getValue.isSigned = X.getSemantics.isSigned ∧
    ∃ Y, X.shr Amt = some (Y, false) ∧ Y.getSemantics = S ∧
      Y.Val.BitWidth = Y.Sema.getWidth ∧ Y.Val.isSigned = Y.Sema.isSigned ∧
      Y.getValue.BitWidth = Y.getSemantics.getWidth ∧
      Y.getValue.isSigned = Y.getSemantics.isSigned := by
  have hfrom : ∃ V0 : APInt, ofAPInt V0 S = some X := by
    rcases hX with h | h | h
    · exact ⟨V, h⟩
    · unfold ofUInt64 at h
      cases hv : APInt.ofValue64 S.getWidth v S.isSigned with
      | none => rw [hv] at h; cases h
      | some v0 => rw [hv] at h; exact ⟨v0, h⟩
    · unfold ofSema ofUInt64 at h
      cases hv : APInt.ofValue64 S.getWidth 0 S.isSigned with
      | none => rw [hv] at h; cases h
      | some v0 => rw [hv] at h; exact ⟨v0, h⟩
  obtain ⟨V0, h0⟩ := hfrom
  obtain ⟨hval, hsema, hw⟩ := ofAPInt_some h0
  have hshw : (X.Val.opShr Amt).toAPInt.BitWidth = S.getWidth := by
    rw [hval]
    simp only [APSInt.opShr, APInt.lshr, APInt.ashr]
    split <;> split <;> exact hw
  refine ⟨fun V2 h2 => by simp [ofAPInt, h2], hsema, ?_, ?_, ?_, ?_, ?_⟩
  · rw [hval, hsema]; exact hw
  · rw [hval, hsema]; simp [APSInt.isSigned]
  · simp only [getValue, getSemantics]
    rw [hval, hsema]; exact hw
  · simp [getValue, getSemantics, APSInt.isSigned]
  · refine ⟨⟨APSInt.mk (X.Val.opShr Amt).toAPInt (!S.isSigned), S⟩, ?_, rfl, hshw, ?_, hshw, ?_⟩
    · simp [shr, ofAPInt, hsema, hshw]
    · simp [APSInt.isSigned]
    · simp [getValue, getSemantics, APSInt.isSigned]

theorem width_and_sign_match_semantics_witness :
    ofUInt64 5 ⟨8, 4, true, false, false⟩ =
      some ⟨APSInt.mk ⟨8, 5⟩ false, ⟨8, 4, true, false, false⟩⟩ ∧
    (APFixedPoint.mk (APSInt.mk ⟨8, 5⟩ false) ⟨8, 4, true, false, false⟩).getValue.BitWidth =
      (APFixedPoint.mk (APSInt.mk ⟨8, 5⟩ false) ⟨8, 4, true, false, false⟩).getSemantics.getWidth ∧
    (APFixedPoint.mk (APSInt.mk ⟨8, 5⟩ false) ⟨8, 4, true, false, false⟩).getValue.isSigned =
      (APFixedPoint.mk (APSInt.mk ⟨8, 5⟩ false)
        ⟨8, 4, true, false, false⟩).getSemantics.isSigned :=
  ⟨by decide,
    (width_and_sign_match_semantics ⟨8, 5⟩ ⟨8, 4, true, false, false⟩ 5 1
      ⟨APSInt.mk ⟨8, 5⟩ false, ⟨8, 4, true, false, false⟩⟩ (Or.inr (Or.inl (by decide)))).2.2.2.2.1,
    (width_and_sign_match_semantics ⟨8, 5⟩ ⟨8, 4, true, false, false⟩ 5 1
      ⟨APSInt.mk ⟨8, 5⟩ false, ⟨8, 4, true, false, false⟩⟩
      (Or.inr (Or.inl (by decide)))).2.2.2.2.2.1⟩

end APFixedPoint

namespace APInt

theorem pow_ten_lt_two_pow (L : Nat) : 10 ^ L < 2 ^ (64 * L / 19 + 1) := by
  obtain ⟨q, r, hr, rfl⟩ : ∃ q r, r < 19 ∧ L = 19 * q + r :=
    ⟨L / 19, L % 19, Nat.mod_lt _ (by decide), (Nat.div_add_mod L 19).symm⟩
  have hexp : 64 * (19 * q + r) / 19 + 1 = 64 * q + (64 * r / 19 + 1) := by
    have : 64 * (19 * q + r) = 64 * r + 19 * (64 * q) := by ring
    rw [this, Nat.add_mul_div_left _ _ (by decide : 0 < 19)]
    omega
  rw [hexp, pow_add, pow_add, pow_mul, pow_mul]
  have h1 : (10 ^ 19) ^ q ≤ (2 ^ 64) ^ q := Nat.pow_le_pow_left (by norm_num) q
  have h2 : 10 ^ r < 2 ^ (64 * r / 19 + 1) := by
    interval_cases r <;> norm_num
  have h3 : 0 < (10 ^ 19) ^ q := by positivity
  calc (10 ^ 19) ^ q * 10 ^ r < (10 ^ 19) ^ q * 2 ^ (64 * r / 19 + 1) :=
        Nat.mul_lt_mul_of_pos_left h2 h3
    _ ≤ (2 ^ 64) ^ q * 2 ^ (64 * r / 19 + 1) := Nat.mul_le_mul_right _ h1

theorem getDigit_decimal {c : Char} (h : isDecimalDigit c) :
    getDigit c 10 = some (c.toNat - 48) := by
  obtain ⟨h1, h2⟩ := h
  have : c.toNat - 48 < 10 := by omega
  simp [getDigit, h1, h2, this]

theorem decimalValue_cons (c : Char) (cs : List Char) :
    decimalValue (c :: cs) = (c.toNat - 48) * 10 ^ cs.length + decimalValue cs := by
  simp only [decimalValue, List.reverse_cons, List.map_append, List.map_cons, List.map_nil,
    Nat.ofDigits_append, List.length_map, List.length_reverse, Nat.ofDigits_singleton]
  ring

theorem parseDigits_decimal (ds : List Char) (acc : Nat) (h : ∀ c ∈ ds, isDecimalDigit c) :
    parseDigits 10 ds acc = some (acc * 10 ^ ds.length + decimalValue ds) := by
  induction ds generalizing acc with
  | nil => simp [parseDigits, decimalValue]
  | cons c cs ih =>
    have hc := getDigit_decimal (h c (List.mem_cons_self _ _))
    have hcs : ∀ x ∈ cs, isDecimalDigit x := fun x hx => h x (List.mem_cons_of_mem _ hx)
    simp only [parseDigits, hc]
    rw [ih _ hcs, decimalValue_cons]
    congr 1
    simp only [List.length_cons, pow_succ]
    ring

theorem decimalValue_lt (ds : List Char) (h : ∀ c ∈ ds, isDecimalDigit c) :
    decimalValue ds < 10 ^ ds.length := by
  have := @Nat.ofDigits_lt_base_pow_length 10 (ds.reverse.map (fun c => c.toNat - 48))
    (by decide) (by
      intro x hx
      obtain ⟨c, hc, rfl⟩ := List.mem_map.1 hx
      have := h c (List.mem_reverse.1 hc)
      unfold isDecimalDigit at this
      omega)
  simpa [decimalValue] using this

theorem activeBits_eq_size {bits w : Nat} (h : bits < 2 ^ w) : activeBits bits w = bits.size := by
  apply le_antisymm
  · exact (activeBits_le_iff w _ h).2 (Nat.lt_size_self bits)
  · exact Nat.size_le.2 ((activeBits_le_iff w _ h).1 (le_refl _))

theorem trunc_toSigned {a : APInt} {k : Nat} (h : a.WF) (hk : 1 ≤ k) (hkw : k < a.BitWidth)
    (hfit : -(2 : Int) ^ (k - 1) ≤ a.toSigned ∧ a.toSigned < 2 ^ (k - 1)) :
    ∃ t, a.trunc k = some t ∧ t.WF ∧ t.BitWidth = k ∧ t.toSigned = a.toSigned := by
  have hb : a.Bits < 2 ^ a.BitWidth := h.2
  have hK := two_pow_pred (show 0 < k by omega)
  have hKpos : 0 < 2 ^ (k - 1) := Nat.two_pow_pos _
  have hmod : a.Bits % 2 ^ k < 2 ^ k := Nat.mod_lt _ (Nat.two_pow_pos _)
  have hwf : (APInt.mk k (a.Bits % 2 ^ k)).WF := ⟨by simp only; omega, hmod⟩
  refine ⟨⟨k, a.Bits % 2 ^ k⟩, by simp [trunc, hkw]; omega, hwf, rfl, ?_⟩
  cases hn : a.isNegative
  · simp only [toSigned, hn, Bool.false_eq_true, if_false] at hfit ⊢
    have h1 : a.Bits < 2 ^ (k - 1) := by exact_mod_cast hfit.2
    have h2 : a.Bits % 2 ^ k = a.Bits := Nat.mod_eq_of_lt (by omega)
    have hn2 : (APInt.mk k (a.Bits % 2 ^ k)).isNegative = false :=
      (isNegative_false_iff hwf).2 (by simp only; omega)
    rw [h2] at hn2
    simp only [h2, hn2, Bool.false_eq_true, if_false]
  · simp only [toSigned, hn, if_true] at hfit ⊢
    have hsplit : 2 ^ a.BitWidth = 2 ^ k * 2 ^ (a.BitWidth - k) := by
      rw [← pow_add]
      congr 1
      omega
    have hQ : 1 ≤ 2 ^ (a.BitWidth - k) := Nat.two_pow_pos _
    obtain ⟨Q, hQe⟩ : ∃ Q, 2 ^ (a.BitWidth - k) = Q + 1 := ⟨2 ^ (a.BitWidth - k) - 1, by omega⟩
    have hge : (2 : Int) ^ a.BitWidth - 2 ^ (k - 1) ≤ a.Bits := by omega
    have hgeN : 2 ^ a.BitWidth - 2 ^ (k - 1) ≤ a.Bits := by
      have hle : 2 ^ (k - 1) ≤ 2 ^ a.BitWidth :=
        Nat.pow_le_pow_right (by decide) (by omega)
      have : ((2 ^ a.BitWidth - 2 ^ (k - 1) : Nat) : Int) ≤ a.Bits := by
        rw [Nat.cast_sub hle]
        push_cast
        exact hge
      exact_mod_cast this
    have hW : 2 ^ a.BitWidth = 2 ^ k * Q + 2 ^ k := by rw [hsplit, hQe]; ring
    obtain ⟨y, hy⟩ : ∃ y, a.Bits = y + 2 ^ k * Q := ⟨a.Bits - 2 ^ k * Q, by omega⟩
    have hylt : y < 2 ^ k := by omega
    have hyge : 2 ^ (k - 1) ≤ y := by omega
    have h2 : a.Bits % 2 ^ k = y := by
      rw [hy, Nat.add_mul_mod_self_left]
      exact Nat.mod_eq_of_lt hylt
    have hn2 : (APInt.mk k (a.Bits % 2 ^ k)).isNegative = true :=
      (isNegative_iff hwf).2 (by simp only; omega)
    rw [h2] at hn2
    simp only [h2, hn2, if_true]
    have hWI : (2 : Int) ^ a.BitWidth = 2 ^ k * (Q : Int) + 2 ^ k := by exact_mod_cast hW
    have hyI : (a.Bits : Int) = (y : Int) + 2 ^ k * (Q : Int) := by exact_mod_cast hy
    rw [hyI, hWI]
    ring

end APInt

namespace APSInt

/-- Below 1,275,068,416 characters the width computed for the temporary does not
wrap. -/
theorem NumBits_of_short (Str : List Char) (h : Str.length < 1275068416) :
    NumBits Str = Str.length * 64 / 19 + 2 := by
  have h1 : Str.length * 64 < 2 ^ 64 := by omega
  have h2 : Str.length * 64 / 19 + 2 < 2 ^ 32 := by omega
  unfold NumBits
  rw [Nat.mod_eq_of_lt h1, Nat.mod_eq_of_lt h2]

/-- At 1,275,068,416 characters the quotient is `2^32` and the width wraps to `2`. -/
theorem NumBits_of_wrap_length (Str : List Char) (h : Str.length = 1275068416) :
    NumBits Str = 2 := by
  unfold NumBits
  rw [h]
  norm_num

theorem ofString_unsigned (ds : List Char) (hne : ds ≠ [])
    (hd : ∀ c ∈ ds, isDecimalDigit c) (hlen : ds.length < 1275068416) :
    ∃ r, ofString ds = some r ∧ r.WF ∧ r.IsUnsigned = true ∧
      r.value = (decimalValue ds : Int) ∧ r.BitWidth = max 1 (Nat.size (decimalValue ds)) := by
  obtain ⟨c, cs, rfl⟩ : ∃ c cs, ds = c :: cs := by
    cases ds with
    | nil => exact absurd rfl hne
    | cons c cs => exact ⟨c, cs, rfl⟩
  have hc : isDecimalDigit c := hd c (List.mem_cons_self _ _)
  have hminus : c ≠ '-' := by
    intro h
    rw [h] at hc
    revert hc
    decide
  have hlt10 := APInt.decimalValue_lt (c :: cs) hd
  have hpow := APInt.pow_ten_lt_two_pow (c :: cs).length
  have hN : ((c :: cs).length * 64) / 19 + 2 = (64 * (c :: cs).length / 19 + 1) + 1 := by
    rw [Nat.mul_comm]
  have hNB := NumBits_of_short (c :: cs) hlen
  generalize hNdef : ((c :: cs).length * 64) / 19 + 2 = N at hN hNB
  generalize hKdef : 64 * (c :: cs).length / 19 + 1 = K at hN hpow
  generalize hn : decimalValue (c :: cs) = n at hlt10
  subst hN
  have hnK : n < 2 ^ K := lt_trans hlt10 hpow
  have hKK : 2 ^ (K + 1) = 2 * 2 ^ K := by rw [pow_succ]; ring
  have hK1 : 1 ≤ K := by omega
  have hfs : APInt.fromString (K + 1) (c :: cs) 10 = some ⟨K + 1, n⟩ := by
    have hp := APInt.parseDigits_decimal (c :: cs) 0 hd
    rw [hn] at hp
    simp only [APInt.fromString, Nat.succ_ne_zero, if_false, hminus, hp, Option.map_some',
      Nat.zero_mul, Nat.zero_add]
    congr 2
    exact Nat.mod_eq_of_lt (by omega)
  have hact : APInt.activeBits n (K + 1) = n.size := APInt.activeBits_eq_size (by omega)
  have hsz : n.size ≤ K := Nat.size_le.2 hnK
  have hnsz : n < 2 ^ n.size := Nat.lt_size_self n
  have hmax : n < 2 ^ (max 1 n.size) :=
    lt_of_lt_of_le hnsz (Nat.pow_le_pow_right (by decide) (le_max_right _ _))
  have hmaxlt : max 1 n.size < K + 1 := by
    rcases le_total 1 n.size with h | h
    · rw [max_eq_right h]; omega
    · rw [max_eq_left h]; omega
  have hmaxpos : 0 < max 1 n.size := lt_of_lt_of_le Nat.zero_lt_one (le_max_left _ _)
  refine ⟨APSInt.mk ⟨max 1 n.size, n⟩ true, ?_, ⟨hmaxpos, hmax⟩, rfl, ?_, rfl⟩
  · have hhead : ¬ ((c :: cs).head? = some '-') := by
      simpa using hminus
    simp only [ofString, hNB, hfs, hhead, if_false, APInt.getActiveBits, hact,
      reduceCtorEq]
    rw [if_pos (by omega)]
    simp only [APInt.trunc, hmaxpos, hmaxlt, and_self, if_true, Option.map_some',
      Nat.mod_eq_of_lt hmax]
  · simp [value, APInt.toUnsigned]

theorem fromString_minus (ds : List Char) (hne : ds ≠ []) (hd : ∀ c ∈ ds, isDecimalDigit c)
    {N : Nat} (hN : 1 ≤ N) (hfit : decimalValue ds ≤ 2 ^ (N - 1)) :
    ∃ t, APInt.fromString N ('-' :: ds) 10 = some t ∧ t.WF ∧ t.BitWidth = N ∧
      t.toSigned = -(decimalValue ds : Int) := by
  have hp := APInt.parseDigits_decimal ds 0 hd
  generalize decimalValue ds = n at hp hfit
  have hW := APInt.two_pow_pred (show 0 < N by omega)
  have hHpos : 0 < 2 ^ (N - 1) := Nat.two_pow_pos _
  have hnm : n % 2 ^ N = n := Nat.mod_eq_of_lt (by omega)
  have hmod : (2 ^ N - n % 2 ^ N) % 2 ^ N < 2 ^ N := Nat.mod_lt _ (Nat.two_pow_pos _)
  have hwf : (APInt.mk N ((2 ^ N - n % 2 ^ N) % 2 ^ N)).WF := ⟨by simp only; omega, hmod⟩
  refine ⟨⟨N, (2 ^ N - n % 2 ^ N) % 2 ^ N⟩, ?_, hwf, rfl, ?_⟩
  · have hN0 : N ≠ 0 := by omega
    simp only [APInt.fromString, hN0, if_false, if_true, hne, hp, Option.map_some',
      Nat.zero_mul, Nat.zero_add]
  · rw [hnm] at hwf ⊢
    by_cases h0 : n = 0
    · subst h0
      have hb : (2 ^ N - 0) % 2 ^ N = 0 := by simp
      rw [hb] at hwf ⊢
      have hn2 : (APInt.mk N 0).isNegative = false :=
        (APInt.isNegative_false_iff hwf).2 (by simp only; omega)
      simp [APInt.toSigned, hn2]
    · have hb : (2 ^ N - n) % 2 ^ N = 2 ^ N - n := Nat.mod_eq_of_lt (by omega)
      rw [hb] at hwf ⊢
      have hn2 : (APInt.mk N (2 ^ N - n)).isNegative = true :=
        (APInt.isNegative_iff hwf).2 (by simp only; omega)
      simp only [APInt.toSigned, hn2, if_true]
      rw [Nat.cast_sub (by omega)]
      push_cast
      ring

theorem ofString_signed (ds : List Char) (hne : ds ≠ [])
    (hd : ∀ c ∈ ds, isDecimalDigit c) (hlen : ds.length + 1 < 1275068416) :
    ∃ r, ofString ('-' :: ds) = some r ∧ r.WF ∧ r.IsUnsigned = false ∧
      r.value = -(decimalValue ds : Int) ∧
      fitsSignedBits r.BitWidth (-(decimalValue ds : Int)) ∧
      ∀ n, fitsSignedBits n (-(decimalValue ds : Int)) → r.BitWidth ≤ n := by
  have hlt10 := APInt.decimalValue_lt ds hd
  have hpow := APInt.pow_ten_lt_two_pow ds.length
  have hNrel : 64 * ds.length / 19 + 1 + 3 ≤ (('-' :: ds).length * 64) / 19 + 2 - 1 := by
    simp only [List.length_cons]
    omega
  have hNB := NumBits_of_short ('-' :: ds) (show ds.length + 1 < 1275068416 from hlen)
  generalize hNdef : (('-' :: ds).length * 64) / 19 + 2 = N at hNrel hNB
  generalize 64 * ds.length / 19 + 1 = K at hNrel hpow
  have hN1 : 1 ≤ N - 1 := by omega
  have hle : 2 ^ K ≤ 2 ^ (N - 1 - 1) := Nat.pow_le_pow_right (by decide) (by omega)
  have hH := APInt.two_pow_pred (show 0 < N - 1 by omega)
  have hnlt : decimalValue ds < 2 ^ (N - 1 - 1) := lt_of_lt_of_le (lt_trans hlt10 hpow) hle
  obtain ⟨t, hfs, htwf, htw, hts⟩ :=
    fromString_minus ds hne hd (show 1 ≤ N by omega) (by omega)
  have hMpos := APInt.getMinSignedBits_pos t
  have hnltI : ((decimalValue ds : Nat) : Int) < 2 ^ (N - 1 - 1) := by exact_mod_cast hnlt
  have hpos2 : (0 : Int) < 2 ^ (N - 1 - 1) := by positivity
  have hMle : t.getMinSignedBits ≤ N - 1 := by
    rw [APInt.getMinSignedBits_le_iff htwf hN1, hts]
    exact ⟨by omega, by omega⟩
  have hMfit := (APInt.getMinSignedBits_le_iff htwf hMpos).1 (le_refl _)
  obtain ⟨u, hu, huwf, huw, hus⟩ :=
    APInt.trunc_toSigned htwf hMpos (by rw [htw]; omega) hMfit
  refine ⟨APSInt.mk u false, ?_, huwf, rfl, ?_, ?_, ?_⟩
  · have hne2 : ('-' :: ds) ≠ [] := List.cons_ne_nil _ _
    simp only [ofString, hne2, if_false, hNB, hfs, List.head?_cons, if_true]
    rw [if_pos (by omega), max_eq_right hMpos, hu]
    rfl
  · simp only [value, Bool.false_eq_true, if_false]
    rw [hus, hts]
  · rw [hts] at hMfit
    exact ⟨by show 1 ≤ u.BitWidth; omega, by show -(2 : Int) ^ (u.BitWidth - 1) ≤ _; rw [huw]; exact hMfit.1,
      by show _ < (2 : Int) ^ (u.BitWidth - 1); rw [huw]; exact hMfit.2⟩
  · rintro n ⟨hn1, hn2, hn3⟩
    show u.BitWidth ≤ n
    rw [huw, APInt.getMinSignedBits_le_iff htwf hn1, hts]
    exact ⟨hn2, hn3⟩

/-- Strings below the length at which `NumBits` wraps: for a non-empty string `s`
of decimal digits denoting `n`, with `-` and `s` shorter than 1,275,068,416
characters, `APSInt(s)` is unsigned, has the mathematical value `n` and the
bit width `max(1, number of significant bits of n)`; and `APSInt` of `-`
followed by `s` is signed, has the mathematical value `-n`, and its bit width
is the minimal number of bits (at least one) that represent `-n` in two's
complement. -/
theorem ofString_value_and_minimal_width (s : List Char) (hne : s ≠ [])
    (hd : ∀ c ∈ s, isDecimalDigit c) (hlen : s.length + 1 < 1275068416) :
    (∃ r, ofString s = some r ∧ r.WF ∧ r.IsUnsigned = true ∧
      r.value = (decimalValue s : Int) ∧ r.BitWidth = max 1 (Nat.size (decimalValue s))) ∧
    (∃ r, ofString ('-' :: s) = some r ∧ r.WF ∧ r.IsUnsigned = false ∧
      r.value = -(decimalValue s : Int) ∧
      fitsSignedBits r.BitWidth (-(decimalValue s : Int)) ∧
      ∀ n, fitsSignedBits n (-(decimalValue s : Int)) → r.BitWidth ≤ n) :=
  ⟨ofString_unsigned s hne hd (by omega), ofString_signed s hne hd hlen⟩

end APSInt

namespace APSInt

theorem ofString_value_and_minimal_width_witness :
    ['4', '2'] ≠ [] ∧ (∀ c ∈ ['4', '2'], isDecimalDigit c) ∧
    ['4', '2'].length + 1 < 1275068416 ∧
    ((∃ r, ofString ['4', '2'] = some r ∧ r.WF ∧ r.IsUnsigned = true ∧
      r.value = (decimalValue ['4', '2'] : Int) ∧
      r.BitWidth = max 1 (Nat.size (decimalValue ['4', '2']))) ∧
    (∃ r, ofString ('-' :: ['4', '2']) = some r ∧ r.WF ∧ r.IsUnsigned = false ∧
      r.value = -(decimalValue ['4', '2'] : Int) ∧
      fitsSignedBits r.BitWidth (-(decimalValue ['4', '2'] : Int)) ∧
      ∀ n, fitsSignedBits n (-(decimalValue ['4', '2'] : Int)) → r.BitWidth ≤ n)) ∧
    ofString ['4', '2'] = some (APSInt.mk ⟨6, 42⟩ true) ∧
    ofString ['-', '4', '2'] = some (APSInt.mk ⟨7, 86⟩ false) ∧
    ofString ['0'] = some (APSInt.mk ⟨1, 0⟩ true) ∧
    ofString ['-', '1', '2', '8'] = some (APSInt.mk ⟨8, 128⟩ false) :=
  ⟨by decide, by decide, by decide,
    ofString_value_and_minimal_width ['4', '2'] (by decide) (by decide) (by decide),
    by decide, by decide, by decide, by decide⟩

end APSInt

namespace APSInt

/-- What `getExtValue` returns when it succeeds on a well-formed `x`: the
mathematical value of `x` when `x` is signed and when `x` is unsigned with a
value below `2^63`; for an unsigned `x` with a value of at least `2^63`, that
value minus `2^64`, the same 64-bit pattern read as two's complement. -/
theorem getExtValue_eq_value_as_int64 (x : APSInt) (r : Int) (hx : x.WF)
    (h : x.getExtValue = some r) :
    r = (if x.IsUnsigned = true ∧ 2 ^ 63 ≤ x.value then x.value - 2 ^ 64 else x.value) ∧
    -(2 : Int) ^ 63 ≤ r ∧ r < 2 ^ 63 := by
  cases hu : x.IsUnsigned
  · rw [getExtValue_signed hu] at h
    have hM := APInt.getMinSignedBits_le_iff (n := 64) hx (by decide)
    split at h
    · rename_i hm
      cases h
      have hb := hM.1 hm
      simp only [value, hu, Bool.false_eq_true, if_false] at hb ⊢
      simp only [false_and, if_false]
      exact ⟨trivial, hb.1, hb.2⟩
    · cases h
  · rw [getExtValue_unsigned hu] at h
    have hA := APInt.getActiveBits_le_iff 64 hx
    split at h
    · rename_i hm
      cases h
      have hlt : x.Bits < 2 ^ 64 := hA.1 hm.2
      have hltI : (x.Bits : Int) < 2 ^ 64 := by exact_mod_cast hlt
      have hmod : x.Bits % 2 ^ 64 = x.Bits := Nat.mod_eq_of_lt hlt
      simp only [value, hu, if_true, APInt.toUnsigned, true_and, asInt64, hmod]
      by_cases h63 : x.Bits < 2 ^ 63
      · have h63I : (x.Bits : Int) < 2 ^ 63 := by exact_mod_cast h63
        rw [if_pos h63, if_neg (by omega)]
        exact ⟨rfl, by omega, h63I⟩
      · have h63I : (2 : Int) ^ 63 ≤ (x.Bits : Int) := by
          have : 2 ^ 63 ≤ x.Bits := by omega
          exact_mod_cast this
        rw [if_neg h63, if_pos h63I]
        exact ⟨rfl, by omega, by omega⟩
    · cases h

theorem getExtValue_eq_value_as_int64_witness :
    (APSInt.mk ⟨64, 2 ^ 64 - 1⟩ true).WF ∧
    (APSInt.mk ⟨64, 2 ^ 64 - 1⟩ true).getExtValue = some (-1) ∧
    ((-1 : Int) =
      (if (APSInt.mk ⟨64, 2 ^ 64 - 1⟩ true).IsUnsigned = true ∧
          2 ^ 63 ≤ (APSInt.mk ⟨64, 2 ^ 64 - 1⟩ true).value then
        (APSInt.mk ⟨64, 2 ^ 64 - 1⟩ true).value - 2 ^ 64
       else (APSInt.mk ⟨64, 2 ^ 64 - 1⟩ true).value) ∧
      -(2 : Int) ^ 63 ≤ -1 ∧ (-1 : Int) < 2 ^ 63) :=
  ⟨by decide, by decide,
    getExtValue_eq_value_as_int64 (APSInt.mk ⟨64, 2 ^ 64 - 1⟩ true) (-1) (by decide)
      (by decide)⟩

end APSInt

namespace APInt

theorem neg_WF {a : APInt} (h : a.WF) : a.neg.WF :=
  ⟨h.1, Nat.mod_lt _ (Nat.two_pow_pos _)⟩

theorem neg_toSigned {a : APInt} (h : a.WF)
    (hmin : a.toSigned ≠ -(2 : Int) ^ (a.BitWidth - 1)) : a.neg.toSigned = -a.toSigned := by
  have hb : a.Bits < 2 ^ a.BitWidth := h.2
  have hW := two_pow_pred h.1
  have hWI : (2 : Int) ^ a.BitWidth = 2 * 2 ^ (a.BitWidth - 1) := by exact_mod_cast hW
  have hHpos : 0 < 2 ^ (a.BitWidth - 1) := Nat.two_pow_pos _
  have hnwf := neg_WF h
  by_cases h0 : a.Bits = 0
  · have hn : a.isNegative = false := (isNegative_false_iff h).2 (by omega)
    have hnb : a.neg.Bits = 0 := by simp [neg, h0]
    have hn2 : a.neg.isNegative = false := (isNegative_false_iff hnwf).2 (by rw [hnb]; exact hHpos)
    simp [toSigned, hn, hn2, hnb, h0]
  · have hnb : a.neg.Bits = 2 ^ a.BitWidth - a.Bits := by
      simp only [neg]
      exact Nat.mod_eq_of_lt (by omega)
    have hnbI : (a.neg.Bits : Int) = 2 ^ a.BitWidth - (a.Bits : Int) := by
      rw [hnb, Nat.cast_sub (by omega)]
      push_cast
      rfl
    cases hn : a.isNegative
    · have hlt := (isNegative_false_iff h).1 hn
      have hn2 : a.neg.isNegative = true :=
        (isNegative_iff hnwf).2 (by rw [hnb]; exact (by simp only [neg]; omega))
      have hbw : a.neg.BitWidth = a.BitWidth := rfl
      simp only [toSigned, hn, hn2, if_true, Bool.false_eq_true, if_false, hnbI, hbw]
      ring
    · have hge := (isNegative_iff h).1 hn
      have hne : a.Bits ≠ 2 ^ (a.BitWidth - 1) := by
        intro he
        apply hmin
        simp only [toSigned, hn, if_true, he]
        push_cast
        omega
      have hn2 : a.neg.isNegative = false :=
        (isNegative_false_iff hnwf).2 (by rw [hnb]; exact (by simp only [neg]; omega))
      have hbw : a.neg.BitWidth = a.BitWidth := rfl
      simp only [toSigned, hn, hn2, if_true, Bool.false_eq_true, if_false, hnbI, hbw]
      ring

theorem neg_Bits_eq_iff {a : APInt} (h : a.WF) :
    a.neg.Bits = a.Bits ↔ a.Bits = 0 ∨ a.Bits = 2 ^ (a.BitWidth - 1) := by
  have hb : a.Bits < 2 ^ a.BitWidth := h.2
  have hW := two_pow_pred h.1
  by_cases h0 : a.Bits = 0
  · simp [neg, h0]
  · have hnb : a.neg.Bits = 2 ^ a.BitWidth - a.Bits := by
      simp only [neg]
      exact Nat.mod_eq_of_lt (by omega)
    rw [hnb]
    constructor
    · intro he
      right
      omega
    · rintro (h1 | h1)
      · exact absurd h1 h0
      · omega

end APInt

namespace APSInt

theorem opLtInt_zero {x : APSInt} (hx : x.WF) : x.opLtInt 0 = some (decide (x.value < 0)) := by
  obtain ⟨g, hg, hgwf, hgv⟩ := get_spec (r := 0) (by norm_num) (by norm_num)
  have hc := compareValues_eq hx hgwf
  rw [hgv] at hc
  simp only [opLtInt, hg, Option.some_bind, hc, Option.map_some',
    decide_eq_decide.2 (cmp3_neg_iff x.value 0)]

theorem opNe_opNeg (x : APSInt) :
    x.opNe x.opNeg = some (!decide (x.Bits = x.toAPInt.neg.Bits)) := by
  simp [opNe, opEq, opNeg, APInt.eq, APInt.neg]

theorem value_signed {x : APSInt} (hs : x.IsUnsigned = false) : x.value = x.toAPInt.toSigned := by
  simp [value, hs]

theorem opNeg_spec {x : APSInt} (hx : x.WF) (hs : x.IsUnsigned = false)
    (hmin : x.value ≠ -(2 : Int) ^ (x.BitWidth - 1)) :
    x.opNeg.WF ∧ x.opNeg.BitWidth = x.BitWidth ∧ x.opNeg.IsUnsigned = false ∧
      x.opNeg.value = -x.value := by
  rw [value_signed hs] at hmin
  refine ⟨APInt.neg_WF hx, rfl, hs, ?_⟩
  rw [value_signed hs, value_signed (show x.opNeg.IsUnsigned = false from hs)]
  exact APInt.neg_toSigned hx hmin

end APSInt

namespace APFixedPoint

theorem getIntPart_nonneg {X : APFixedPoint} (hwf : X.Val.WF) (hv : 0 ≤ X.Val.value) :
    X.getIntPart = some (X.Val.opShr X.getScale) := by
  have hd : decide (X.Val.value < 0) = false := decide_eq_false (by omega)
  simp only [getIntPart, APSInt.opLtInt_zero hwf, hd]

theorem getIntPart_min {X : APFixedPoint} (hwf : X.Val.WF) (hs : X.Val.IsUnsigned = false)
    (hv : X.Val.value = -(2 : Int) ^ (X.Val.BitWidth - 1)) :
    X.Val.opNe X.Val.opNeg = some false ∧ X.getIntPart = some (X.Val.opShr X.getScale) := by
  have hpos : (0 : Int) < 2 ^ (X.Val.BitWidth - 1) := by positivity
  have hd : decide (X.Val.value < 0) = true := decide_eq_true (by omega)
  have hbI : (X.Val.Bits : Int) < 2 ^ X.Val.BitWidth := by exact_mod_cast hwf.2
  have hWI : (2 : Int) ^ X.Val.BitWidth = 2 * 2 ^ (X.Val.BitWidth - 1) := by
    exact_mod_cast APInt.two_pow_pred hwf.1
  have hbits : X.Val.Bits = 2 ^ (X.Val.BitWidth - 1) := by
    rw [APSInt.value_signed hs] at hv
    unfold APInt.toSigned at hv
    split at hv
    · have : (X.Val.Bits : Int) = 2 ^ (X.Val.BitWidth - 1) := by omega
      exact_mod_cast this
    · omega
  have hne : X.Val.opNe X.Val.opNeg = some false := by
    rw [APSInt.opNe_opNeg]
    have := (APInt.neg_Bits_eq_iff hwf).2 (Or.inr hbits)
    simp [this]
  exact ⟨hne, by simp only [getIntPart, APSInt.opLtInt_zero hwf, hd, hne]⟩

theorem getIntPart_negative {X : APFixedPoint} (hwf : X.Val.WF)
    (hneg : X.Val.value < 0) (hv : X.Val.value ≠ -(2 : Int) ^ (X.Val.BitWidth - 1)) :
    X.getIntPart = some ((X.Val.opNeg.opShr X.getScale).opNeg) := by
  have hd : decide (X.Val.value < 0) = true := decide_eq_true hneg
  have hs : X.Val.IsUnsigned = false := by
    cases hu : X.Val.IsUnsigned
    · rfl
    · have := APSInt.value_nonneg_of_unsigned hu
      omega
  have hne : X.Val.opNe X.Val.opNeg = some true := by
    rw [APSInt.opNe_opNeg]
    have hiff := APInt.neg_Bits_eq_iff hwf
    have hnot : ¬ (X.Val.Bits = X.Val.toAPInt.neg.Bits) := by
      intro he
      rcases hiff.1 he.symm with h0 | hm
      · have : X.Val.value = 0 := by
          rw [APSInt.value_signed hs]
          have hn : X.Val.toAPInt.isNegative = false :=
            (APInt.isNegative_false_iff hwf).2 (by rw [h0]; exact Nat.two_pow_pos _)
          simp [APInt.toSigned, hn, h0]
        omega
      · apply hv
        rw [APSInt.value_signed hs]
        have hn : X.Val.toAPInt.isNegative = true :=
          (APInt.isNegative_iff hwf).2 (by rw [hm])
        have hWI : (2 : Int) ^ X.Val.BitWidth = 2 * 2 ^ (X.Val.BitWidth - 1) := by
          exact_mod_cast APInt.two_pow_pred hwf.1
        simp only [APInt.toSigned, hn, if_true, hm]
        push_cast
        omega
    simp [hnot]
  simp only [getIntPart, APSInt.opLtInt_zero hwf, hd, hne]

/-- The integral part: the result always exists, keeps the width and the
signedness of `Val`, and its value is the quotient rounded toward zero, except
on the signed minimum with a scale of at least the width, where it is `-1`. -/
theorem getIntPart_spec (X : APFixedPoint) (hwf : X.Val.WF) :
    ∃ r, X.getIntPart = some r ∧ r.WF ∧ r.BitWidth = X.Val.BitWidth ∧
      r.IsUnsigned = X.Val.IsUnsigned ∧
      r.value =
        (if X.Val.value = -(2 : Int) ^ (X.Val.BitWidth - 1) ∧ X.Val.BitWidth ≤ X.getScale then -1
         else Int.tdiv X.Val.value (2 ^ X.getScale)) := by
  have hHpos : (0 : Int) < 2 ^ (X.Val.BitWidth - 1) := by positivity
  have hSpos : (0 : Int) < 2 ^ X.getScale := by positivity
  by_cases hv0 : 0 ≤ X.Val.value
  · obtain ⟨h1, h2, h3, h4⟩ := APSInt.opShr_spec X.getScale hwf
    refine ⟨_, getIntPart_nonneg hwf hv0, h1, h2, h3, ?_⟩
    rw [h4, if_neg (by intro h; omega), Int.tdiv_eq_ediv hv0 hSpos.le]
  · have hneg : X.Val.value < 0 := by omega
    have hs : X.Val.IsUnsigned = false := by
      cases hu : X.Val.IsUnsigned
      · rfl
      · have := APSInt.value_nonneg_of_unsigned hu
        omega
    by_cases hmin : X.Val.value = -(2 : Int) ^ (X.Val.BitWidth - 1)
    · obtain ⟨h1, h2, h3, h4⟩ := APSInt.opShr_spec X.getScale hwf
      refine ⟨_, (getIntPart_min hwf hs hmin).2, h1, h2, h3, ?_⟩
      rw [h4, hmin]
      by_cases hle : X.Val.BitWidth ≤ X.getScale
      · rw [if_pos ⟨rfl, hle⟩]
        have hle2 : (2 : Int) ^ (X.Val.BitWidth - 1) < 2 ^ X.getScale := by
          have : 2 ^ (X.Val.BitWidth - 1) < 2 ^ X.getScale :=
            Nat.pow_lt_pow_right (by decide) (by have := hwf.1; omega)
          exact_mod_cast this
        exact ((Int.ediv_emod_unique hSpos).2
          ⟨by show (-(2 : Int) ^ (X.Val.BitWidth - 1) + 2 ^ X.getScale) + 2 ^ X.getScale * (-1) = _
              ring, by omega, by omega⟩).1
      · rw [if_neg (by intro h; exact hle h.2)]
        have hsplit : (2 : Int) ^ (X.Val.BitWidth - 1) =
            2 ^ (X.Val.BitWidth - 1 - X.getScale) * 2 ^ X.getScale := by
          rw [← pow_add]
          congr 1
          omega
        rw [hsplit, ← neg_mul, Int.mul_ediv_cancel _ hSpos.ne', Int.mul_tdiv_cancel _ hSpos.ne']
    · obtain ⟨n1, n2, n3, n4⟩ := APSInt.opNeg_spec hwf hs hmin
      obtain ⟨h1, h2, h3, h4⟩ := APSInt.opShr_spec X.getScale n1
      have hq0 : 0 ≤ (X.Val.opNeg.opShr X.getScale).value := by
        rw [h4, n4]
        exact Int.ediv_nonneg (by omega) hSpos.le
      have hpos2 : (0 : Int) < 2 ^ ((X.Val.opNeg.opShr X.getScale).BitWidth - 1) := by positivity
      obtain ⟨m1, m2, m3, m4⟩ := APSInt.opNeg_spec h1 (h3.trans n3) (by omega)
      refine ⟨_, getIntPart_negative hwf hneg hmin, m1, by rw [m2, h2, n2], by rw [m3, hs], ?_⟩
      rw [m4, h4, n4, if_neg (by intro h; exact hmin h.1)]
      have : Int.tdiv X.Val.value (2 ^ X.getScale) = -Int.tdiv (-X.Val.value) (2 ^ X.getScale) := by
        rw [Int.neg_tdiv, neg_neg]
      rw [this, Int.tdiv_eq_ediv (by omega) hSpos.le]

end APFixedPoint

namespace APFixedPoint

/-- C21: for every fixed-point value `X` (its integer has the width and the
signedness of its semantics) and every shift amount `Amt`, `X.shr(Amt,
&Overflow)` returns a value and sets `Overflow` to `false`; the result has
exactly the semantics of `X`, and its integer is the integer of `X` shifted
right by `Amt`, arithmetically if `X` is signed and logically if it is
unsigned, so that its value is the floor of the value of `X` over `2^Amt`. -/
theorem shr_keeps_semantics_and_shifts (X : APFixedPoint) (Amt : Nat)
    (hw : X.Val.BitWidth = X.Sema.getWidth) (hs : X.Val.IsUnsigned = !X.Sema.isSigned) :
    ∃ Y, X.shr Amt = some (Y, false) ∧ Y.getSemantics = X.getSemantics ∧
      Y.Val = X.Val.opShr Amt ∧ Y.getValue = X.getValue.opShr Amt ∧
      Y.Val.toAPInt =
        (if X.Sema.isSigned then X.Val.toAPInt.ashr Amt else X.Val.toAPInt.lshr Amt) ∧
      Y.Val.BitWidth = Y.Sema.getWidth ∧ Y.Val.IsUnsigned = !Y.Sema.isSigned ∧
      (X.Val.WF → Y.Val.WF ∧ Y.Val.value = ⌊(X.Val.value : ℚ) / 2 ^ Amt⌋) := by
  have hshw : (X.Val.opShr Amt).toAPInt.BitWidth = X.Sema.getWidth := by
    simp only [APSInt.opShr, APInt.lshr, APInt.ashr]
    split <;> split <;> exact hw
  have hshu : (X.Val.opShr Amt).IsUnsigned = !X.Sema.isSigned := by
    rw [← hs]
    cases hu : X.Val.IsUnsigned <;> simp [APSInt.opShr, hu]
  have hY : APSInt.mk (X.Val.opShr Amt).toAPInt (!X.Sema.isSigned) = X.Val.opShr Amt := by
    rw [← hshu]
  have hgv : X.getValue = X.Val := by
    simp only [getValue, ← hs]
  refine ⟨⟨APSInt.mk (X.Val.opShr Amt).toAPInt (!X.Sema.isSigned), X.Sema⟩, ?_, rfl, hY, ?_, ?_,
    hshw, rfl, ?_⟩
  · simp [shr, ofAPInt, hshw]
  · rw [hgv]
    exact hY
  · cases hsg : X.Sema.isSigned
    · rw [hsg] at hs
      simp [APSInt.opShr, hs]
    · rw [hsg] at hs
      simp [APSInt.opShr, hs]
  · intro hwf
    obtain ⟨h1, _, _, h4⟩ := APSInt.opShr_spec Amt hwf
    have hfloor : ⌊(X.Val.value : ℚ) / 2 ^ Amt⌋ = X.Val.value / 2 ^ Amt := by
      have := Rat.floor_intCast_div_natCast X.Val.value (2 ^ Amt)
      push_cast at this
      exact this
    show (APSInt.mk (X.Val.opShr Amt).toAPInt (!X.Sema.isSigned)).WF ∧ _
    rw [hY, hfloor]
    exact ⟨h1, h4⟩

theorem shr_keeps_semantics_and_shifts_witness :
    ∃ Y, (APFixedPoint.mk (APSInt.mk ⟨8, 251⟩ false) ⟨8, 4, true, true, false⟩).shr 2 =
        some (Y, false) ∧
      Y.getSemantics = ⟨8, 4, true, true, false⟩ ∧
      Y.Val = APSInt.mk ⟨8, 254⟩ false :=
  (shr_keeps_semantics_and_shifts
      (APFixedPoint.mk (APSInt.mk ⟨8, 251⟩ false) ⟨8, 4, true, true, false⟩) 2 rfl rfl).imp
    (fun _ h => ⟨h.1, h.2.1, h.2.2.1.trans (by decide)⟩)

/-- C22 (failing input): the signed fixed-point value of width `8` and scale `8`
whose integer is the minimum `-128` is constructible, stands for `-0.5`, and
`getIntPart` returns `-1` on it, whereas `-128 / 2^8` rounded toward zero is
`0`. -/
theorem getIntPart_min_at_full_scale :
    FixedPointSemantics.ctor 8 8 true false false = some ⟨8, 8, true, false, false⟩ ∧
    ofAPInt ⟨8, 128⟩ ⟨8, 8, true, false, false⟩ =
      some ⟨APSInt.mk ⟨8, 128⟩ false, ⟨8, 8, true, false, false⟩⟩ ∧
    (APSInt.mk ⟨8, 128⟩ false).value = -128 ∧
    (APFixedPoint.mk (APSInt.mk ⟨8, 128⟩ false) ⟨8, 8, true, false, false⟩).getIntPart =
      some (APSInt.mk ⟨8, 255⟩ false) ∧
    (APSInt.mk ⟨8, 255⟩ false).value = -1 ∧
    Int.tdiv (-128) (2 ^ 8) = 0 :=
  ⟨by decide, by decide, by decide,
    (getIntPart_min (X := APFixedPoint.mk (APSInt.mk ⟨8, 128⟩ false) ⟨8, 8, true, false, false⟩)
      (by decide) rfl (by decide)).2.trans (by decide),
    by decide, by decide⟩

/-- C23: for every signed fixed-point value of width `w` and scale `s < w`
whose integer is the minimum `-2^(w-1)`, `getIntPart` is no contract
violation: the test `Val != -Val` is false, so the result is `Val >> s`, the
non-negating branch, and its value is exactly `-2^(w-1-s)`. -/
theorem getIntPart_of_min_value (X : APFixedPoint) (hsg : X.Sema.isSigned = true)
    (hw : X.Val.BitWidth = X.Sema.getWidth) (hs : X.Val.IsUnsigned = !X.Sema.isSigned)
    (hsc : X.getScale < X.getWidth) (hbits : X.Val.Bits = 2 ^ (X.getWidth - 1)) :
    X.Val.value = -(2 : Int) ^ (X.getWidth - 1) ∧
    X.Val.opNe X.Val.opNeg = some false ∧
    ∃ r, X.getIntPart = some r ∧ r = X.Val.opShr X.getScale ∧ r.WF ∧
      r.BitWidth = X.getWidth ∧ r.IsUnsigned = false ∧
      r.value = -(2 : Int) ^ (X.getWidth - 1 - X.getScale) := by
  have hgw : X.getWidth = X.Val.BitWidth := hw.symm
  rw [hgw] at hsc hbits ⊢
  have hu : X.Val.IsUnsigned = false := by rw [hs, hsg]; rfl
  have hW := APInt.two_pow_pred (show 0 < X.Val.BitWidth by omega)
  have hHpos : 0 < 2 ^ (X.Val.BitWidth - 1) := Nat.two_pow_pos _
  have hwf : X.Val.WF := ⟨by omega, by rw [hbits]; omega⟩
  have hn : X.Val.toAPInt.isNegative = true := (APInt.isNegative_iff hwf).2 (by rw [hbits])
  have hv : X.Val.value = -(2 : Int) ^ (X.Val.BitWidth - 1) := by
    have hWI : (2 : Int) ^ X.Val.BitWidth = 2 * 2 ^ (X.Val.BitWidth - 1) := by exact_mod_cast hW
    rw [APSInt.value_signed hu]
    simp only [APInt.toSigned, hn, if_true, hbits]
    push_cast
    omega
  obtain ⟨hne, hget⟩ := getIntPart_min hwf hu hv
  obtain ⟨r, hr, hrwf, hrw, hru, hrv⟩ := getIntPart_spec X hwf
  rw [hget] at hr
  cases hr
  refine ⟨hv, hne, _, hget, rfl, hrwf, hrw, hru.trans hu, ?_⟩
  rw [hrv, if_neg (by intro h; omega), hv]
  have hSpos : (0 : Int) < 2 ^ X.getScale := by positivity
  have hsplit : (2 : Int) ^ (X.Val.BitWidth - 1) =
      2 ^ (X.Val.BitWidth - 1 - X.getScale) * 2 ^ X.getScale := by
    rw [← pow_add]
    congr 1
    omega
  rw [hsplit, ← neg_mul, Int.mul_tdiv_cancel _ hSpos.ne']

theorem getIntPart_of_min_value_witness :
    (APFixedPoint.mk (APSInt.mk ⟨8, 128⟩ false) ⟨8, 3, true, false, false⟩).getScale <
      (APFixedPoint.mk (APSInt.mk ⟨8, 128⟩ false) ⟨8, 3, true, false, false⟩).getWidth ∧
    ∃ r, (APFixedPoint.mk (APSInt.mk ⟨8, 128⟩ false) ⟨8, 3, true, false, false⟩).getIntPart =
        some r ∧
      r.value = -(2 : Int) ^ (8 - 1 - 3) :=
  ⟨by decide,
    (getIntPart_of_min_value
      (APFixedPoint.mk (APSInt.mk ⟨8, 128⟩ false) ⟨8, 3, true, false, false⟩)
      rfl rfl rfl (by decide) (by decide)).2.2.imp (fun _ h => ⟨h.1, h.2.2.2.2.2⟩)⟩

end APFixedPoint

namespace Error

/-- C24: a default-constructed `Error` and `Error::success()` hold no error
(`has_error()` and the conversion to `bool` are false); an `Error` constructed
from any message string holds an error (both are true). -/
theorem holds_error_iff_constructed_from_message (msg : String) :
    Error.default.has_error = false ∧ Error.default.toBool = false ∧
    Error.success.has_error = false ∧ Error.success.toBool = false ∧
    (Error.ofMessage msg).has_error = true ∧ (Error.ofMessage msg).toBool = true :=
  ⟨rfl, rfl, rfl, rfl, rfl, rfl⟩

/-- C25: for every `Error` `e`, `e.take()` returns the optional message `e` held
and leaves `e` in the success state, so that a second `take()` returns the
empty optional; an `Error` constructed from the result of `take()` holds an
error iff `e` held one; `consumeError` leaves the success state as well. -/
theorem take_returns_message_and_resets (e : Error) :
    e.take.1 = e.Err ∧ e.take.2 = Error.success ∧ e.take.2.has_error = false ∧
    e.take.2.take.1 = none ∧
    (Error.ofOptional e.take.1).has_error = e.has_error ∧
    consumeError e = Error.success :=
  ⟨rfl, rfl, rfl, rfl, rfl, rfl⟩

end Error

namespace Expected

/-- C26: an `Expected<T>` constructed from a value `v` has `has_value()` true,
`has_error()` false, and `operator*` returns `v`; constructed from an `Error`
`e` that holds an error it has `has_value()` false and `has_error()` true, holds
the message of `e`, and `e` is left in the success state; constructing it
from an `Error` that holds no error is a contract violation. -/
theorem construction_from_value_and_error {T : Type} (v : T) (e : Error)
    (he : e.has_error = true) :
    (ofValue v).has_value = true ∧ (ofValue v).has_error = false ∧
    (ofValue v).deref = some v ∧
    (∃ (m : String) (x : Expected T), e.Err = some m ∧
      ofError e = some (x, Error.success) ∧ x.Data = ExpectedData.error m ∧
      x.has_value = false ∧ x.has_error = true) ∧
    (∀ e2 : Error, e2.has_error = false → ofError (T := T) e2 = none) := by
  refine ⟨rfl, rfl, rfl, ?_, ?_⟩
  · obtain ⟨err⟩ := e
    cases err with
    | none => cases he
    | some m => exact ⟨m, ⟨ExpectedData.error m⟩, rfl, rfl, rfl, rfl, rfl⟩
  · intro e2 h2
    simp [ofError, Error.toBool, h2]

theorem construction_from_value_and_error_witness :
    (Error.ofMessage "ERROR!").has_error = true ∧
    (ofValue (42 : Int)).has_value = true ∧ (ofValue (42 : Int)).has_error = false ∧
    (ofValue (42 : Int)).deref = some 42 ∧
    (∃ (m : String) (x : Expected Int), (Error.ofMessage "ERROR!").Err = some m ∧
      ofError (Error.ofMessage "ERROR!") = some (x, Error.success) ∧
      x.Data = ExpectedData.error m ∧ x.has_value = false ∧ x.has_error = true) ∧
    (∀ e2 : Error, e2.has_error = false → ofError (T := Int) e2 = none) :=
  ⟨rfl, construction_from_value_and_error (42 : Int) (Error.ofMessage "ERROR!") rfl⟩

/-- C27: for every `Expected<T>` holding an error message `m`, `takeError()`
returns an `Error` holding exactly `m` and leaves the `Expected` in the empty
state, after which a second `takeError()` and `operator*` are contract
violations. -/
theorem takeError_extracts_error_once {T : Type} (x : Expected T) (m : String)
    (hx : x.Data = ExpectedData.error m) :
    ∃ (err : Error) (x2 : Expected T), x.takeError = some (err, x2) ∧ err.Err = some m ∧
      err.has_error = true ∧ x2.Data = ExpectedData.monostate ∧
      x2.takeError = none ∧ x2.deref = none ∧ x.deref = none := by
  obtain ⟨d⟩ := x
  simp only at hx
  subst hx
  exact ⟨Error.ofMessage m, ⟨ExpectedData.monostate⟩, rfl, rfl, rfl, rfl, rfl, rfl, rfl⟩

theorem takeError_extracts_error_once_witness :
    ∃ (err : Error) (x2 : Expected Int),
      (Expected.mk (ExpectedData.error "ERROR!") : Expected Int).takeError = some (err, x2) ∧
      err.Err = some "ERROR!" ∧ err.has_error = true ∧ x2.Data = ExpectedData.monostate ∧
      x2.takeError = none ∧ x2.deref = none ∧
      (Expected.mk (ExpectedData.error "ERROR!") : Expected Int).deref = none :=
  takeError_extracts_error_once (Expected.mk (ExpectedData.error "ERROR!")) "ERROR!" rfl

/-- C28: for every `Expected<T>` holding a value `v`, `takeError()` returns the
success `Error` and leaves the `Expected` unchanged (`has_value()` is still true
and `operator*` still returns `v`), however many times it is called. -/
theorem takeError_on_value_changes_nothing {T : Type} (x : Expected T) (v : T) (n : Nat)
    (hx : x.Data = ExpectedData.value v) :
    x.takeError = some (Error.success, x) ∧ Error.success.has_error = false ∧
    x.has_value = true ∧ x.deref = some v ∧
    (fun o : Option (Expected T) => o.bind (fun y => y.takeError.map Prod.snd))^[n] (some x) =
      some x := by
  obtain ⟨d⟩ := x
  simp only at hx
  subst hx
  refine ⟨rfl, rfl, rfl, rfl, ?_⟩
  induction n with
  | zero => rfl
  | succ k ih =>
    rw [Function.iterate_succ_apply', ih]
    rfl

theorem takeError_on_value_changes_nothing_witness :
    (Expected.mk (ExpectedData.value (42 : Int))).takeError =
      some (Error.success, Expected.mk (ExpectedData.value (42 : Int))) ∧
    Error.success.has_error = false ∧
    (Expected.mk (ExpectedData.value (42 : Int))).has_value = true ∧
    (Expected.mk (ExpectedData.value (42 : Int))).deref = some 42 ∧
    (fun o : Option (Expected Int) => o.bind (fun y => y.takeError.map Prod.snd))^[3]
      (some (Expected.mk (ExpectedData.value (42 : Int)))) =
      some (Expected.mk (ExpectedData.value (42 : Int))) :=
  takeError_on_value_changes_nothing (Expected.mk (ExpectedData.value (42 : Int))) 42 3 rfl

end Expected

namespace APSInt

theorem fromString_digits_exact (ds : List Char) (hne : ds ≠ [])
    (hd : ∀ c ∈ ds, isDecimalDigit c) :
    ∃ Tmp, APInt.fromString ((ds.length * 64) / 19 + 2) ds 10 = some Tmp ∧ Tmp.WF ∧
      Tmp.BitWidth = (ds.length * 64) / 19 + 2 ∧ Tmp.Bits = decimalValue ds ∧
      Nat.size (decimalValue ds) < (ds.length * 64) / 19 + 2 ∧
      Tmp.getActiveBits < (ds.length * 64) / 19 + 2 ∧
      ∃ t, Tmp.trunc (max 1 Tmp.getActiveBits) = some t ∧ t.Bits = decimalValue ds := by
  obtain ⟨c, cs, rfl⟩ : ∃ c cs, ds = c :: cs := by
    cases ds with
    | nil => exact absurd rfl hne
    | cons c cs => exact ⟨c, cs, rfl⟩
  have hc : isDecimalDigit c := hd c (List.mem_cons_self _ _)
  have hminus : c ≠ '-' := by
    intro h
    rw [h] at hc
    revert hc
    decide
  have hlt10 := APInt.decimalValue_lt (c :: cs) hd
  have hpow := APInt.pow_ten_lt_two_pow (c :: cs).length
  have hN : ((c :: cs).length * 64) / 19 + 2 = (64 * (c :: cs).length / 19 + 1) + 1 := by
    rw [Nat.mul_comm]
  have hp := APInt.parseDigits_decimal (c :: cs) 0 hd
  generalize ((c :: cs).length * 64) / 19 + 2 = N at hN
  generalize 64 * (c :: cs).length / 19 + 1 = K at hN hpow
  generalize decimalValue (c :: cs) = n at hlt10 hp
  subst hN
  have hnK : n < 2 ^ K := lt_trans hlt10 hpow
  have hKK : 2 ^ (K + 1) = 2 * 2 ^ K := by rw [pow_succ]; ring
  have hfs : APInt.fromString (K + 1) (c :: cs) 10 = some ⟨K + 1, n⟩ := by
    simp only [APInt.fromString, Nat.succ_ne_zero, if_false, hminus, hp, Option.map_some',
      Nat.zero_mul, Nat.zero_add]
    congr 2
    exact Nat.mod_eq_of_lt (by omega)
  have hwf : (APInt.mk (K + 1) n).WF := ⟨Nat.succ_pos K, by simp only; omega⟩
  have hact : (APInt.mk (K + 1) n).getActiveBits = n.size :=
    APInt.activeBits_eq_size (show n < 2 ^ (K + 1) by omega)
  have hsz : n.size ≤ K := Nat.size_le.2 hnK
  have hnsz : n < 2 ^ n.size := Nat.lt_size_self n
  have hmax : n < 2 ^ (max 1 n.size) :=
    lt_of_lt_of_le hnsz (Nat.pow_le_pow_right (by decide) (le_max_right _ _))
  have hK1 : 1 ≤ K := by
    rcases Nat.eq_zero_or_pos K with h | h
    · rw [h] at hpow
      have : 0 < 10 ^ (c :: cs).length := by positivity
      have : (c :: cs).length = 0 := by
        by_contra hl
        have : 10 ^ 1 ≤ 10 ^ (c :: cs).length :=
          Nat.pow_le_pow_right (by decide) (Nat.pos_of_ne_zero hl)
        omega
      simp at this
    · exact h
  have hmaxlt : max 1 n.size < K + 1 := by
    rcases le_total 1 n.size with h | h
    · rw [max_eq_right h]; omega
    · rw [max_eq_left h]; omega
  have hmaxpos : 0 < max 1 n.size := lt_of_lt_of_le Nat.zero_lt_one (le_max_left _ _)
  refine ⟨⟨K + 1, n⟩, hfs, hwf, rfl, rfl, by omega, by rw [hact]; omega,
    ⟨max 1 n.size, n⟩, ?_, rfl⟩
  rw [hact]
  simp only [APInt.trunc, hmaxpos, hmaxlt, and_self, if_true, Nat.mod_eq_of_lt hmax]

theorem fromString_minus_exact (ds : List Char) (hne : ds ≠ [])
    (hd : ∀ c ∈ ds, isDecimalDigit c) :
    ∃ Tmp, APInt.fromString ((('-' :: ds).length * 64) / 19 + 2) ('-' :: ds) 10 = some Tmp ∧
      Tmp.WF ∧ Tmp.BitWidth = (('-' :: ds).length * 64) / 19 + 2 ∧
      Tmp.toSigned = -(decimalValue ds : Int) ∧
      Tmp.getMinSignedBits < (('-' :: ds).length * 64) / 19 + 2 ∧
      ∃ t, Tmp.trunc (max 1 Tmp.getMinSignedBits) = some t ∧
        t.toSigned = -(decimalValue ds : Int) := by
  have hlt10 := APInt.decimalValue_lt ds hd
  have hpow := APInt.pow_ten_lt_two_pow ds.length
  have hNrel : 64 * ds.length / 19 + 1 + 3 ≤ (('-' :: ds).length * 64) / 19 + 2 - 1 := by
    simp only [List.length_cons]
    omega
  generalize (('-' :: ds).length * 64) / 19 + 2 = N at hNrel
  generalize 64 * ds.length / 19 + 1 = K at hNrel hpow
  have hN1 : 1 ≤ N - 1 := by omega
  have hle : 2 ^ K ≤ 2 ^ (N - 1 - 1) := Nat.pow_le_pow_right (by decide) (by omega)
  have hH := APInt.two_pow_pred (show 0 < N - 1 by omega)
  have hnlt : decimalValue ds < 2 ^ (N - 1 - 1) := lt_of_lt_of_le (lt_trans hlt10 hpow) hle
  obtain ⟨t, hfs, htwf, htw, hts⟩ :=
    fromString_minus ds hne hd (show 1 ≤ N by omega) (by omega)
  have hMpos := APInt.getMinSignedBits_pos t
  have hnltI : ((decimalValue ds : Nat) : Int) < 2 ^ (N - 1 - 1) := by exact_mod_cast hnlt
  have hpos2 : (0 : Int) < 2 ^ (N - 1 - 1) := by positivity
  have hMle : t.getMinSignedBits ≤ N - 1 := by
    rw [APInt.getMinSignedBits_le_iff htwf hN1, hts]
    exact ⟨by omega, by omega⟩
  have hMfit := (APInt.getMinSignedBits_le_iff htwf hMpos).1 (le_refl _)
  obtain ⟨u, hu, _, _, hus⟩ :=
    APInt.trunc_toSigned htwf hMpos (by rw [htw]; omega) hMfit
  exact ⟨t, hfs, htwf, htw, hts, by omega, u, by rw [max_eq_right hMpos]; exact hu,
    hus.trans hts⟩

/-- The width `floor(64 L / 19) + 2`, which is `NumBits` for a string of fewer
than 1,275,068,416 characters, is an over-estimate:
`10^L < 2^(floor(64 L / 19) + 1)` for every length `L`, so for every non-empty
digit string, alone or after a leading `-`, this width is strictly greater
than the active bits of the parsed magnitude, resp. than the minimal signed
bits of its negation; parsing into it holds the value exactly, and the
truncation to `max(1, needed bits)` keeps it. -/
theorem string_width_is_overestimate (ds : List Char) (hne : ds ≠ [])
    (hd : ∀ c ∈ ds, isDecimalDigit c) :
    (ds.length + 1 < 1275068416 → NumBits ds = (ds.length * 64) / 19 + 2 ∧
      NumBits ('-' :: ds) = (('-' :: ds).length * 64) / 19 + 2) ∧
    (∀ L : Nat, 10 ^ L < 2 ^ (64 * L / 19 + 1)) ∧
    (∃ Tmp, APInt.fromString ((ds.length * 64) / 19 + 2) ds 10 = some Tmp ∧ Tmp.WF ∧
      Tmp.BitWidth = (ds.length * 64) / 19 + 2 ∧ Tmp.Bits = decimalValue ds ∧
      Nat.size (decimalValue ds) < (ds.length * 64) / 19 + 2 ∧
      Tmp.getActiveBits < (ds.length * 64) / 19 + 2 ∧
      ∃ t, Tmp.trunc (max 1 Tmp.getActiveBits) = some t ∧ t.Bits = decimalValue ds) ∧
    (∃ Tmp, APInt.fromString ((('-' :: ds).length * 64) / 19 + 2) ('-' :: ds) 10 = some Tmp ∧
      Tmp.WF ∧ Tmp.BitWidth = (('-' :: ds).length * 64) / 19 + 2 ∧
      Tmp.toSigned = -(decimalValue ds : Int) ∧
      Tmp.getMinSignedBits < (('-' :: ds).length * 64) / 19 + 2 ∧
      ∃ t, Tmp.trunc (max 1 Tmp.getMinSignedBits) = some t ∧
        t.toSigned = -(decimalValue ds : Int)) :=
  ⟨fun h => ⟨NumBits_of_short ds (by omega),
      NumBits_of_short ('-' :: ds) (show ds.length + 1 < 1275068416 from h)⟩,
    APInt.pow_ten_lt_two_pow, fromString_digits_exact ds hne hd, fromString_minus_exact ds hne hd⟩

theorem string_width_is_overestimate_witness :
    ['9', '9'] ≠ [] ∧ (∀ c ∈ ['9', '9'], isDecimalDigit c) ∧
    (10 : Nat) ^ 2 < 2 ^ (64 * 2 / 19 + 1) ∧
    ∃ Tmp, APInt.fromString ((['9', '9'].length * 64) / 19 + 2) ['9', '9'] 10 = some Tmp ∧
      Tmp.WF ∧ Tmp.BitWidth = (['9', '9'].length * 64) / 19 + 2 ∧
      Tmp.Bits = decimalValue ['9', '9'] ∧
      Nat.size (decimalValue ['9', '9']) < (['9', '9'].length * 64) / 19 + 2 ∧
      Tmp.getActiveBits < (['9', '9'].length * 64) / 19 + 2 ∧
      ∃ t, Tmp.trunc (max 1 Tmp.getActiveBits) = some t ∧ t.Bits = decimalValue ['9', '9'] :=
  ⟨by decide, by decide,
    (string_width_is_overestimate ['9', '9'] (by decide) (by decide)).2.1 2,
    (string_width_is_overestimate ['9', '9'] (by decide) (by decide)).2.2.1⟩

end APSInt

theorem countl_zero_add_activeBits (N v : Nat) : countl_zero N v + APInt.activeBits v N = N := by
  induction N with
  | zero => rfl
  | succ n ih =>
    unfold countl_zero APInt.activeBits
    split
    · omega
    · omega

theorem activeBits_bounds {N v : Nat} (h0 : v ≠ 0) (hlt : v < 2 ^ N) :
    1 ≤ APInt.activeBits v N ∧ APInt.activeBits v N ≤ N ∧
      2 ^ (APInt.activeBits v N - 1) ≤ v ∧ v < 2 ^ APInt.activeBits v N := by
  have hle := APInt.activeBits_le_width v N
  have hup : v < 2 ^ APInt.activeBits v N := (APInt.activeBits_le_iff N _ hlt).1 (le_refl _)
  have h1 : 1 ≤ APInt.activeBits v N := by
    by_contra hc
    have : APInt.activeBits v N = 0 := by omega
    rw [this] at hup
    simp at hup
    exact h0 hup
  refine ⟨h1, hle, ?_, hup⟩
  by_contra hc
  have := (APInt.activeBits_le_iff N (APInt.activeBits v N - 1) hlt).2 (by omega)
  omega

theorem xor_mask_eq_sub {N c : Nat} (hN : N = 8 ∨ N = 16 ∨ N = 32 ∨ N = 64) (hc : c < N) :
    c ^^^ (N - 1) = N - 1 - c := by
  rcases hN with rfl | rfl | rfl | rfl <;> interval_cases c <;> rfl

theorem countr_zero_spec (N : Nat) : ∀ v : Nat, v ≠ 0 → v < 2 ^ N →
    v.testBit (countr_zero N v) = true ∧ ∀ i, i < countr_zero N v → v.testBit i = false := by
  induction N with
  | zero =>
    intro v h0 hlt
    simp at hlt
    exact absurd hlt h0
  | succ n ih =>
    intro v h0 hlt
    unfold countr_zero
    by_cases hodd : v % 2 = 1
    · rw [if_pos hodd]
      exact ⟨by simp [Nat.testBit_zero, hodd], fun i hi => absurd hi (Nat.not_lt_zero i)⟩
    · rw [if_neg hodd]
      have h2 : v / 2 ≠ 0 := by omega
      have h3 : v / 2 < 2 ^ n := by
        rw [pow_succ] at hlt
        omega
      obtain ⟨ih1, ih2⟩ := ih (v / 2) h2 h3
      refine ⟨by rw [Nat.testBit_succ]; exact ih1, ?_⟩
      intro i hi
      cases i with
      | zero => simp [Nat.testBit_zero, hodd]
      | succ j =>
        rw [Nat.testBit_succ]
        exact ih2 j (by omega)

/-- C30: for an unsigned type of `N` bits (`N` one of 8, 16, 32, 64) and every
nonzero `Val`, `findLastSet(Val)` is the index `r` of the highest set bit, the
unique `r` with `2^r <= Val < 2^(r+1)`, the XOR of the leading-zero count with
`N-1` being `N-1` minus that count; `findFirstSet(Val)` is the index of the
lowest set bit; and with the default `ZB_Max` both return the maximum value of
the type on `0`. -/
theorem findLastSet_findFirstSet_index (N Val : Nat)
    (hN : N = 8 ∨ N = 16 ∨ N = 32 ∨ N = 64) (h0 : Val ≠ 0) (hlt : Val < 2 ^ N) :
    2 ^ findLastSet N Val ZeroBehavior.ZB_Max ≤ Val ∧
    Val < 2 ^ (findLastSet N Val ZeroBehavior.ZB_Max + 1) ∧
    (∀ r, 2 ^ r ≤ Val → Val < 2 ^ (r + 1) → r = findLastSet N Val ZeroBehavior.ZB_Max) ∧
    countLeadingZeros N Val ZeroBehavior.ZB_Undefined ^^^ (N - 1) =
      N - 1 - countLeadingZeros N Val ZeroBehavior.ZB_Undefined ∧
    findLastSet N Val ZeroBehavior.ZB_Max =
      N - 1 - countLeadingZeros N Val ZeroBehavior.ZB_Undefined ∧
    findLastSet N 0 ZeroBehavior.ZB_Max = 2 ^ N - 1 ∧
    Val.testBit (findFirstSet N Val ZeroBehavior.ZB_Max) = true ∧
    (∀ i, i < findFirstSet N Val ZeroBehavior.ZB_Max → Val.testBit i = false) ∧
    findFirstSet N 0 ZeroBehavior.ZB_Max = 2 ^ N - 1 := by
  obtain ⟨ha1, haN, hlo, hhi⟩ := activeBits_bounds h0 hlt
  have hsum := countl_zero_add_activeBits N Val
  have hclz : countLeadingZeros N Val ZeroBehavior.ZB_Undefined = countl_zero N Val := by
    simp [countLeadingZeros]
  have hNlt : N < 2 ^ N := Nat.lt_two_pow N
  have hxor : countl_zero N Val ^^^ (N - 1) = N - 1 - countl_zero N Val :=
    xor_mask_eq_sub hN (by omega)
  have hfl : findLastSet N Val ZeroBehavior.ZB_Max = APInt.activeBits Val N - 1 := by
    simp only [findLastSet, h0, and_false, if_false, hclz, hxor]
    rw [Nat.mod_eq_of_lt (by omega)]
    omega
  obtain ⟨hc1, hc2⟩ := countr_zero_spec N Val h0 hlt
  have hcN : countr_zero N Val < N := by
    by_contra hge
    have : Val < 2 ^ countr_zero N Val :=
      lt_of_lt_of_le hlt (Nat.pow_le_pow_right (by decide) (by omega))
    rw [Nat.testBit_lt_two_pow this] at hc1
    cases hc1
  have hff : findFirstSet N Val ZeroBehavior.ZB_Max = countr_zero N Val := by
    simp only [findFirstSet, h0, and_false, if_false, countTrailingZeros, ne_eq,
      not_true_eq_false, false_and]
    exact Nat.mod_eq_of_lt (by omega)
  refine ⟨by rw [hfl]; exact hlo, ?_, ?_, by rw [hclz]; exact hxor, ?_, by simp [findLastSet],
    by rw [hff]; exact hc1, by rw [hff]; exact hc2, by simp [findFirstSet]⟩
  · rw [hfl, Nat.sub_add_cancel ha1]
    exact hhi
  · intro r hr1 hr2
    rw [hfl]
    have h1 : 2 ^ r < 2 ^ APInt.activeBits Val N := lt_of_le_of_lt hr1 hhi
    have h2 : 2 ^ (APInt.activeBits Val N - 1) < 2 ^ (r + 1) := lt_of_le_of_lt hlo hr2
    have h3 := (Nat.pow_lt_pow_iff_right (by decide : 1 < 2)).1 h1
    have h4 := (Nat.pow_lt_pow_iff_right (by decide : 1 < 2)).1 h2
    omega
  · rw [hfl, hclz]
    omega

theorem findLastSet_findFirstSet_index_witness :
    (40 : Nat) ≠ 0 ∧ 40 < 2 ^ 8 ∧
    findLastSet 8 40 ZeroBehavior.ZB_Max = 5 ∧ findFirstSet 8 40 ZeroBehavior.ZB_Max = 3 ∧
    2 ^ findLastSet 8 40 ZeroBehavior.ZB_Max ≤ 40 ∧
    40 < 2 ^ (findLastSet 8 40 ZeroBehavior.ZB_Max + 1) ∧
    findLastSet 8 0 ZeroBehavior.ZB_Max = 255 ∧ findFirstSet 8 0 ZeroBehavior.ZB_Max = 255 :=
  ⟨by decide, by decide, by decide, by decide,
    (findLastSet_findFirstSet_index 8 40 (Or.inl rfl) (by decide) (by decide)).1,
    (findLastSet_findFirstSet_index 8 40 (Or.inl rfl) (by decide) (by decide)).2.1,
    by decide, by decide⟩

/-! ### Powers of two, sign extension, masks and bit reversal -/

/-- One smearing step `B |= B >> k`: if bit `i` of `B` collects the `k` bits of
`A` from position `i` upwards, the result collects `2 * k` of them. -/
theorem smear_step (A B k : Nat)
    (h : ∀ i, B.testBit i = true ↔ ∃ j, j < k ∧ A.testBit (i + j) = true) (i : Nat) :
    (B ||| (B >>> k)).testBit i = true ↔ ∃ j, j < 2 * k ∧ A.testBit (i + j) = true := by
  rw [Nat.testBit_or, Nat.testBit_shiftRight, Bool.or_eq_true, h, h]
  constructor
  · rintro (⟨j, hj, hb⟩ | ⟨j, hj, hb⟩)
    · exact ⟨j, by omega, hb⟩
    · exact ⟨k + j, by omega, by rw [← Nat.add_assoc, Nat.add_comm i k]; exact hb⟩
  · rintro ⟨j, hj, hb⟩
    by_cases hjk : j < k
    · exact Or.inl ⟨j, hjk, hb⟩
    · refine Or.inr ⟨j - k, by omega, ?_⟩
      have : k + i + (j - k) = i + j := by omega
      rw [this]
      exact hb

/-- The six smearing steps of `NextPowerOf2` turn a value below `2^64` into the
all-ones word of the same bit length. -/
theorem smear_eq (A : Nat) (hA : A < 2 ^ 64) :
    (let A := A ||| (A >>> 1)
     let A := A ||| (A >>> 2)
     let A := A ||| (A >>> 4)
     let A := A ||| (A >>> 8)
     let A := A ||| (A >>> 16)
     A ||| (A >>> 32)) = 2 ^ Nat.size A - 1 := by
  have h0 : ∀ i, A.testBit i = true ↔ ∃ j, j < 1 ∧ A.testBit (i + j) = true := by
    intro i
    constructor
    · intro h
      exact ⟨0, by omega, h⟩
    · rintro ⟨j, hj, hb⟩
      have : j = 0 := by omega
      subst this
      exact hb
  have h1 := smear_step A _ 1 h0
  have h2 := smear_step A _ 2 h1
  have h3 := smear_step A _ 4 h2
  have h4 := smear_step A _ 8 h3
  have h5 := smear_step A _ 16 h4
  have h6 := smear_step A _ 32 h5
  apply Nat.eq_of_testBit_eq
  intro i
  rw [Nat.testBit_two_pow_sub_one]
  have hs : Nat.size A ≤ 64 := Nat.size_le.2 hA
  by_cases hi : i < Nat.size A
  · rw [decide_eq_true hi]
    apply (h6 i).2
    obtain ⟨m, hm⟩ : ∃ m, Nat.size A = m + 1 := ⟨Nat.size A - 1, by omega⟩
    have htop : A.testBit m = true := by
      have hge : 2 ^ m ≤ A := Nat.lt_size.1 (by omega)
      have hlt : A < 2 ^ (m + 1) := hm ▸ Nat.lt_size_self A
      rw [Nat.testBit_to_div_mod]
      have hd : A / 2 ^ m = 1 := by
        apply Nat.div_eq_of_lt_le
        · omega
        · rw [Nat.pow_succ] at hlt; omega
      rw [hd]
      rfl
    refine ⟨m - i, by omega, ?_⟩
    have : i + (m - i) = m := by omega
    rw [this]
    exact htop
  · rw [decide_eq_false hi]
    cases hb : Nat.testBit _ i with
    | false => rfl
    | true =>
      exfalso
      obtain ⟨j, _, hj⟩ := (h6 i).1 hb
      have hlt : A < 2 ^ (i + j) :=
        lt_of_lt_of_le (Nat.lt_size_self A) (Nat.pow_le_pow_right (by decide) (by omega))
      rw [Nat.testBit_lt_two_pow hlt] at hj
      exact Bool.noConfusion hj

theorem NextPowerOf2_eq (A : Nat) (hA : A < 2 ^ 64) :
    NextPowerOf2 A = 2 ^ Nat.size A % 2 ^ 64 := by
  have h := smear_eq A hA
  simp only at h
  simp only [NextPowerOf2]
  rw [h, Nat.sub_add_cancel (Nat.one_le_two_pow)]

/-- C31: for a 64-bit `A` below `2^63`, `NextPowerOf2 A` is a power of two,
strictly greater than `A`, and no power of two above `A` is smaller; for
`A ≥ 2^63` the result is `0`; `NextPowerOf2 0 = 1` and
`NextPowerOf2 (2^k) = 2^(k+1)` for `k < 63`. -/
theorem NextPowerOf2_smallest_power_above (A : Nat) (hA : A < 2 ^ 64) :
    (A < 2 ^ 63 →
      (∃ k, NextPowerOf2 A = 2 ^ k) ∧ A < NextPowerOf2 A ∧
      ∀ k, A < 2 ^ k → NextPowerOf2 A ≤ 2 ^ k) ∧
    (2 ^ 63 ≤ A → NextPowerOf2 A = 0) ∧
    NextPowerOf2 0 = 1 ∧ ∀ k, k < 63 → NextPowerOf2 (2 ^ k) = 2 ^ (k + 1) := by
  have small : ∀ B, B < 2 ^ 63 → NextPowerOf2 B = 2 ^ Nat.size B := by
    intro B hB
    have hs : Nat.size B ≤ 63 := Nat.size_le.2 hB
    have hlt : 2 ^ Nat.size B < 2 ^ 64 :=
      Nat.pow_lt_pow_right (by decide) (by omega)
    rw [NextPowerOf2_eq B (by omega), Nat.mod_eq_of_lt hlt]
  refine ⟨?_, ?_, by decide, ?_⟩
  · intro h
    rw [small A h]
    refine ⟨⟨_, rfl⟩, Nat.lt_size_self A, ?_⟩
    intro k hk
    exact Nat.pow_le_pow_right (by decide) (Nat.size_le.2 hk)
  · intro h
    have h1 : Nat.size A ≤ 64 := Nat.size_le.2 hA
    have h2 : 63 < Nat.size A := Nat.lt_size.2 h
    have h3 : Nat.size A = 64 := by omega
    rw [NextPowerOf2_eq A hA, h3, Nat.mod_self]
  · intro k hk
    have hlt : 2 ^ k < 2 ^ 63 := Nat.pow_lt_pow_right (by decide) hk
    rw [small _ hlt, Nat.size_pow]

theorem NextPowerOf2_smallest_power_above_witness :
    (5 : Nat) < 2 ^ 64 ∧ NextPowerOf2 5 = 8 ∧ (5 : Nat) < NextPowerOf2 5 ∧
    ∀ k, 5 < 2 ^ k → NextPowerOf2 5 ≤ 2 ^ k :=
  ⟨by decide, by decide,
    ((NextPowerOf2_smallest_power_above 5 (by decide)).1 (by decide)).2.1,
    ((NextPowerOf2_smallest_power_above 5 (by decide)).1 (by decide)).2.2⟩

/-- The shift pair `int(X << (N - B)) >> (N - B)` on an `N`-bit word reads the low
`B` bits of `X` as a two's-complement number. -/
theorem shift_pair_eq (N X B : Nat) (hB : 0 < B) (hBN : B ≤ N) :
    asSignedBits N ((X <<< (N - B)) % 2 ^ N) >>> (N - B) =
      if X % 2 ^ B < 2 ^ (B - 1) then ((X % 2 ^ B : Nat) : Int)
      else ((X % 2 ^ B : Nat) : Int) - 2 ^ B := by
  obtain ⟨n, hn⟩ : ∃ n, N = B + n := ⟨N - B, by omega⟩
  obtain ⟨b, hb⟩ : ∃ b, B = b + 1 := ⟨B - 1, by omega⟩
  subst hn
  subst hb
  have e1 : b + 1 + n - (b + 1) = n := by omega
  have e2 : b + 1 + n - 1 = b + n := by omega
  have e3 : b + 1 - 1 = b := by omega
  rw [e1, e3]
  have hpn : 0 < 2 ^ n := Nat.two_pow_pos n
  have hmod : (X <<< n) % 2 ^ (b + 1 + n) = X % 2 ^ (b + 1) * 2 ^ n := by
    rw [Nat.shiftLeft_eq, Nat.pow_add, Nat.mul_mod_mul_right]
  have hm : X % 2 ^ (b + 1) < 2 ^ (b + 1) := Nat.mod_lt _ (Nat.two_pow_pos _)
  have hlt : X % 2 ^ (b + 1) * 2 ^ n < 2 ^ (b + 1 + n) := by
    have e : 2 ^ (b + 1 + n) = 2 ^ (b + 1) * 2 ^ n := Nat.pow_add 2 (b + 1) n
    rw [e]
    exact Nat.mul_lt_mul_of_pos_right hm hpn
  unfold asSignedBits
  rw [Nat.mod_mod, hmod, e2, Int.shiftRight_eq_div_pow]
  have hiff : X % 2 ^ (b + 1) * 2 ^ n < 2 ^ (b + n) ↔ X % 2 ^ (b + 1) < 2 ^ b := by
    have e : 2 ^ (b + n) = 2 ^ b * 2 ^ n := Nat.pow_add 2 b n
    rw [e]
    exact Nat.mul_lt_mul_right hpn
  have hpnI : ((2 ^ n : Nat) : Int) ≠ 0 := by exact_mod_cast hpn.ne'
  by_cases h : X % 2 ^ (b + 1) < 2 ^ b
  · rw [if_pos (hiff.2 h), if_pos h]
    push_cast
    exact Int.mul_ediv_cancel _ (by exact_mod_cast hpn.ne')
  · rw [if_neg (fun hh => h (hiff.1 hh)), if_neg h]
    have : (((X % 2 ^ (b + 1) * 2 ^ n : Nat) : Int) - 2 ^ (b + 1 + n)) =
        (((X % 2 ^ (b + 1) : Nat) : Int) - 2 ^ (b + 1)) * ((2 ^ n : Nat) : Int) := by
      push_cast
      ring
    rw [this]
    exact Int.mul_ediv_cancel _ hpnI

/-- The two's-complement reading of the low `B` bits of `X` lies in
`[-2^(B-1), 2^(B-1))`, is congruent to `X` modulo `2^B`, and is the only such
integer. -/
theorem low_bits_signed_unique (X B : Nat) (hB : 0 < B) (r : Int)
    (hr : r = if X % 2 ^ B < 2 ^ (B - 1) then ((X % 2 ^ B : Nat) : Int)
      else ((X % 2 ^ B : Nat) : Int) - 2 ^ B) :
    -(2 : Int) ^ (B - 1) ≤ r ∧ r < 2 ^ (B - 1) ∧ r ≡ (X : Int) [ZMOD 2 ^ B] ∧
    ∀ s : Int, -(2 : Int) ^ (B - 1) ≤ s → s < 2 ^ (B - 1) →
      s ≡ (X : Int) [ZMOD 2 ^ B] → s = r := by
  obtain ⟨b, hb⟩ : ∃ b, B = b + 1 := ⟨B - 1, by omega⟩
  subst hb
  have e3 : b + 1 - 1 = b := by omega
  rw [e3] at hr ⊢
  have hm : X % 2 ^ (b + 1) < 2 ^ (b + 1) := Nat.mod_lt _ (Nat.two_pow_pos _)
  have hP : (2 : Int) ^ (b + 1) = 2 * 2 ^ b := by ring
  have hPn : (2 : Nat) ^ (b + 1) = 2 * 2 ^ b := by ring
  have hmI : ((X % 2 ^ (b + 1) : Nat) : Int) < 2 * 2 ^ b := by
    have h : X % 2 ^ (b + 1) < 2 * 2 ^ b := by
      rw [← hPn]
      exact hm
    exact_mod_cast h
  have hm0 : (0 : Int) ≤ ((X % 2 ^ (b + 1) : Nat) : Int) := Int.ofNat_nonneg _
  have hpb : (0 : Int) < 2 ^ b := by positivity
  have hcong : r ≡ (X : Int) [ZMOD 2 ^ (b + 1)] := by
    have hx : ((X % 2 ^ (b + 1) : Nat) : Int) ≡ (X : Int) [ZMOD 2 ^ (b + 1)] := by
      unfold Int.ModEq
      push_cast
      exact Int.emod_emod_of_dvd _ (dvd_refl _)
    by_cases h : X % 2 ^ (b + 1) < 2 ^ b
    · rw [hr, if_pos h]
      exact hx
    · rw [hr, if_neg h]
      have h2 : ((X % 2 ^ (b + 1) : Nat) : Int) - 2 ^ (b + 1) ≡
          ((X % 2 ^ (b + 1) : Nat) : Int) [ZMOD 2 ^ (b + 1)] :=
        Int.modEq_iff_dvd.2 ⟨1, by ring⟩
      exact h2.trans hx
  have hlo : -(2 : Int) ^ b ≤ r := by
    by_cases h : X % 2 ^ (b + 1) < 2 ^ b
    · rw [hr, if_pos h]
      omega
    · rw [hr, if_neg h, hP]
      have : (2 : Int) ^ b ≤ ((X % 2 ^ (b + 1) : Nat) : Int) := by
        exact_mod_cast Nat.le_of_not_lt h
      omega
  have hhi : r < 2 ^ b := by
    by_cases h : X % 2 ^ (b + 1) < 2 ^ b
    · rw [hr, if_pos h]
      exact_mod_cast h
    · rw [hr, if_neg h, hP]
      omega
  refine ⟨hlo, hhi, hcong, ?_⟩
  intro s hs1 hs2 hs3
  have hd : (2 : Int) ^ (b + 1) ∣ s - r := (hcong.trans hs3.symm).dvd
  obtain ⟨k, hk⟩ := hd
  rw [hP] at hk
  have hk0 : k = 0 := by
    rcases lt_trichotomy k 0 with h | h | h
    · have : 2 * 2 ^ b * k ≤ 2 * 2 ^ b * (-1) :=
        mul_le_mul_of_nonneg_left (by omega) (by positivity)
      omega
    · exact h
    · have : 2 * 2 ^ b * 1 ≤ 2 * 2 ^ b * k :=
        mul_le_mul_of_nonneg_left (by omega) (by positivity)
      omega
  rw [hk0, mul_zero] at hk
  omega

/-- C32: for `0 < B ≤ 64` and a 64-bit `X`, `SignExtend64 X B` returns the unique
integer `r` with `-2^(B-1) ≤ r < 2^(B-1)` congruent to `X` modulo `2^B`; `B = 0`
and `B > 64` violate the contract.  The same holds for `SignExtend32` with
`0 < B ≤ 32` on a 32-bit `X`. -/
theorem SignExtend_unique_residue (X B : Nat) (_hX : X < 2 ^ 64) :
    (0 < B → B ≤ 64 → ∃ r : Int, SignExtend64 X B = some r ∧
      -(2 : Int) ^ (B - 1) ≤ r ∧ r < 2 ^ (B - 1) ∧ r ≡ (X : Int) [ZMOD 2 ^ B] ∧
      ∀ s : Int, -(2 : Int) ^ (B - 1) ≤ s → s < 2 ^ (B - 1) →
        s ≡ (X : Int) [ZMOD 2 ^ B] → s = r) ∧
    (B = 0 ∨ 64 < B → SignExtend64 X B = none) ∧
    (X < 2 ^ 32 → 0 < B → B ≤ 32 → ∃ r : Int, SignExtend32 X B = some r ∧
      -(2 : Int) ^ (B - 1) ≤ r ∧ r < 2 ^ (B - 1) ∧ r ≡ (X : Int) [ZMOD 2 ^ B] ∧
      ∀ s : Int, -(2 : Int) ^ (B - 1) ≤ s → s < 2 ^ (B - 1) →
        s ≡ (X : Int) [ZMOD 2 ^ B] → s = r) ∧
    (B = 0 ∨ 32 < B → SignExtend32 X B = none) := by
  refine ⟨?_, ?_, ?_, ?_⟩
  · intro h0 h1
    refine ⟨_, ?_, low_bits_signed_unique X B h0 _ rfl⟩
    simp only [SignExtend64, gt_iff_lt, h0, h1, not_true_eq_false, if_false]
    rw [shift_pair_eq 64 X B h0 h1]
  · rintro (h | h)
    · simp [SignExtend64, h]
    · have h1 : ¬ B ≤ 64 := by omega
      have h0 : B > 0 := by omega
      simp only [SignExtend64, h0, h1, not_true_eq_false, not_false_eq_true, if_false, if_true]
  · intro _ h0 h1
    refine ⟨_, ?_, low_bits_signed_unique X B h0 _ rfl⟩
    simp only [SignExtend32, gt_iff_lt, h0, h1, not_true_eq_false, if_false]
    rw [shift_pair_eq 32 X B h0 h1]
  · rintro (h | h)
    · simp [SignExtend32, h]
    · have h1 : ¬ B ≤ 32 := by omega
      have h0 : B > 0 := by omega
      simp only [SignExtend32, h0, h1, not_true_eq_false, not_false_eq_true, if_false, if_true]

theorem SignExtend_unique_residue_witness :
    (0xF5 : Nat) < 2 ^ 64 ∧ SignExtend64 0xF5 4 = some 5 ∧ SignExtend64 0xFD 4 = some (-3) ∧
    SignExtend32 0xFD 4 = some (-3) ∧ SignExtend64 0xF5 0 = none ∧
    (∃ r : Int, SignExtend64 0xF5 4 = some r ∧
      -(2 : Int) ^ (4 - 1) ≤ r ∧ r < 2 ^ (4 - 1) ∧ r ≡ ((0xF5 : Nat) : Int) [ZMOD 2 ^ 4] ∧
      ∀ s : Int, -(2 : Int) ^ (4 - 1) ≤ s → s < 2 ^ (4 - 1) →
        s ≡ ((0xF5 : Nat) : Int) [ZMOD 2 ^ 4] → s = r) :=
  ⟨by decide, by decide, by decide, by decide, by decide,
    (SignExtend_unique_residue 0xF5 4 (by decide)).1 (by decide) (by decide)⟩

theorem and_double (a b : Nat) : (2 * a) &&& (2 * b + 1) = 2 * (a &&& b) := by
  apply Nat.eq_of_testBit_eq
  intro i
  cases i with
  | zero => simp [Nat.testBit_zero]
  | succ i =>
    have h1 : 2 * a / 2 = a := by omega
    have h2 : (2 * b + 1) / 2 = b := by omega
    have h3 : 2 * (a &&& b) / 2 = a &&& b := by omega
    rw [Nat.testBit_and, Nat.testBit_succ, Nat.testBit_succ, Nat.testBit_succ, h1, h2, h3,
      Nat.testBit_and]

theorem and_succ_even (m : Nat) (hm : 0 < m) : (2 * m + 1) &&& (2 * m) ≠ 0 := by
  intro h
  obtain ⟨i, hi⟩ : ∃ i, m.testBit i = true := by
    by_contra hc
    push_neg at hc
    have : m = 0 := Nat.eq_of_testBit_eq (fun i => by simpa using hc i)
    omega
  have hb : ((2 * m + 1) &&& (2 * m)).testBit (i + 1) = true := by
    rw [Nat.testBit_and, Nat.testBit_succ, Nat.testBit_succ]
    have h1 : (2 * m + 1) / 2 = m := by omega
    have h2 : 2 * m / 2 = m := by omega
    rw [h1, h2, hi]
    rfl
  rw [h] at hb
  simp at hb

/-- The test `(V + 1) & V == 0` without wrap-around holds exactly for the numbers
`2^k - 1`. -/
theorem succ_and_self_eq_zero_iff (V : Nat) :
    (V + 1) &&& V = 0 ↔ ∃ k, V = 2 ^ k - 1 := by
  induction V using Nat.strong_induction_on with
  | _ V ih =>
    rcases Nat.even_or_odd' V with ⟨m, rfl | rfl⟩
    · by_cases hm : m = 0
      · subst hm
        exact ⟨fun _ => ⟨0, rfl⟩, fun _ => by decide⟩
      · constructor
        · intro h
          exact absurd h (and_succ_even m (by omega))
        · rintro ⟨k, hk⟩
          exfalso
          cases k with
          | zero => simp at hk; omega
          | succ k =>
            have : 2 ^ (k + 1) = 2 * 2 ^ k := by ring
            have hp : 0 < 2 ^ k := Nat.two_pow_pos k
            omega
    · have e : 2 * m + 1 + 1 = 2 * (m + 1) := by ring
      rw [e, and_double]
      have ihm := ih m (by omega)
      constructor
      · intro h
        have h0 : (m + 1) &&& m = 0 := by omega
        obtain ⟨k, hk⟩ := ihm.1 h0
        refine ⟨k + 1, ?_⟩
        have : 2 ^ (k + 1) = 2 * 2 ^ k := by ring
        have hp : 0 < 2 ^ k := Nat.two_pow_pos k
        omega
      · rintro ⟨k, hk⟩
        cases k with
        | zero => simp at hk
        | succ k =>
          have : 2 ^ (k + 1) = 2 * 2 ^ k := by ring
          have hp : 0 < 2 ^ k := Nat.two_pow_pos k
          have hm : m = 2 ^ k - 1 := by omega
          rw [ihm.2 ⟨k, hm⟩]

theorem isMask_64_iff (V : Nat) (hV : V < 2 ^ 64) :
    isMask_64 V = true ↔ ∃ k, 1 ≤ k ∧ k ≤ 64 ∧ V = 2 ^ k - 1 := by
  by_cases htop : V = 2 ^ 64 - 1
  · subst htop
    exact ⟨fun _ => ⟨64, by decide, by decide, rfl⟩, fun _ => by decide⟩
  · have hmod : (V + 1) % 2 ^ 64 = V + 1 := Nat.mod_eq_of_lt (by omega)
    simp only [isMask_64, hmod, Bool.and_eq_true, bne_iff_ne, ne_eq, beq_iff_eq]
    rw [succ_and_self_eq_zero_iff]
    constructor
    · rintro ⟨h0, k, hk⟩
      have hk1 : 1 ≤ k := by
        rcases Nat.eq_zero_or_pos k with h | h
        · subst h
          simp at hk
          exact absurd hk h0
        · exact h
      refine ⟨k, hk1, ?_, hk⟩
      by_contra hc
      have : 2 ^ 65 ≤ 2 ^ k := Nat.pow_le_pow_right (by decide) (by omega)
      omega
    · rintro ⟨k, hk1, _, hk⟩
      refine ⟨?_, k, hk⟩
      have : 2 ^ 1 ≤ 2 ^ k := Nat.pow_le_pow_right (by decide) hk1
      omega

theorem or_double_left (a b : Nat) : (2 * a + 1) ||| (2 * b) = 2 * (a ||| b) + 1 := by
  apply Nat.eq_of_testBit_eq
  intro i
  cases i with
  | zero => simp [Nat.testBit_zero, Nat.add_mod]
  | succ i =>
    have h1 : (2 * a + 1) / 2 = a := by omega
    have h2 : 2 * b / 2 = b := by omega
    have h3 : (2 * (a ||| b) + 1) / 2 = a ||| b := by omega
    rw [Nat.testBit_or, Nat.testBit_succ, Nat.testBit_succ, Nat.testBit_succ, h1, h2, h3,
      Nat.testBit_or]

theorem or_double_right (a : Nat) : (2 * a) ||| (2 * a + 1) = 2 * a + 1 := by
  apply Nat.eq_of_testBit_eq
  intro i
  cases i with
  | zero => simp [Nat.testBit_zero, Nat.add_mod]
  | succ i =>
    have h1 : (2 * a + 1) / 2 = a := by omega
    have h2 : 2 * a / 2 = a := by omega
    rw [Nat.testBit_or, Nat.testBit_succ, Nat.testBit_succ, h1, h2, Bool.or_self]

theorem or_ne_zero_right (a b : Nat) (hb : b ≠ 0) : a ||| b ≠ 0 := by
  intro h
  apply hb
  apply Nat.eq_of_testBit_eq
  intro i
  have := congrArg (fun x => Nat.testBit x i) h
  simp only [Nat.testBit_or, Nat.zero_testBit, Bool.or_eq_false_iff] at this
  rw [this.2, Nat.zero_testBit]

theorem mask_exponent_le {F : Nat} (hF : F < 2 ^ 64) :
    (∃ j, 1 ≤ j ∧ F = 2 ^ j - 1) ↔ ∃ k, 1 ≤ k ∧ k ≤ 64 ∧ F = 2 ^ k - 1 := by
  constructor
  · rintro ⟨j, hj, h⟩
    refine ⟨j, hj, ?_, h⟩
    by_contra hc
    have : 2 ^ 65 ≤ 2 ^ j := Nat.pow_le_pow_right (by decide) (by omega)
    omega
  · rintro ⟨k, hk, _, h⟩
    exact ⟨k, hk, h⟩

/-- The test of `isShiftedMask_64` without wrap-around: `(V - 1) | V` has the form
`2^j - 1` exactly when `V` is a run of ones shifted left. -/
theorem pred_or_self_mask_iff (V : Nat) (hV : 0 < V) :
    (∃ j, 1 ≤ j ∧ (V - 1) ||| V = 2 ^ j - 1) ↔
      ∃ k s, 1 ≤ k ∧ V = (2 ^ k - 1) * 2 ^ s := by
  induction V using Nat.strong_induction_on with
  | _ V ih =>
    rcases Nat.even_or_odd' V with ⟨m, rfl | rfl⟩
    · have hm : 0 < m := by omega
      have e : 2 * m - 1 = 2 * (m - 1) + 1 := by omega
      rw [e, or_double_left]
      have ihm := ih m (by omega) hm
      constructor
      · rintro ⟨j, hj1, hj⟩
        obtain ⟨j, rfl⟩ : ∃ i, j = i + 1 := ⟨j - 1, by omega⟩
        have hp : 2 ^ (j + 1) = 2 * 2 ^ j := by ring
        have hpj : 0 < 2 ^ j := Nat.two_pow_pos j
        have hF : (m - 1) ||| m = 2 ^ j - 1 := by omega
        have hj0 : 1 ≤ j := by
          rcases Nat.eq_zero_or_pos j with h | h
          · subst h
            exact absurd hF (or_ne_zero_right _ _ (by omega))
          · exact h
        obtain ⟨k, s, hk, hks⟩ := ihm.1 ⟨j, hj0, hF⟩
        refine ⟨k, s + 1, hk, ?_⟩
        rw [hks]
        ring
      · rintro ⟨k, s, hk, hks⟩
        have hodd : (2 ^ k - 1) % 2 = 1 := by
          obtain ⟨k, rfl⟩ : ∃ i, k = i + 1 := ⟨k - 1, by omega⟩
          have hp : 2 ^ (k + 1) = 2 * 2 ^ k := by ring
          have hpk : 0 < 2 ^ k := Nat.two_pow_pos k
          omega
        cases s with
        | zero =>
          exfalso
          rw [pow_zero, mul_one] at hks
          omega
        | succ s =>
          have hm2 : m = (2 ^ k - 1) * 2 ^ s := by
            have : (2 ^ k - 1) * 2 ^ (s + 1) = 2 * ((2 ^ k - 1) * 2 ^ s) := by ring
            omega
          obtain ⟨j, hj1, hj⟩ := ihm.2 ⟨k, s, hk, hm2⟩
          refine ⟨j + 1, by omega, ?_⟩
          have hp : 2 ^ (j + 1) = 2 * 2 ^ j := by ring
          have hpj : 0 < 2 ^ j := Nat.two_pow_pos j
          omega
    · have e : 2 * m + 1 - 1 = 2 * m := by omega
      rw [e, or_double_right]
      constructor
      · rintro ⟨j, hj1, hj⟩
        exact ⟨j, 0, hj1, by rw [pow_zero, mul_one]; exact hj⟩
      · rintro ⟨k, s, hk, hks⟩
        cases s with
        | zero => exact ⟨k, hk, by rw [pow_zero, mul_one] at hks; exact hks⟩
        | succ s =>
          exfalso
          have : (2 ^ k - 1) * 2 ^ (s + 1) = 2 * ((2 ^ k - 1) * 2 ^ s) := by ring
          omega

/-- C33: on a 64-bit `Value`, `isMask_64` holds exactly for `2^k - 1` with
`1 ≤ k ≤ 64` (the all-ones word included), `isShiftedMask_64` holds exactly for
`(2^k - 1) * 2^s` with `k ≥ 1` and `k + s ≤ 64`, and both are false for `0`. -/
theorem isMask_isShiftedMask_characterisation (Value : Nat) (hV : Value < 2 ^ 64) :
    (isMask_64 Value = true ↔ ∃ k, 1 ≤ k ∧ k ≤ 64 ∧ Value = 2 ^ k - 1) ∧
    (isShiftedMask_64 Value = true ↔
      ∃ k s, 1 ≤ k ∧ k + s ≤ 64 ∧ Value = (2 ^ k - 1) * 2 ^ s) ∧
    isMask_64 0 = false ∧ isShiftedMask_64 0 = false ∧ isMask_64 (2 ^ 64 - 1) = true := by
  refine ⟨isMask_64_iff Value hV, ?_, by decide, by decide, by decide⟩
  have hform : ∀ k s, 1 ≤ k → 2 ^ (k - 1 + s) ≤ (2 ^ k - 1) * 2 ^ s := by
    intro k s hk
    obtain ⟨k, rfl⟩ : ∃ i, k = i + 1 := ⟨k - 1, by omega⟩
    have hp : 2 ^ (k + 1) = 2 * 2 ^ k := by ring
    have hpk : 0 < 2 ^ k := Nat.two_pow_pos k
    have e : k + 1 - 1 = k := by omega
    rw [e, Nat.pow_add]
    exact Nat.mul_le_mul_right _ (by omega)
  rcases Nat.eq_zero_or_pos Value with h0 | hpos
  · subst h0
    constructor
    · intro h
      exact absurd h (by decide)
    · rintro ⟨k, s, hk, _, hks⟩
      have := hform k s hk
      have hp : 0 < 2 ^ (k - 1 + s) := Nat.two_pow_pos _
      omega
  · have hsub : (Value + 2 ^ 64 - 1) % 2 ^ 64 = Value - 1 := by omega
    have hF : (Value - 1) ||| Value < 2 ^ 64 := Nat.or_lt_two_pow (by omega) hV
    have hne : (Value != 0) = true := by
      rw [bne_iff_ne]
      omega
    simp only [isShiftedMask_64, hsub, hne, Bool.true_and]
    rw [isMask_64_iff _ hF, ← mask_exponent_le hF, pred_or_self_mask_iff Value hpos]
    constructor
    · rintro ⟨k, s, hk, hks⟩
      refine ⟨k, s, hk, ?_, hks⟩
      by_contra hc
      have h1 : 2 ^ 64 ≤ 2 ^ (k - 1 + s) := Nat.pow_le_pow_right (by decide) (by omega)
      have h2 := hform k s hk
      omega
    · rintro ⟨k, s, hk, _, hks⟩
      exact ⟨k, s, hk, hks⟩

theorem isMask_isShiftedMask_characterisation_witness :
    (0x0FF0 : Nat) < 2 ^ 64 ∧ isShiftedMask_64 0x0FF0 = true ∧ isMask_64 0x0FF0 = false ∧
    (isShiftedMask_64 0x0FF0 = true ↔
      ∃ k s, 1 ≤ k ∧ k + s ≤ 64 ∧ 0x0FF0 = (2 ^ k - 1) * 2 ^ s) :=
  ⟨by decide, by decide, by decide,
    (isMask_isShiftedMask_characterisation 0x0FF0 (by decide)).2.1⟩

set_option maxRecDepth 100000 in
theorem BitReverseTable256_spec :
    ∀ b, b < 256 → BitReverseTable256.getD b 0 < 256 ∧
      ∀ i, i < 8 → (BitReverseTable256.getD b 0).testBit i = b.testBit (7 - i) := by
  decide

theorem toBytes_getD (S Val k : Nat) (hk : k < S) :
    (toBytes S Val).getD k 0 = Val / 256 ^ k % 256 := by
  simp [toBytes, List.getD_eq_getElem?_getD, List.getElem?_map, List.getElem?_range hk]

theorem byte_testBit (Val k j : Nat) (hj : j < 8) :
    (Val / 256 ^ k % 256).testBit j = Val.testBit (8 * k + j) := by
  have e1 : (256 : Nat) = 2 ^ 8 := by norm_num
  have e2 : (256 : Nat) ^ k = 2 ^ (8 * k) := by rw [e1, ← pow_mul]
  have e3 : Val / 2 ^ (8 * k) % 256 = Val / 2 ^ (8 * k) % 2 ^ 8 := rfl
  rw [e2, e3, Nat.testBit_mod_two_pow, ← Nat.shiftRight_eq_div_pow, Nat.testBit_shiftRight]
  simp [hj]

theorem fromBytes_lt (l : List Nat) (hl : ∀ b ∈ l, b < 256) :
    fromBytes l < 256 ^ l.length := by
  induction l with
  | nil => simp [fromBytes]
  | cons b bs ih =>
    have hb : b < 256 := hl b (List.mem_cons_self _ _)
    have hbs := ih (fun c hc => hl c (List.mem_cons_of_mem _ hc))
    simp only [fromBytes, List.length_cons, pow_succ]
    omega

theorem fromBytes_testBit (l : List Nat) (hl : ∀ b ∈ l, b < 256) (i : Nat) :
    (fromBytes l).testBit i = (l.getD (i / 8) 0).testBit (i % 8) := by
  induction l generalizing i with
  | nil => simp [fromBytes]
  | cons b bs ih =>
    have hb : b < 2 ^ 8 := hl b (List.mem_cons_self _ _)
    have hbs := ih (fun c hc => hl c (List.mem_cons_of_mem _ hc))
    have e : b + 256 * fromBytes bs = 2 ^ 8 * fromBytes bs + b := by
      rw [Nat.add_comm]
      rfl
    simp only [fromBytes]
    rw [e, Nat.testBit_mul_pow_two_add _ hb]
    by_cases hi : i < 8
    · rw [if_pos hi]
      have h0 : i / 8 = 0 := by omega
      have h1 : i % 8 = i := by omega
      rw [h0, h1]
      rfl
    · rw [if_neg hi, hbs]
      obtain ⟨q, hq⟩ : ∃ q, i / 8 = q + 1 := ⟨i / 8 - 1, by omega⟩
      have h0 : (i - 8) / 8 = q := by omega
      have h1 : (i - 8) % 8 = i % 8 := by omega
      rw [h0, h1, hq]
      rfl

/-- The state of `out` after the first `n` rounds of the loop of `reverseBits`. -/
theorem reverse_loop (S : Nat) (g : Nat → Nat) (n : Nat) (hn : n ≤ S) :
    ((List.range n).foldl (fun out i => out.set ((S - i) - 1) (g i))
        (List.replicate S 0)).length = S ∧
    ∀ j, j < S →
      ((List.range n).foldl (fun out i => out.set ((S - i) - 1) (g i))
        (List.replicate S 0)).getD j 0 = if S - 1 - j < n then g (S - 1 - j) else 0 := by
  induction n with
  | zero =>
    refine ⟨by simp, ?_⟩
    intro j hj
    simp [List.getD_eq_getElem?_getD, List.getElem?_replicate, hj]
  | succ n ih =>
    obtain ⟨hlen, hget⟩ := ih (by omega)
    rw [List.range_succ, List.foldl_append]
    simp only [List.foldl_cons, List.foldl_nil]
    refine ⟨by rw [List.length_set]; exact hlen, ?_⟩
    intro j hj
    rw [List.getD_eq_getElem?_getD, List.getElem?_set]
    by_cases hjn : S - n - 1 = j
    · rw [if_pos hjn, if_pos (by omega), if_pos (by omega)]
      have : S - 1 - j = n := by omega
      rw [this]
      rfl
    · rw [if_neg hjn, ← List.getD_eq_getElem?_getD, hget j hj]
      by_cases h1 : S - 1 - j < n
      · rw [if_pos h1, if_pos (by omega)]
      · rw [if_neg h1, if_neg (by omega)]

theorem reverseBits_out (S Val : Nat) :
    ∃ out : List Nat, reverseBits S Val = fromBytes out ∧ out.length = S ∧
      (∀ b ∈ out, b < 256) ∧
      ∀ j, j < S → out.getD j 0 =
        BitReverseTable256.getD (Val / 256 ^ (S - 1 - j) % 256) 0 := by
  obtain ⟨hlen, hget⟩ := reverse_loop S
    (fun i => BitReverseTable256.getD ((toBytes S Val).getD i 0) 0) S (le_refl S)
  have hget2 : ∀ j, j < S →
      ((List.range S).foldl (fun out i => out.set ((S - i) - 1)
        (BitReverseTable256.getD ((toBytes S Val).getD i 0) 0)) (List.replicate S 0)).getD j 0 =
      BitReverseTable256.getD (Val / 256 ^ (S - 1 - j) % 256) 0 := by
    intro j hj
    rw [hget j hj, if_pos (by omega)]
    show BitReverseTable256.getD ((toBytes S Val).getD (S - 1 - j) 0) 0 = _
    rw [toBytes_getD S Val _ (by omega)]
  refine ⟨_, rfl, hlen, ?_, hget2⟩
  intro b hb
  obtain ⟨j, hj, rfl⟩ := List.getElem_of_mem hb
  have hjS : j < S := by rw [← hlen]; exact hj
  have h := hget2 j hjS
  rw [List.getD_eq_getElem?_getD, List.getElem?_eq_getElem hj] at h
  simp only [Option.getD_some] at h
  rw [h]
  exact (BitReverseTable256_spec _ (Nat.mod_lt _ (by decide))).1

theorem reverseBits_lt (S Val : Nat) : reverseBits S Val < 2 ^ (8 * S) := by
  obtain ⟨out, hr, hlen, hlt, _⟩ := reverseBits_out S Val
  have h := fromBytes_lt out hlt
  have e1 : (256 : Nat) = 2 ^ 8 := by norm_num
  rw [hlen, e1, ← pow_mul] at h
  rw [hr]
  exact h

theorem reverseBits_testBit (S Val i : Nat) (hi : i < 8 * S) :
    (reverseBits S Val).testBit i = Val.testBit (8 * S - 1 - i) := by
  obtain ⟨out, hr, hlen, hlt, hget⟩ := reverseBits_out S Val
  rw [hr, fromBytes_testBit out hlt, hget (i / 8) (by omega),
    (BitReverseTable256_spec _ (Nat.mod_lt _ (by decide))).2 (i % 8) (Nat.mod_lt _ (by decide)),
    byte_testBit _ _ _ (by omega)]
  congr 1
  omega

/-- C34: every entry `BitReverseTable256[b]` is the 8-bit mirror image of `b`; on an
unsigned type of `S` bytes (`N = 8 * S` bits) the table-driven `reverseBits` returns
the value whose bit `i` is bit `N - 1 - i` of `Val`, and applying it twice gives
`Val` back. -/
theorem reverseBits_mirrors_bits (S Val : Nat) (hV : Val < 2 ^ (8 * S)) :
    (∀ b, b < 256 → BitReverseTable256.getD b 0 < 256 ∧
      ∀ i, i < 8 → (BitReverseTable256.getD b 0).testBit i = b.testBit (7 - i)) ∧
    reverseBits S Val < 2 ^ (8 * S) ∧
    (∀ i, i < 8 * S → (reverseBits S Val).testBit i = Val.testBit (8 * S - 1 - i)) ∧
    reverseBits S (reverseBits S Val) = Val := by
  refine ⟨BitReverseTable256_spec, reverseBits_lt S Val, reverseBits_testBit S Val, ?_⟩
  apply Nat.eq_of_testBit_eq
  intro i
  by_cases hi : i < 8 * S
  · rw [reverseBits_testBit _ _ _ hi, reverseBits_testBit _ _ _ (by omega)]
    congr 1
    omega
  · have h1 : reverseBits S (reverseBits S Val) < 2 ^ i :=
      lt_of_lt_of_le (reverseBits_lt S _) (Nat.pow_le_pow_right (by decide) (by omega))
    have h2 : Val < 2 ^ i :=
      lt_of_lt_of_le hV (Nat.pow_le_pow_right (by decide) (by omega))
    rw [Nat.testBit_lt_two_pow h1, Nat.testBit_lt_two_pow h2]

theorem reverseBits_mirrors_bits_witness :
    (0x1234 : Nat) < 2 ^ (8 * 2) ∧ reverseBits 2 0x1234 = 0x2C48 ∧
    reverseBits 4 1 = 0x80000000 ∧ BitReverseTable256.getD 1 0 = 128 ∧
    reverseBits 2 (reverseBits 2 0x1234) = 0x1234 :=
  ⟨by decide, by decide, by decide, by decide,
    (reverseBits_mirrors_bits 2 0x1234 (by decide)).2.2.2⟩

/-! ### Denormal mode strings and the unreachable diagnostic -/

theorem find_first_of_none (s : List Char) (c : Char) (h : c ∉ s) :
    find_first_of s c = none := by
  induction s with
  | nil => rfl
  | cons x xs ih =>
    have hx : x ≠ c := fun e => h (e ▸ List.mem_cons_self _ _)
    have hxs : c ∉ xs := fun e => h (List.mem_cons_of_mem _ e)
    simp [find_first_of, hx, ih hxs]

/-- C35: for a valid `DenormalMode` `m`, parsing `m.str()` gives `m` back; parsing
the name of a valid kind gives the kind back; a string without a comma sets
`Output` and `Input` to the one parsed component; the empty string parses as
`IEEE` for both. -/
theorem parseDenormalFPAttribute_round_trip (m : DenormalMode) (hm : m.isValid = true) :
    parseDenormalFPAttribute m.str = m ∧
    (parseDenormalFPAttribute m.str).opEq m = true ∧
    (∀ k, k ≠ DenormalMode.DenormalModeKind.Invalid →
      parseDenormalFPAttributeComponent (denormalModeKindName k) = k) ∧
    (∀ s, ',' ∉ s → parseDenormalFPAttribute s =
      ⟨parseDenormalFPAttributeComponent s, parseDenormalFPAttributeComponent s⟩) ∧
    parseDenormalFPAttribute "".toList =
      ⟨DenormalMode.DenormalModeKind.IEEE, DenormalMode.DenormalModeKind.IEEE⟩ := by
  have hrt : parseDenormalFPAttribute m.str = m := by
    obtain ⟨o, i⟩ := m
    cases o <;> cases i <;> first | decide | exact absurd hm (by decide)
  refine ⟨hrt, ?_, ?_, ?_, by decide⟩
  · rw [hrt]
    simp [DenormalMode.opEq]
  · intro k hk
    cases k <;> first | decide | exact absurd rfl hk
  · intro s hs
    simp only [parseDenormalFPAttribute, find_first_of_none s _ hs, List.isEmpty_nil, if_true]

theorem parseDenormalFPAttribute_round_trip_witness :
    (DenormalMode.mk DenormalMode.DenormalModeKind.PreserveSign
      DenormalMode.DenormalModeKind.PositiveZero).isValid = true ∧
    (DenormalMode.mk DenormalMode.DenormalModeKind.PreserveSign
      DenormalMode.DenormalModeKind.PositiveZero).str = "preserve-sign,positive-zero".toList ∧
    parseDenormalFPAttribute (DenormalMode.mk DenormalMode.DenormalModeKind.PreserveSign
      DenormalMode.DenormalModeKind.PositiveZero).str =
      DenormalMode.mk DenormalMode.DenormalModeKind.PreserveSign
        DenormalMode.DenormalModeKind.PositiveZero :=
  ⟨by decide, by decide,
    (parseDenormalFPAttribute_round_trip (DenormalMode.mk DenormalMode.DenormalModeKind.PreserveSign
      DenormalMode.DenormalModeKind.PositiveZero) (by decide)).1⟩

/-- C36: the text built by `bijou_unreachable_internal("boom", "a.cpp", 42)` ends in
`a.cpp:*!` and not in `a.cpp:42!`: the line number is appended as the one
character with that code, never as its decimal representation.  The message
line and the omission of the location for a null file are as described. -/
theorem bijou_unreachable_internal_line_as_char :
    bijou_unreachable_internal (some "boom".toList) (some "a.cpp".toList) 42 =
      "boom\nUNREACHABLE executed at a.cpp:*!\n".toList ∧
    bijou_unreachable_internal (some "boom".toList) (some "a.cpp".toList) 42 ≠
      "boom\nUNREACHABLE executed at a.cpp:42!\n".toList ∧
    (∀ msg file line, bijou_unreachable_internal (some msg) (some file) line =
      msg ++ "\n".toList ++ "UNREACHABLE executed at ".toList ++ file ++ ":".toList ++
        [Char.ofNat (line % 256)] ++ "!\n".toList) ∧
    (∀ msg file line ds, (∀ c ∈ ds, isDecimalDigit c) → decimalValue ds = line →
      bijou_unreachable_internal (some msg) (some file) line ≠
        msg ++ "\n".toList ++ "UNREACHABLE executed at ".toList ++ file ++ ":".toList ++
          ds ++ "!\n".toList) ∧
    (∀ msg line, bijou_unreachable_internal (some msg) none line =
      msg ++ "\n".toList ++ "UNREACHABLE executed!\n".toList) ∧
    (∀ file line, bijou_unreachable_internal none (some file) line =
      "UNREACHABLE executed at ".toList ++ file ++ ":".toList ++
        [Char.ofNat (line % 256)] ++ "!\n".toList) := by
  have hform : ∀ msg file line, bijou_unreachable_internal (some msg) (some file) line =
      msg ++ "\n".toList ++ "UNREACHABLE executed at ".toList ++ file ++ ":".toList ++
        [Char.ofNat (line % 256)] ++ "!\n".toList := by
    intro msg file line
    simp [bijou_unreachable_internal]
  refine ⟨by decide, by decide, hform, ?_, ?_, ?_⟩
  · intro msg file line ds hds hval h
    rw [hform] at h
    have h1 := List.append_cancel_right h
    have h2 := List.append_cancel_left h1
    subst h2
    obtain ⟨hlo, hhi⟩ := hds _ (List.mem_singleton_self _)
    have hv : decimalValue [Char.ofNat (line % 256)] =
        (Char.ofNat (line % 256)).toNat - 48 := by
      simp [decimalValue]
    have hle : line ≤ 9 := by
      rw [hv] at hval
      omega
    clear hv hval h h1 hhi hds
    interval_cases line <;> exact absurd hlo (by decide)
  · intro msg line
    simp [bijou_unreachable_internal]
  · intro file line
    simp [bijou_unreachable_internal]

/-! ### Comparison symmetry, the signedness tag and the increment operators -/

namespace APSInt

theorem extend_width {a e : APSInt} {w : Nat} (h : a.extend w = some e) : e.BitWidth = w := by
  cases hu : a.IsUnsigned <;>
    simp only [extend, APInt.zext, APInt.sext, hu, Bool.false_eq_true, if_false, if_true] at h
  · split at h
    · simp only [Option.map_some', Option.some.injEq] at h
      subst h
      rfl
    · simp at h
  · split at h
    · simp only [Option.map_some', Option.some.injEq] at h
      subst h
      rfl
    · simp at h

theorem compareValuesCalls_equal_width {a b : APSInt} (hw : a.BitWidth = b.BitWidth) :
    compareValuesCalls a b = 0 := by
  rw [compareValuesCalls]
  have h1 : ¬ a.BitWidth > b.BitWidth := by omega
  have h2 : ¬ b.BitWidth > a.BitWidth := by omega
  rw [dif_neg h1, dif_neg h2]
  simp

theorem compareValuesCalls_le_one (a b : APSInt) : compareValuesCalls a b ≤ 1 := by
  rw [compareValuesCalls]
  split
  · omega
  · split
    · split
      · omega
      · rename_i e he
        rw [compareValuesCalls_equal_width (extend_width he).symm]
    · split
      · split
        · omega
        · rename_i e he
          rw [compareValuesCalls_equal_width (extend_width he)]
      · omega

theorem cmp3_antisymm (x y : Int) : APInt.cmp3 x y = -APInt.cmp3 y x := by
  unfold APInt.cmp3
  split_ifs <;> omega

/-- C37: on well-formed operands of any widths and signedness, `compareValues a b`
and `compareValues b a` both return, with opposite signs, and
`compareValues a a` returns `0`; the evaluation makes at most one recursive
call, as the extension of the narrower operand has the width of the other. -/
theorem compareValues_antisymmetric_reflexive (a b : APSInt) (ha : a.WF) (hb : b.WF) :
    (∃ r s : Int, compareValues a b = some r ∧ compareValues b a = some s ∧
      Int.sign r = -Int.sign s) ∧
    compareValues a a = some 0 ∧
    compareValuesCalls a b ≤ 1 ∧
    (∀ e, a.extend b.BitWidth = some e → e.BitWidth = b.BitWidth ∧ compareValuesCalls e b = 0) ∧
    (∀ e, b.extend a.BitWidth = some e → e.BitWidth = a.BitWidth ∧ compareValuesCalls a e = 0) := by
  refine ⟨⟨_, _, compareValues_eq ha hb, compareValues_eq hb ha, ?_⟩, ?_,
    compareValuesCalls_le_one a b, ?_, ?_⟩
  · rw [cmp3_antisymm a.value b.value, Int.sign_neg]
  · rw [compareValues_eq ha ha]
    simp [APInt.cmp3]
  · intro e he
    exact ⟨extend_width he, compareValuesCalls_equal_width (extend_width he)⟩
  · intro e he
    exact ⟨extend_width he, compareValuesCalls_equal_width (extend_width he).symm⟩

theorem compareValues_antisymmetric_reflexive_witness :
    (APSInt.mk ⟨8, 255⟩ false).WF ∧ (APSInt.mk ⟨16, 5⟩ true).WF ∧
    (∃ r s : Int, compareValues (APSInt.mk ⟨8, 255⟩ false) (APSInt.mk ⟨16, 5⟩ true) = some r ∧
      compareValues (APSInt.mk ⟨16, 5⟩ true) (APSInt.mk ⟨8, 255⟩ false) = some s ∧
      Int.sign r = -Int.sign s) ∧
    compareValuesCalls (APSInt.mk ⟨8, 255⟩ false) (APSInt.mk ⟨16, 5⟩ true) ≤ 1 :=
  ⟨by decide, by decide,
    (compareValues_antisymmetric_reflexive (APSInt.mk ⟨8, 255⟩ false) (APSInt.mk ⟨16, 5⟩ true)
      (by decide) (by decide)).1,
    (compareValues_antisymmetric_reflexive (APSInt.mk ⟨8, 255⟩ false) (APSInt.mk ⟨16, 5⟩ true)
      (by decide) (by decide)).2.2.1⟩

theorem keepsSignedness_map_mk (a : APSInt) (o : Option APInt) :
    a.keepsSignedness (o.map (fun v => APSInt.mk v a.IsUnsigned)) := by
  intro x hx
  obtain ⟨v, -, rfl⟩ := Option.map_eq_some'.1 hx
  rfl

theorem keepsSignedness_map_with (a : APSInt) (o : Option APInt) :
    a.keepsSignedness (o.map (fun v => { a with toAPInt := v })) := by
  intro x hx
  obtain ⟨v, -, rfl⟩ := Option.map_eq_some'.1 hx
  rfl

theorem keepsSignedness_map_assign (a : APSInt) (o : Option APInt) :
    a.keepsSignedness (o.map a.assign) := by
  intro x hx
  obtain ⟨v, -, rfl⟩ := Option.map_eq_some'.1 hx
  rfl

theorem keepsSignedness_none (a : APSInt) : a.keepsSignedness none := by
  intro x hx
  cases hx

theorem keepsSignedness_div_like (a : APSInt) (o1 o2 : Option APInt) (c : Prop) [Decidable c] :
    a.keepsSignedness (if c then none
      else if a.IsUnsigned then o1.map (fun v => APSInt.mk v true)
      else o2.map (fun v => APSInt.mk v false)) := by
  intro x hx
  split_ifs at hx with h1 h2
  · obtain ⟨v, -, rfl⟩ := Option.map_eq_some'.1 hx
    simp [isUnsigned, h2]
  · obtain ⟨v, -, rfl⟩ := Option.map_eq_some'.1 hx
    simp [isUnsigned, h2]

theorem keepsSignedness_guard_mk (a : APSInt) (o : Option APInt) (c : Prop) [Decidable c] :
    a.keepsSignedness (if c then none else o.map (fun v => APSInt.mk v a.IsUnsigned)) := by
  split_ifs
  · exact keepsSignedness_none a
  · exact keepsSignedness_map_mk a o

theorem keepsSignedness_guard_with (a : APSInt) (o : Option APInt) (c : Prop) [Decidable c] :
    a.keepsSignedness (if c then none else o.map (fun v => { a with toAPInt := v })) := by
  split_ifs
  · exact keepsSignedness_none a
  · exact keepsSignedness_map_with a o

theorem keepsSignedness_guard_assign (a : APSInt) (o1 o2 : Option APInt) (c : Prop)
    [Decidable c] :
    a.keepsSignedness (if c then none
      else if a.IsUnsigned then o1.map a.assign else o2.map a.assign) := by
  split_ifs
  · exact keepsSignedness_none a
  · exact keepsSignedness_map_assign a o1
  · exact keepsSignedness_map_assign a o2

theorem keepsSignedness_extend_like (a : APSInt) (o1 o2 : Option APInt) :
    a.keepsSignedness (if a.IsUnsigned then o1.map (fun v => APSInt.mk v a.IsUnsigned)
      else o2.map (fun v => APSInt.mk v a.IsUnsigned)) := by
  split_ifs
  · exact keepsSignedness_map_mk a o1
  · exact keepsSignedness_map_mk a o2

/-- C38: no operation of `APSInt` drops or flips the signedness tag: the result
of `trunc`, `extend`, `extOrTrunc`, `/`, `%`, `>>`, `<<`, unary `-`, `~`, `&`,
`|`, `^`, `*`, `+`, `-`, of the prefix and postfix `++` and `--`, and the
receiver after these and after every compound assignment, has the
`isUnsigned()` of the receiver before; and each operation has a result whenever
its contract holds. -/
theorem signedness_tag_preserved (a b : APSInt) (width Amt : Nat) :
    ((a.opShr Amt).isUnsigned = a.isUnsigned ∧ (a.opShrAssign Amt).isUnsigned = a.isUnsigned ∧
      (a.opShl Amt).isUnsigned = a.isUnsigned ∧ (a.opShlAssign Amt).isUnsigned = a.isUnsigned ∧
      a.opNeg.isUnsigned = a.isUnsigned ∧ a.opNot.isUnsigned = a.isUnsigned ∧
      a.opPreInc.isUnsigned = a.isUnsigned ∧ a.opPreDec.isUnsigned = a.isUnsigned ∧
      a.opPostInc.1.isUnsigned = a.isUnsigned ∧ a.opPostInc.2.isUnsigned = a.isUnsigned ∧
      a.opPostDec.1.isUnsigned = a.isUnsigned ∧ a.opPostDec.2.isUnsigned = a.isUnsigned) ∧
    (a.keepsSignedness (a.trunc width) ∧ a.keepsSignedness (a.extend width) ∧
      a.keepsSignedness (a.extOrTrunc width) ∧
      a.keepsSignedness (a.opDiv b) ∧ a.keepsSignedness (a.opRem b) ∧
      a.keepsSignedness (a.opDivAssign b) ∧ a.keepsSignedness (a.opRemAssign b) ∧
      a.keepsSignedness (a.opAnd b) ∧ a.keepsSignedness (a.opOr b) ∧
      a.keepsSignedness (a.opXor b) ∧ a.keepsSignedness (a.opMul b) ∧
      a.keepsSignedness (a.opAdd b) ∧ a.keepsSignedness (a.opSub b) ∧
      a.keepsSignedness (a.opAddAssign b) ∧ a.keepsSignedness (a.opSubAssign b) ∧
      a.keepsSignedness (a.opMulAssign b) ∧ a.keepsSignedness (a.opAndAssign b) ∧
      a.keepsSignedness (a.opOrAssign b) ∧ a.keepsSignedness (a.opXorAssign b)) ∧
    ((0 < width → width < a.BitWidth → (a.trunc width).isSome = true) ∧
      (a.BitWidth < width → (a.extend width).isSome = true) ∧
      (0 < width → (a.extOrTrunc width).isSome = true) ∧
      (a.IsUnsigned = b.IsUnsigned → a.BitWidth = b.BitWidth →
        (a.opAnd b).isSome = true ∧ (a.opOr b).isSome = true ∧ (a.opXor b).isSome = true ∧
        (a.opMul b).isSome = true ∧ (a.opAdd b).isSome = true ∧ (a.opSub b).isSome = true ∧
        (a.opAddAssign b).isSome = true ∧ (a.opSubAssign b).isSome = true ∧
        (a.opMulAssign b).isSome = true ∧ (a.opAndAssign b).isSome = true ∧
        (a.opOrAssign b).isSome = true ∧ (a.opXorAssign b).isSome = true ∧
        (b.Bits ≠ 0 → (a.opDiv b).isSome = true ∧ (a.opRem b).isSome = true ∧
          (a.opDivAssign b).isSome = true ∧ (a.opRemAssign b).isSome = true))) := by
  refine ⟨⟨?_, ?_, rfl, rfl, rfl, rfl, rfl, rfl, rfl, rfl, rfl, rfl⟩,
    ⟨keepsSignedness_map_mk a _, keepsSignedness_extend_like a _ _,
      keepsSignedness_extend_like a _ _,
      keepsSignedness_div_like a _ _ _, keepsSignedness_div_like a _ _ _,
      keepsSignedness_guard_assign a _ _ _, keepsSignedness_guard_assign a _ _ _,
      keepsSignedness_guard_mk a _ _, keepsSignedness_guard_mk a _ _,
      keepsSignedness_guard_mk a _ _, keepsSignedness_guard_mk a _ _,
      keepsSignedness_guard_mk a _ _, keepsSignedness_guard_mk a _ _,
      keepsSignedness_guard_with a _ _, keepsSignedness_guard_with a _ _,
      keepsSignedness_guard_with a _ _, keepsSignedness_guard_with a _ _,
      keepsSignedness_guard_with a _ _, keepsSignedness_guard_with a _ _⟩,
    ⟨?_, ?_, ?_, ?_⟩⟩
  · cases hu : a.IsUnsigned <;> simp [opShr, isUnsigned, hu]
  · cases hu : a.IsUnsigned <;> simp [opShrAssign, isUnsigned, hu]
  · intro h0 h1
    simp [trunc, APInt.trunc, h0, h1]
  · intro h1
    obtain ⟨e, he, _⟩ := extend_some h1
    rw [he]
    rfl
  · intro h0
    rcases Nat.lt_trichotomy a.BitWidth width with h | h | h
    · cases hu : a.IsUnsigned <;>
        simp [extOrTrunc, APInt.zextOrTrunc, APInt.sextOrTrunc, APInt.zext, APInt.sext, hu, h]
    · have h1 : ¬ a.BitWidth < width := by omega
      have h2 : ¬ width < a.BitWidth := by omega
      cases hu : a.IsUnsigned <;>
        simp [extOrTrunc, APInt.zextOrTrunc, APInt.sextOrTrunc, hu, h1, h2]
    · have h1 : ¬ a.BitWidth < width := by omega
      cases hu : a.IsUnsigned <;>
        simp [extOrTrunc, APInt.zextOrTrunc, APInt.sextOrTrunc, APInt.trunc, hu, h1, h, h0]
  · intro hs hw
    refine ⟨by simp [opAnd, APInt.and, hs, hw], by simp [opOr, APInt.or, hs, hw],
      by simp [opXor, APInt.xor, hs, hw], by simp [opMul, APInt.mul, hs, hw],
      by simp [opAdd, APInt.add, hs, hw], by simp [opSub, APInt.sub, hs, hw],
      by simp [opAddAssign, APInt.add, hs, hw], by simp [opSubAssign, APInt.sub, hs, hw],
      by simp [opMulAssign, APInt.mul, hs, hw], by simp [opAndAssign, APInt.and, hs, hw],
      by simp [opOrAssign, APInt.or, hs, hw], by simp [opXorAssign, APInt.xor, hs, hw], ?_⟩
    intro hb
    cases hu : b.IsUnsigned <;>
      simp [opDiv, opRem, opDivAssign, opRemAssign, APInt.udiv, APInt.urem, APInt.sdiv,
        APInt.srem, hs, hw, hb, hu]

theorem value_modEq_bits (a : APSInt) :
    a.value ≡ (a.Bits : Int) [ZMOD 2 ^ a.BitWidth] := by
  unfold value APInt.toUnsigned APInt.toSigned
  split_ifs
  · exact Int.ModEq.refl _
  · exact Int.modEq_iff_dvd.2 ⟨1, by ring⟩
  · exact Int.ModEq.refl _

theorem inc_Bits_ne {w b : Nat} (hw : 0 < w) (hb : b < 2 ^ w) : (b + 1) % 2 ^ w ≠ b := by
  have h2 : 2 ^ 1 ≤ 2 ^ w := Nat.pow_le_pow_right (by decide) hw
  by_cases h : b + 1 < 2 ^ w
  · rw [Nat.mod_eq_of_lt h]
    omega
  · have e : b + 1 = 2 ^ w := by omega
    rw [e, Nat.mod_self]
    omega

theorem dec_Bits_eq {w b : Nat} (hb : b < 2 ^ w) :
    (((b : Int) - 1) % 2 ^ w).toNat = if b = 0 then 2 ^ w - 1 else b - 1 := by
  have hp : 0 < 2 ^ w := Nat.two_pow_pos w
  split_ifs with h
  · subst h
    have hP : (0 : Int) < 2 ^ w := by positivity
    have e2 : (((0 : Nat) : Int) - 1) % 2 ^ w = 2 ^ w - 1 := by
      have h := Int.add_mul_emod_self (a := ((0 : Nat) : Int) - 1) (b := 1) (c := (2 : Int) ^ w)
      rw [← h, Int.emod_eq_of_lt] <;> omega
    have e3 : ((2 : Int) ^ w - 1) = ((2 ^ w - 1 : Nat) : Int) := by
      push_cast [Nat.cast_sub hp]
      ring
    rw [e2, e3, Int.toNat_ofNat]
  · have e : ((b : Int) - 1) = ((b - 1 : Nat) : Int) := by omega
    rw [e]
    have : ((b - 1 : Nat) : Int) % 2 ^ w = ((b - 1 : Nat) : Int) := by
      apply Int.emod_eq_of_lt
      · omega
      · have : b - 1 < 2 ^ w := by omega
        exact_mod_cast this
    rw [this, Int.toNat_ofNat]

theorem dec_Bits_cast {w b : Nat} (hw : 0 < w) (hb : b < 2 ^ w) :
    (((((b : Int) - 1) % 2 ^ w).toNat : Nat) : Int) = ((b : Int) - 1) % 2 ^ w ∧
    (((b : Int) - 1) % 2 ^ w).toNat < 2 ^ w ∧ (((b : Int) - 1) % 2 ^ w).toNat ≠ b := by
  have hP : (0 : Int) < 2 ^ w := by positivity
  have h0 : 0 ≤ ((b : Int) - 1) % 2 ^ w := Int.emod_nonneg _ (by omega)
  have h2 : 2 ^ 1 ≤ 2 ^ w := Nat.pow_le_pow_right (by decide) hw
  refine ⟨Int.toNat_of_nonneg h0, ?_, ?_⟩
  · rw [dec_Bits_eq hb]
    split_ifs <;> omega
  · rw [dec_Bits_eq hb]
    split_ifs <;> omega

/-- C39: on a well-formed `x` of width `w`, the postfix `x++` (`x--`) leaves `x`
with the bits `(v + 1) mod 2^w` (`(v - 1) mod 2^w`), width and signedness
unchanged, and returns an `APSInt` equal to this new value, the same object the
prefix form gives, which differs from the value `x` held before. -/
theorem postfix_inc_dec_return_new_value (x : APSInt) (hx : x.WF) :
    (x.opPostInc.2.WF ∧ x.opPostInc.2.BitWidth = x.BitWidth ∧
      x.opPostInc.2.isUnsigned = x.isUnsigned ∧
      x.opPostInc.2.Bits = (x.Bits + 1) % 2 ^ x.BitWidth ∧
      x.opPostInc.2.value ≡ x.value + 1 [ZMOD 2 ^ x.BitWidth] ∧
      x.opPostInc.1 = x.opPostInc.2 ∧ x.opPostInc.1 = x.opPreInc ∧
      x.opPostInc.1.opEq x.opPostInc.2 = some true ∧
      x.opPostInc.1 ≠ x ∧ x.opPostInc.1.opEq x = some false) ∧
    (x.opPostDec.2.WF ∧ x.opPostDec.2.BitWidth = x.BitWidth ∧
      x.opPostDec.2.isUnsigned = x.isUnsigned ∧
      (x.opPostDec.2.Bits : Int) = ((x.Bits : Int) - 1) % 2 ^ x.BitWidth ∧
      x.opPostDec.2.value ≡ x.value - 1 [ZMOD 2 ^ x.BitWidth] ∧
      x.opPostDec.1 = x.opPostDec.2 ∧ x.opPostDec.1 = x.opPreDec ∧
      x.opPostDec.1.opEq x.opPostDec.2 = some true ∧
      x.opPostDec.1 ≠ x ∧ x.opPostDec.1.opEq x = some false) := by
  have hpos : 0 < 2 ^ x.BitWidth := Nat.two_pow_pos _
  have hne := inc_Bits_ne hx.1 hx.2
  obtain ⟨hd1, hd2, hd3⟩ := dec_Bits_cast hx.1 hx.2
  have hbits := value_modEq_bits x
  refine ⟨⟨⟨hx.1, Nat.mod_lt _ hpos⟩, rfl, rfl, rfl, ?_, rfl, rfl, ?_, ?_, ?_⟩,
    ⟨⟨hx.1, hd2⟩, rfl, rfl, hd1, ?_, rfl, rfl, ?_, ?_, ?_⟩⟩
  · have h1 := value_modEq_bits x.opPostInc.2
    have h2 : ((x.opPostInc.2.Bits : Nat) : Int) ≡ (x.Bits : Int) + 1 [ZMOD 2 ^ x.BitWidth] := by
      show (((x.Bits + 1) % 2 ^ x.BitWidth : Nat) : Int) ≡ _ [ZMOD _]
      push_cast
      exact Int.mod_modEq _ _
    exact (h1.trans h2).trans (hbits.symm.add_right 1)
  · have e : x.opPostInc.1 = x.opPostInc.2 := rfl
    rw [e]
    simp [opEq, APInt.eq]
  · intro h
    have hb : x.opPostInc.1.Bits = x.Bits := by rw [h]
    exact hne hb
  · have hb : ¬ (x.Bits + 1) % 2 ^ x.BitWidth = x.Bits := hne
    simp [opEq, APInt.eq, opPostInc, APInt.opPreInc, hb]
  · have h1 := value_modEq_bits x.opPostDec.2
    have h2 : ((x.opPostDec.2.Bits : Nat) : Int) ≡ (x.Bits : Int) - 1 [ZMOD 2 ^ x.BitWidth] := by
      show ((((x.Bits : Int) - 1) % 2 ^ x.BitWidth).toNat : Int) ≡ _ [ZMOD _]
      rw [hd1]
      exact Int.mod_modEq _ _
    exact (h1.trans h2).trans (hbits.symm.sub_right 1)
  · have e : x.opPostDec.1 = x.opPostDec.2 := rfl
    rw [e]
    simp [opEq, APInt.eq]
  · intro h
    have hb : x.opPostDec.1.Bits = x.Bits := by rw [h]
    exact hd3 hb
  · have hb : ¬ (((x.Bits : Int) - 1) % 2 ^ x.BitWidth).toNat = x.Bits := hd3
    simp [opEq, APInt.eq, opPostDec, APInt.opPreDec, hb]

theorem postfix_inc_dec_return_new_value_witness :
    (APSInt.mk ⟨8, 255⟩ true).WF ∧
    (APSInt.mk ⟨8, 255⟩ true).opPostInc = (APSInt.mk ⟨8, 0⟩ true, APSInt.mk ⟨8, 0⟩ true) ∧
    (APSInt.mk ⟨8, 0⟩ false).opPostDec = (APSInt.mk ⟨8, 255⟩ false, APSInt.mk ⟨8, 255⟩ false) ∧
    (APSInt.mk ⟨8, 255⟩ true).opPostInc.1 = (APSInt.mk ⟨8, 255⟩ true).opPostInc.2 ∧
    (APSInt.mk ⟨8, 255⟩ true).opPostInc.1 ≠ APSInt.mk ⟨8, 255⟩ true :=
  ⟨by decide, by decide, by decide,
    (postfix_inc_dec_return_new_value (APSInt.mk ⟨8, 255⟩ true) (by decide)).1.2.2.2.2.2.1,
    (postfix_inc_dec_return_new_value (APSInt.mk ⟨8, 255⟩ true) (by decide)).1.2.2.2.2.2.2.2.2.1⟩

end APSInt

/-! ### The string constructor beyond the range of `unsigned` -/

namespace APSInt

theorem decimalValue_zeros (k : Nat) : decimalValue (List.replicate k '0') = 0 := by
  induction k with
  | zero => simp [decimalValue]
  | succ k ih =>
    rw [List.replicate_succ, APInt.decimalValue_cons, ih]
    simp

theorem isDecimalDigit_zeros (d : Char) (k : Nat) (hd : isDecimalDigit d) :
    ∀ c ∈ d :: List.replicate k '0', isDecimalDigit c := by
  intro c hc
  rcases List.mem_cons.1 hc with h | h
  · rw [h]
    exact hd
  · rw [List.eq_of_mem_replicate h]
    decide

theorem decimalValue_digit_zeros (d : Char) (k : Nat) :
    decimalValue (d :: List.replicate k '0') = (d.toNat - 48) * 10 ^ k := by
  rw [APInt.decimalValue_cons, decimalValue_zeros, List.length_replicate, Nat.add_zero]

theorem digit_zeros_mod_four (d : Char) (k : Nat) (hk : 2 ≤ k) :
    decimalValue (d :: List.replicate k '0') % 2 ^ 2 = 0 := by
  obtain ⟨j, rfl⟩ : ∃ j, k = j + 2 := ⟨k - 2, by omega⟩
  rw [decimalValue_digit_zeros, pow_add]
  have e : (d.toNat - 48) * (10 ^ j * 10 ^ 2) = 4 * ((d.toNat - 48) * 10 ^ j * 25) := by ring
  rw [e]
  norm_num

/-- On a digit followed by zeros, 1,275,068,416 characters in all, the constructor
parses into two bits and returns the one-bit zero. -/
theorem ofString_wrapped_unsigned (d : Char) (k : Nat) (hd : isDecimalDigit d)
    (hk : k + 1 = 1275068416) :
    ofString (d :: List.replicate k '0') = some (APSInt.mk ⟨1, 0⟩ true) := by
  have hlen : (d :: List.replicate k '0').length = 1275068416 := by
    rw [List.length_cons, List.length_replicate, hk]
  have hN := NumBits_of_wrap_length _ hlen
  have hdig := isDecimalDigit_zeros d k hd
  have hp := APInt.parseDigits_decimal _ 0 hdig
  have hmod := digit_zeros_mod_four d k (by omega)
  have hminus : d ≠ '-' := by
    intro h
    rw [h] at hd
    revert hd
    decide
  have hfs : APInt.fromString 2 (d :: List.replicate k '0') 10 = some ⟨2, 0⟩ := by
    simp only [APInt.fromString, hminus, if_false, hp, Option.map_some', Nat.zero_mul,
      Nat.zero_add, hmod]
    rfl
  have hhead : ¬ ((d :: List.replicate k '0').head? = some '-') := by
    simpa using hminus
  have hact : (APInt.mk 2 0).getActiveBits = 0 := by decide
  have htr : (APInt.mk 2 0).trunc (max 1 0) = some ⟨1, 0⟩ := by decide
  simp only [ofString, hN, hfs, hhead, if_false, hact, reduceCtorEq]
  rw [if_pos (by decide), htr]
  rfl

/-- On `-`, a digit and zeros, 1,275,068,416 characters in all, the constructor
parses into two bits and returns the one-bit zero. -/
theorem ofString_wrapped_signed (d : Char) (k : Nat) (hd : isDecimalDigit d)
    (hk : k + 2 = 1275068416) :
    APInt.fromString (NumBits ('-' :: d :: List.replicate k '0'))
      ('-' :: d :: List.replicate k '0') 10 = some ⟨2, 0⟩ ∧
    ofString ('-' :: d :: List.replicate k '0') = some (APSInt.mk ⟨1, 0⟩ false) := by
  have hlen : ('-' :: d :: List.replicate k '0').length = 1275068416 := by
    rw [List.length_cons, List.length_cons, List.length_replicate, hk]
  have hN := NumBits_of_wrap_length _ hlen
  have hdig := isDecimalDigit_zeros d k hd
  have hp := APInt.parseDigits_decimal _ 0 hdig
  have hmod := digit_zeros_mod_four d k (by omega)
  have hne : (d :: List.replicate k '0') ≠ [] := List.cons_ne_nil _ _
  have hfs : APInt.fromString 2 ('-' :: d :: List.replicate k '0') 10 = some ⟨2, 0⟩ := by
    simp only [APInt.fromString, if_true, hne, if_false, hp, Option.map_some', Nat.zero_mul,
      Nat.zero_add, hmod]
    rfl
  have hmin : (APInt.mk 2 0).getMinSignedBits = 1 := by decide
  have htr : (APInt.mk 2 0).trunc (max 1 1) = some ⟨1, 0⟩ := by decide
  refine ⟨by rw [hN]; exact hfs, ?_⟩
  have hne2 : ('-' :: d :: List.replicate k '0') ≠ [] := List.cons_ne_nil _ _
  simp only [ofString, hne2, if_false, hN, hfs, List.head?_cons, if_true, hmin]
  rw [if_pos (by decide), htr]
  rfl

theorem one_zeros_ge (k : Nat) (hk : 2 ≤ k) :
    100 ≤ decimalValue ('1' :: List.replicate k '0') := by
  rw [decimalValue_digit_zeros]
  have h1 : ('1' : Char).toNat - 48 = 1 := by decide
  have h2 : 10 ^ 2 ≤ 10 ^ k := Nat.pow_le_pow_right (by decide) hk
  rw [h1, Nat.one_mul]
  exact h2

theorem ofString_wrapped_unsigned_ne (k : Nat) (hk : k + 1 = 1275068416) :
    ¬ ∃ r, ofString ('1' :: List.replicate k '0') = some r ∧
      r.value = (decimalValue ('1' :: List.replicate k '0') : Int) := by
  rintro ⟨r, hr, hv⟩
  rw [ofString_wrapped_unsigned '1' k (by decide) hk] at hr
  cases hr
  have h0 : (APSInt.mk ⟨1, 0⟩ true).value = 0 := by decide
  have hge := one_zeros_ge k (by omega)
  rw [h0] at hv
  omega

theorem wrapped_width_too_small (k : Nat) (hk : 2 ≤ k) :
    2 < Nat.size (decimalValue ('1' :: List.replicate k '0')) ∧
    ¬ fitsSignedBits 2 (-(decimalValue ('1' :: List.replicate k '0') : Int)) ∧
    (APInt.mk 2 0).toSigned ≠ -(decimalValue ('1' :: List.replicate k '0') : Int) ∧
    (APSInt.mk ⟨1, 0⟩ false).value ≠ -(decimalValue ('1' :: List.replicate k '0') : Int) := by
  have hge := one_zeros_ge k hk
  have h1 : (APInt.mk 2 0).toSigned = 0 := by decide
  have h2 : (APSInt.mk ⟨1, 0⟩ false).value = 0 := by decide
  refine ⟨Nat.lt_size.2 (by omega), ?_, by rw [h1]; omega, by rw [h2]; omega⟩
  rintro ⟨_, hlo, _⟩
  norm_num at hlo
  omega

/-- C13: on the string `1` followed by 1,275,068,415 zeros, 1,275,068,416 decimal
digits in all, the width `NumBits` wraps to `2`, and the constructor returns
the unsigned one-bit zero: no result with the value that the string denotes. -/
theorem ofString_long_string_loses_value :
    ('1' :: List.replicate 1275068415 '0').length = 1275068416 ∧
    (∀ c ∈ '1' :: List.replicate 1275068415 '0', isDecimalDigit c) ∧
    100 ≤ decimalValue ('1' :: List.replicate 1275068415 '0') ∧
    NumBits ('1' :: List.replicate 1275068415 '0') = 2 ∧
    ofString ('1' :: List.replicate 1275068415 '0') = some (APSInt.mk ⟨1, 0⟩ true) ∧
    (APSInt.mk ⟨1, 0⟩ true).value = 0 ∧
    ¬ ∃ r, ofString ('1' :: List.replicate 1275068415 '0') = some r ∧
      r.value = (decimalValue ('1' :: List.replicate 1275068415 '0') : Int) :=
  have hlen : ('1' :: List.replicate 1275068415 '0').length = 1275068416 := by
    rw [List.length_cons, List.length_replicate]
  ⟨hlen, isDecimalDigit_zeros '1' 1275068415 (by decide),
    one_zeros_ge 1275068415 (by norm_num), NumBits_of_wrap_length _ hlen,
    ofString_wrapped_unsigned '1' 1275068415 (by decide) (by norm_num), by decide,
    ofString_wrapped_unsigned_ne 1275068415 (by norm_num)⟩

/-- C29: on `-1` followed by 1,275,068,414 zeros, 1,275,068,416 characters in all,
the width `NumBits` is `2`, below the bits that the magnitude and its negation
need; the parse into `NumBits` bits wraps to `0`, and the constructor returns
the signed one-bit zero instead of the value of the string. -/
theorem string_width_wraps_on_long_string :
    ('-' :: '1' :: List.replicate 1275068414 '0').length = 1275068416 ∧
    NumBits ('-' :: '1' :: List.replicate 1275068414 '0') = 2 ∧
    NumBits ('-' :: '1' :: List.replicate 1275068414 '0') <
      Nat.size (decimalValue ('1' :: List.replicate 1275068414 '0')) ∧
    ¬ fitsSignedBits (NumBits ('-' :: '1' :: List.replicate 1275068414 '0'))
      (-(decimalValue ('1' :: List.replicate 1275068414 '0') : Int)) ∧
    APInt.fromString (NumBits ('-' :: '1' :: List.replicate 1275068414 '0'))
      ('-' :: '1' :: List.replicate 1275068414 '0') 10 = some ⟨2, 0⟩ ∧
    (APInt.mk 2 0).toSigned ≠ -(decimalValue ('1' :: List.replicate 1275068414 '0') : Int) ∧
    ofString ('-' :: '1' :: List.replicate 1275068414 '0') = some (APSInt.mk ⟨1, 0⟩ false) ∧
    (APSInt.mk ⟨1, 0⟩ false).value ≠
      -(decimalValue ('1' :: List.replicate 1275068414 '0') : Int) :=
  have hlen : ('-' :: '1' :: List.replicate 1275068414 '0').length = 1275068416 := by
    rw [List.length_cons, List.length_cons, List.length_replicate]
  have hN := NumBits_of_wrap_length _ hlen
  have hw := wrapped_width_too_small 1275068414 (by norm_num)
  have hs := ofString_wrapped_signed '1' 1275068414 (by decide) (by norm_num)
  ⟨hlen, hN, by rw [hN]; exact hw.1, by rw [hN]; exact hw.2.1, hs.1, hw.2.2.1, hs.2,
    hw.2.2.2⟩

end APSInt

end bijou
